import Mathlib

/-!
# cmd/ggraphqlc/dumper.go

A shallow embedding of the code generator's text writer and of the functions
that emit the resolver interface, the satisfies tables, the per-object field
dispatchers and the type-directed value serializer.

The Go writer appends to an `io.Writer` and keeps an indentation counter.  It
is embedded as a state `Writer` (the text written so far, the counter) and
every method of the Go `writer` becomes a function `Writer → Option Writer`;
`none` stands for a Go panic (index out of range in `lcFirst`/`ucFirst`, a
negative count passed to `strings.Repeat`).  Strings are sequences of Unicode
code points (Go strings holding valid UTF-8).
-/

namespace Dumper

/-! ## Data model -/

/-- Modelled from the spec: the declaration of `Type` is not part of
dumper.go.  Section 3 of the spec lists `name`, `graphqlName`, `basic`, the
ordered `modifiers` (outermost first) and `implementors`, each implementor
being itself a Type; dumper.go reads exactly these fields. -/
inductive GqlType where
  | mk (Name : String) (GraphQLName : String) (Basic : Bool)
      (Modifiers : List String) (Implementors : List GqlType)

/-- Field `Name` of a Type. -/
def GqlType.Name : GqlType → String
  | .mk n _ _ _ _ => n

/-- Field `GraphQLName` of a Type. -/
def GqlType.GraphQLName : GqlType → String
  | .mk _ g _ _ _ => g

/-- Field `Basic` of a Type. -/
def GqlType.Basic : GqlType → Bool
  | .mk _ _ b _ _ => b

/-- Field `Modifiers` of a Type. -/
def GqlType.Modifiers : GqlType → List String
  | .mk _ _ _ m _ => m

/-- Field `Implementors` of a Type. -/
def GqlType.Implementors : GqlType → List GqlType
  | .mk _ _ _ _ i => i

/-- Modelled from the spec: a field argument `{name, Type}` (section 3,
`args`); its declaration is not part of dumper.go. -/
structure FieldArg where
  Name : String
  Type_ : GqlType

/-- Modelled from the spec: a Field (section 3); dumper.go reads
`GraphQLName`, `VarName`, `MethodName`, `Args`, `NoErr` and `Type`. -/
structure Field where
  GraphQLName : String
  VarName : String
  MethodName : String
  Args : List FieldArg
  NoErr : Bool
  Type_ : GqlType

/-- Modelled from the spec: an Object (section 3); dumper.go reads `Name`,
`Type`, `Fields` and `satisfies`. -/
structure Object where
  Name : String
  Type_ : GqlType
  Fields : List Field
  satisfies : List String

/-- Modelled from the spec: the extractor embedded in the writer (section 6,
input contract): package name, the alias-to-path mapping of the imports, the
objects and the raw schema text.  `Imports` lists the entries of the Go map. -/
structure Extractor where
  PackageName : String
  Imports : List (String × String)
  Objects : List Object
  schemaRaw : String

/-- What dumper.go uses and does not define: the standard library functions
`strconv.Quote`, `filepath.Base`, `unicode.ToUpper`, `unicode.ToLower`, the
constants `modPtr` and `modList`, and the method `Type.Local`.  They are
parameters of the embedding. -/
structure Env where
  Quote : String → String
  Base : String → String
  ToUpper : Char → Char
  ToLower : Char → Char
  modPtr : String
  modList : String
  Local : GqlType → String

/-! ## fmt.Sprintf -/

/-- The text `fmt.Sprintf` appends after the format is consumed when operands
are left over: nothing if none is left, else `%!(EXTRA string=a, string=b)`. -/
def sprintfExtra : List String → List Char
  | [] => []
  | args => "%!(EXTRA ".data ++ (", ".intercalate (args.map fun a => "string=" ++ a)).data ++ [')']

/-- Function `fmt.Sprintf` on string operands, over the characters of the
format.  `%s` and `%v` print the next operand, `%%` prints a percent sign; a
verb without operand prints `%!c(MISSING)`, a lone `%` at the end prints
`%!(NOVERB)`, another verb character prints `%!c(string=operand)`.  Flags,
widths and the remaining verbs of Go are outside this fragment; every format
string written in dumper.go uses `%s` and `%%` only.  The quoted path that
`writeImports` passes as a format is read the same way, so a path that holds
`%` followed by a flag or a width is outside the fragment as well. -/
def sprintfAux : List Char → List String → List Char
  | [], args => sprintfExtra args
  | [c], args =>
    if c = '%' then "%!(NOVERB)".data ++ sprintfExtra args else c :: sprintfExtra args
  | c :: d :: cs, args =>
    if c = '%' then
      if d = '%' then '%' :: sprintfAux cs args
      else
        match args with
        | [] => "%!".data ++ d :: "(MISSING)".data ++ sprintfAux cs []
        | a :: args =>
          if d = 's' ∨ d = 'v' then a.data ++ sprintfAux cs args
          else "%!".data ++ d :: "(string=".data ++ a.data ++ ')' :: sprintfAux cs args
    else c :: sprintfAux (d :: cs) args

/-- Function `fmt.Sprintf(format, args...)` with string operands. -/
def Sprintf (format : String) (args : List String) : String :=
  ⟨sprintfAux format.data args⟩

/-! ## The writer -/

/-- The Go struct `writer`: the text written to `out` so far and `indent`.
The embedded `extractor` is only read; the functions below that read it take
it as an argument. -/
structure Writer where
  out : String
  indent : Int
  deriving DecidableEq

/-- Method `emit`: `io.WriteString(w.out, fmt.Sprintf(format, args...))`. -/
def emit (format : String) (args : List String) (w : Writer) : Option Writer :=
  some { w with out := w.out ++ Sprintf format args }

/-- Function `strings.Repeat("\t", n)`; it panics on a negative count. -/
def repeatTab (n : Int) : Option String :=
  if n < 0 then none else some ⟨List.replicate n.toNat '\t'⟩

/-- Method `emitIndent`. -/
def emitIndent (w : Writer) : Option Writer :=
  (repeatTab w.indent).map fun tabs => { w with out := w.out ++ tabs }

/-- Method `lf`. -/
def lf (w : Writer) : Option Writer :=
  some { w with out := w.out ++ "\n" }

/-- Method `begin`. -/
def begin_ (format : String) (args : List String) (w : Writer) : Option Writer := do
  let w ← emitIndent w
  let w ← emit format args w
  let w ← lf w
  some { w with indent := w.indent + 1 }

/-- Method `end`. -/
def end_ (format : String) (args : List String) (w : Writer) : Option Writer := do
  let w : Writer := { w with indent := w.indent - 1 }
  let w ← emitIndent w
  let w ← emit format args w
  lf w

/-- Method `line`. -/
def line (format : String) (args : List String) (w : Writer) : Option Writer := do
  let w ← emitIndent w
  let w ← emit format args w
  lf w

/-- A Go `for _, x := range xs` loop whose body updates the writer. -/
def forRange {α : Type} (xs : List α) (body : α → Writer → Option Writer) (w : Writer) :
    Option Writer :=
  match xs with
  | [] => some w
  | x :: rest => (body x w).bind (forRange rest body)

/-- Function `ucFirst`: `r[0]` panics on the empty string. -/
def ucFirst (env : Env) (s : String) : Option String :=
  match s.data with
  | [] => none
  | c :: cs => some ⟨env.ToUpper c :: cs⟩

/-- Function `lcFirst`: `r[0]` panics on the empty string. -/
def lcFirst (env : Env) (s : String) : Option String :=
  match s.data with
  | [] => none
  | c :: cs => some ⟨env.ToLower c :: cs⟩

/-- Method `writePackage`. -/
def writePackage (ex : Extractor) (w : Writer) : Option Writer := do
  let w ← line "package %s" [ex.PackageName] w
  lf w

/-- Method `writeImports`.  Go ranges over the map `w.Imports` in an order the
runtime chooses; `iter` is the sequence of entries that the range yields. -/
def writeImports (env : Env) (iter : List (String × String)) (w : Writer) : Option Writer := do
  let w ← begin_ "import (" [] w
  let w ← forRange iter (fun e w =>
    if e.1 = env.Base e.2 then line (env.Quote e.2) [] w
    else line "%s %s" [e.1, env.Quote e.2] w) w
  let w ← end_ ")" [] w
  lf w

/-- The body of the loop over `o.Fields` in `writeInterface`. -/
def writeInterfaceField (env : Env) (o : Object) (f : Field) (w : Writer) : Option Writer :=
  if f.VarName ≠ "" ∨ f.MethodName ≠ "" then some w
  else do
    let w ← emitIndent w
    let w ← emit "%s_%s(" [o.Name, f.GraphQLName] w
    let w ← emit "ctx context.Context" [] w
    let w ← if o.Type_.Name ≠ "interface\x7b\x7d" then emit ", it *%s" [env.Local o.Type_] w else some w
    let w ← forRange f.Args (fun arg w => emit ", %s %s" [arg.Name, env.Local arg.Type_] w) w
    let w ← emit ") (%s, error)" [env.Local f.Type_] w
    lf w

/-- Method `writeInterface`. -/
def writeInterface (env : Env) (ex : Extractor) (w : Writer) : Option Writer := do
  let w ← begin_ "type Resolvers interface \x7b" [] w
  let w ← forRange ex.Objects (fun o w => forRange o.Fields (writeInterfaceField env o) w) w
  let w ← end_ "\x7d" [] w
  lf w

/-- The string `satisfies` that `writeVars` builds for one object. -/
def satisfiesList (env : Env) (o : Object) : String :=
  o.satisfies.foldl (fun satisfies s => satisfies ++ (", " ++ env.Quote s))
    (env.Quote o.Type_.GraphQLName)

/-- Method `writeVars`. -/
def writeVars (env : Env) (ex : Extractor) (w : Writer) : Option Writer := do
  let w ← begin_ "var (" [] w
  let w ← forRange ex.Objects (fun o w => do
    let satisfies := satisfiesList env o
    let name ← lcFirst env o.Type_.GraphQLName
    line "%sSatisfies = []string\x7b%s\x7d" [name, satisfies] w) w
  let w ← end_ ")" [] w
  lf w

/-- Method `writeEvaluateVar`. -/
def writeEvaluateVar (field : Field) (w : Writer) : Option Writer :=
  line "res := %s" [field.VarName] w

/-- Method `writeFuncArgs`. -/
def writeFuncArgs (env : Env) (object : Object) (field : Field) (w : Writer) : Option Writer :=
  if field.Args.length = 0 ∧ field.MethodName ≠ "" then do
    let w ← emit "()" [] w
    lf w
  else do
    let w : Writer := { w with indent := w.indent + 1 }
    let w ← emit "(" [] w
    let w ← lf w
    let w ← if field.MethodName = "" then do
        let w ← line "ec.ctx," [] w
        if object.Type_.Name ≠ "interface\x7b\x7d" then line "it," [] w else some w
      else some w
    let w ← forRange field.Args (fun arg w =>
      line "field.Args[%s].(%s)," [env.Quote arg.Name, env.Local arg.Type_] w) w
    end_ ")" [] w

/-- Method `writeEvaluateMethod`. -/
def writeEvaluateMethod (env : Env) (object : Object) (field : Field) (w : Writer) :
    Option Writer := do
  let methodName :=
    if field.MethodName ≠ "" then field.MethodName
    else Sprintf "ec.resolvers.%s_%s" [object.Name, field.GraphQLName]
  if field.NoErr then
    let w ← emitIndent w
    let w ← emit "res := %s" [methodName] w
    writeFuncArgs env object field w
  else
    let w ← emitIndent w
    let w ← emit "res, err := %s" [methodName] w
    let w ← writeFuncArgs env object field w
    let w ← line "if err != nil \x7b" [] w
    let w ← line "\tec.Error(err)" [] w
    let w ← line "\tcontinue" [] w
    line "\x7d" [] w

/-- The base case of `doWriteJsonType`, after the loop over the modifiers. -/
def writeJsonBase (env : Env) (result : String) (t : GqlType) (val : String) (isPtr : Bool)
    (w : Writer) : Option Writer :=
  if t.Basic then do
    let val := if isPtr then "*" ++ val else val
    let name ← ucFirst env t.Name
    line "%s := jsonw.%s(%s)" [result, name, val] w
  else if t.Implementors.length > 0 then do
    let w ← line "var %s jsonw.Encodable = jsonw.Null" [result] w
    let w ← line "switch it := %s.(type) \x7b" [val] w
    let w ← line "case nil:" [] w
    let w ← line "\t%s = jsonw.Null" [result] w
    let w ← forRange t.Implementors (fun implementor w => do
      let w ← line "case %s:" [env.Local implementor] w
      let name ← lcFirst env implementor.GraphQLName
      let w ← line "\t%s = _%s(ec, field.Selections, &it)" [result, name] w
      let w ← line "case *%s:" [env.Local implementor] w
      let name ← lcFirst env implementor.GraphQLName
      line "\t%s = _%s(ec, field.Selections, it)" [result, name] w) w
    let w ← line "default:" [] w
    let w ← line "\tpanic(fmt.Errorf(\"unexpected type %%T\", it))" [] w
    line "\x7d" [] w
  else do
    let val := if !isPtr then "&" ++ val else val
    let name ← lcFirst env t.GraphQLName
    line "%s := _%s(ec, field.Selections, %s)" [result, name, val] w

/-- Method `doWriteJsonType`.  The Go loop scans `remainingMods` for the first
tag equal to `modPtr` or `modList`, handles it and returns; a tag that is
neither is passed over by `i++`. -/
def doWriteJsonType (env : Env) (result : String) (t : GqlType) (val : String)
    (remainingMods : List String) (isPtr : Bool) (w : Writer) : Option Writer :=
  match remainingMods with
  | [] => writeJsonBase env result t val isPtr w
  | m :: rest =>
    if m = env.modPtr then do
      let w ← line "var %s jsonw.Encodable = jsonw.Null" [result] w
      let w ← begin_ "if %s != nil \x7b" [val] w
      let w ← doWriteJsonType env (result ++ "1") t val rest true w
      let w ← line "%s = %s" [result, result ++ "1"] w
      end_ "\x7d" [] w
    else if m = env.modList then do
      let val := if isPtr then "*" ++ val else val
      let w ← line "%s := jsonw.Array\x7b\x7d" [result] w
      let w ← begin_ "for _, val := range %s \x7b" [val] w
      let w ← doWriteJsonType env (result ++ "1") t "val" rest false w
      let w ← line "%s = append(%s, %s)" [result, result, result ++ "1"] w
      end_ "\x7d" [] w
    else doWriteJsonType env result t val rest isPtr w

/-- Method `writeJsonType`. -/
def writeJsonType (env : Env) (result : String) (t : GqlType) (val : String) (w : Writer) :
    Option Writer :=
  doWriteJsonType env result t val t.Modifiers false w

/-- The body of the loop over `object.Fields` in `writeObjectResolver`: one
`case` of the generated switch. -/
def writeObjectResolverCase (env : Env) (object : Object) (field : Field) (w : Writer) :
    Option Writer := do
  let w ← begin_ "case %s:" [env.Quote field.GraphQLName] w
  let w ← if field.VarName ≠ "" then writeEvaluateVar field w
    else writeEvaluateMethod env object field w
  let w ← writeJsonType env "json" field.Type_ "res" w
  let w ← line "resultMap.Set(field.Alias, json)" [] w
  let w ← line "continue" [] w
  end_ "" [] w

/-- Method `writeObjectResolver`. -/
def writeObjectResolver (env : Env) (object : Object) (w : Writer) : Option Writer := do
  let name ← lcFirst env object.Type_.GraphQLName
  let w ← begin_ "func _%s(ec *executionContext, sel []query.Selection, it *%s) jsonw.Encodable \x7b"
    [name, env.Local object.Type_] w
  let name ← lcFirst env object.Type_.GraphQLName
  let w ← line "groupedFieldSet := ec.collectFields(sel, %sSatisfies, map[string]bool\x7b\x7d)" [name] w
  let w ← line "resultMap := jsonw.Map\x7b\x7d" [] w
  let w ← begin_ "for _, field := range groupedFieldSet \x7b" [] w
  let w ← line "switch field.Name \x7b" [] w
  let w ← forRange object.Fields (writeObjectResolverCase env object) w
  let w ← line "\x7d" [] w
  let w ← line "panic(\"unknown field \" + strconv.Quote(field.Name))" [] w
  let w ← end_ "\x7d" [] w
  let w ← line "return resultMap" [] w
  let w ← end_ "\x7d" [] w
  lf w

/-- Method `writeSchema`. -/
def writeSchema (env : Env) (ex : Extractor) (w : Writer) : Option Writer :=
  line "var parsedSchema = schema.MustParse(%s)" [env.Quote ex.schemaRaw] w

/-- Method `importHack`. -/
def importHack (w : Writer) : Option Writer :=
  line "var _ = fmt.Print" [] w

/-- Function `write`; `iter` is the order in which the range over the map
`Imports` yields its entries. -/
def write (env : Env) (ex : Extractor) (iter : List (String × String)) : Option Writer := do
  let wr : Writer := { out := "", indent := 0 }
  let wr ← writePackage ex wr
  let wr ← writeImports env iter wr
  let wr ← writeInterface env ex wr
  let wr ← writeVars env ex wr
  let wr ← forRange ex.Objects (fun object wr => writeObjectResolver env object wr) wr
  let wr ← writeSchema env ex wr
  importHack wr

/-! ## Vocabulary of the statements -/

/-- The indentation written at indent `n`: `n` tab characters. -/
def tabs (n : Int) : String := ⟨List.replicate n.toNat '\t'⟩

/-- One output line at indent `n`: the indentation, the text, a line feed. -/
def ln (n : Int) (s : String) : String := tabs n ++ s ++ "\n"

/-- Concatenation of a list of texts, in list order. -/
def catAll : List String → String
  | [] => ""
  | s :: rest => s ++ catAll rest

/-- The text a writer function emits when started at indent `n` on an empty
output, or `none` if it panics. -/
def emission (f : Writer → Option Writer) (n : Int) : Option String :=
  (f ⟨"", n⟩).map fun w => w.out

/-- A writer function is framed at indent `n` when, from any output written so
far, it appends its emission and leaves the indent as it found it (or panics,
when its emission is `none`). -/
def Framed (f : Writer → Option Writer) (n : Int) : Prop :=
  ∀ out : String, f ⟨out, n⟩ = (emission f n).map fun text => ⟨out ++ text, n⟩

/-- The arguments of an emitted call, one per line: for a field without
`MethodName` the context and (unless the object's type is `interface{}`) the
receiver, then the field's arguments. -/
def callArgs (env : Env) (object : Object) (field : Field) : List String :=
  (if field.MethodName = "" then
      "ec.ctx," :: (if object.Type_.Name ≠ "interface\x7b\x7d" then ["it,"] else [])
    else [])
  ++ field.Args.map fun arg => "field.Args[" ++ env.Quote arg.Name ++ "].(" ++ env.Local arg.Type_ ++ "),"

/-- The callee of an emitted call. -/
def callee (object : Object) (field : Field) : String :=
  if field.MethodName ≠ "" then field.MethodName
  else "ec.resolvers." ++ object.Name ++ "_" ++ field.GraphQLName

/-- The parenthesised argument list of an emitted call, written at indent `n`. -/
def callText (env : Env) (object : Object) (field : Field) (n : Int) : String :=
  if field.Args.length = 0 ∧ field.MethodName ≠ "" then "()\n"
  else "(\n" ++ catAll ((callArgs env object field).map (ln (n + 1))) ++ ln n ")"

/-- The texts of all elements, in order, or `none` if one of them is `none`. -/
def allTexts {α : Type} (text : α → Option String) : List α → Option (List String)
  | [] => some []
  | x :: xs => (text x).bind fun s => (allTexts text xs).map fun ss => s :: ss

/-- The two arms that the type switch has for one implementor. -/
def implementorArms (env : Env) (result : String) (n : Int) (implementor : GqlType) :
    Option String :=
  (lcFirst env implementor.GraphQLName).map fun name =>
    ln n ("case " ++ env.Local implementor ++ ":")
    ++ ln n ("\t" ++ result ++ " = _" ++ name ++ "(ec, field.Selections, &it)")
    ++ ln n ("case *" ++ env.Local implementor ++ ":")
    ++ ln n ("\t" ++ result ++ " = _" ++ name ++ "(ec, field.Selections, it)")

/-- The text of the base case of the serializer. -/
def baseText (env : Env) (result : String) (t : GqlType) (val : String) (isPtr : Bool) (n : Int) :
    Option String :=
  if t.Basic then
    (ucFirst env t.Name).map fun name =>
      ln n (result ++ " := jsonw." ++ name ++ "(" ++ (if isPtr then "*" ++ val else val) ++ ")")
  else if t.Implementors.length > 0 then
    (allTexts (implementorArms env result n) t.Implementors).map fun arms =>
      ln n ("var " ++ result ++ " jsonw.Encodable = jsonw.Null")
      ++ ln n ("switch it := " ++ val ++ ".(type) \x7b")
      ++ ln n "case nil:"
      ++ ln n ("\t" ++ result ++ " = jsonw.Null")
      ++ catAll arms
      ++ ln n "default:"
      ++ ln n "\tpanic(fmt.Errorf(\"unexpected type %T\", it))"
      ++ ln n "\x7d"
  else
    (lcFirst env t.GraphQLName).map fun name =>
      ln n (result ++ " := _" ++ name ++ "(ec, field.Selections, "
        ++ (if isPtr then val else "&" ++ val) ++ ")")

/-- The parameters of the abstract method of a field: the context, the
receiver unless the object's type is `interface{}`, the field's arguments. -/
def methodParams (env : Env) (o : Object) (f : Field) : List String :=
  "ctx context.Context"
    :: ((if o.Type_.Name ≠ "interface\x7b\x7d" then ["it *" ++ env.Local o.Type_] else [])
      ++ f.Args.map fun arg => arg.Name ++ " " ++ env.Local arg.Type_)

/-- The fields of an object that have neither `VarName` nor `MethodName`. -/
def abstractFields (o : Object) : List Field :=
  o.Fields.filter fun f => decide (f.VarName = "" ∧ f.MethodName = "")

/-- The method line of an abstract field, at indent `n`. -/
def methodLine (env : Env) (n : Int) (o : Object) (f : Field) : String :=
  tabs n ++ o.Name ++ "_" ++ f.GraphQLName ++ "(" ++ ", ".intercalate (methodParams env o f)
    ++ ") (" ++ env.Local f.Type_ ++ ", error)" ++ "\n"

/-- The satisfies table line of an object at indent `n`; `none` when the
object's type has an empty `GraphQLName`. -/
def satisfiesLine (env : Env) (n : Int) (o : Object) : Option String :=
  (lcFirst env o.Type_.GraphQLName).map fun name =>
    ln n (name ++ "Satisfies = []string\x7b"
      ++ ", ".intercalate ((o.Type_.GraphQLName :: o.satisfies).map env.Quote) ++ "\x7d")

/-- The text that evaluates a field into `res`, at indent `n`: a direct read
for a field with `VarName`, else the call, followed by the error check unless
`NoErr`. -/
def evaluateText (env : Env) (object : Object) (field : Field) (n : Int) : String :=
  if field.VarName ≠ "" then ln n ("res := " ++ field.VarName)
  else if field.NoErr then
    tabs n ++ "res := " ++ callee object field ++ callText env object field n
  else
    tabs n ++ "res, err := " ++ callee object field ++ callText env object field n
      ++ ln n "if err != nil \x7b" ++ ln n "\tec.Error(err)" ++ ln n "\tcontinue" ++ ln n "\x7d"

/-- The text of one `case` of the generated switch, at indent `n`: the case
line, the evaluation of the field into `res`, the serialization of `res` into
`json`, the insertion into the result map, `continue`, and the line that
`end("")` writes.  It is `none` when the serializer panics. -/
def caseText (env : Env) (object : Object) (field : Field) (n : Int) : Option String :=
  (emission (writeJsonType env "json" field.Type_ "res") (n + 1)).map fun ser =>
    ln n ("case " ++ env.Quote field.GraphQLName ++ ":")
      ++ evaluateText env object field (n + 1) ++ ser
      ++ ln (n + 1) "resultMap.Set(field.Alias, json)" ++ ln (n + 1) "continue"
      ++ ln n ""

/-- The arms of the type switch of the polymorphic base case, at indent `n`,
for the implementors and the lower-cased names of their dispatchers: the `nil`
arm, for each implementor the by-value arm and then the by-reference arm, the
`default` arm. -/
def switchArms (env : Env) (result : String) (n : Int) (implementors : List GqlType)
    (names : List String) : List String :=
  [ln n "case nil:" ++ ln n ("\t" ++ result ++ " = jsonw.Null")]
  ++ (List.zipWith (fun implementor name =>
        [ln n ("case " ++ env.Local implementor ++ ":")
            ++ ln n ("\t" ++ result ++ " = _" ++ name ++ "(ec, field.Selections, &it)"),
         ln n ("case *" ++ env.Local implementor ++ ":")
            ++ ln n ("\t" ++ result ++ " = _" ++ name ++ "(ec, field.Selections, it)")])
      implementors names).flatten
  ++ [ln n "default:" ++ ln n "\tpanic(fmt.Errorf(\"unexpected type %T\", it))"]

/-- The text of a `modPtr` block around a nested text. -/
def ptrBlock (r v : String) (n : Int) (nested : String) : String :=
  ln n ("var " ++ r ++ " jsonw.Encodable = jsonw.Null") ++ ln n ("if " ++ v ++ " != nil \x7b")
    ++ nested ++ ln (n + 1) (r ++ " = " ++ r ++ "1") ++ ln n "\x7d"

/-- The text of a `modList` block around a nested text. -/
def listBlock (r v : String) (n : Int) (nested : String) : String :=
  ln n (r ++ " := jsonw.Array\x7b\x7d") ++ ln n ("for _, val := range " ++ v ++ " \x7b")
    ++ nested ++ ln (n + 1) (r ++ " = append(" ++ r ++ ", " ++ r ++ "1" ++ ")") ++ ln n "\x7d"

/-- One block that the serializer opens for a `modPtr` or `modList` tag: the
declaration line of its result, the line that opens the block, and the lines
that close it (the assignment to the result and `}`). -/
structure Block where
  decl : String
  opening : String
  closing : String

/-- The blocks that the serializer opens for a modifier sequence, outermost
first, started with result name `r`, value reference `v`, `isPtr` `p` at
indent `n`. -/
def blocks (env : Env) (r v : String) (p : Bool) (n : Int) : List String → List Block
  | [] => []
  | m :: rest =>
    if m = env.modPtr then
      { decl := ln n ("var " ++ r ++ " jsonw.Encodable = jsonw.Null"),
        opening := ln n ("if " ++ v ++ " != nil \x7b"),
        closing := ln (n + 1) (r ++ " = " ++ r ++ "1") ++ ln n "\x7d" }
        :: blocks env (r ++ "1") v true (n + 1) rest
    else if m = env.modList then
      { decl := ln n (r ++ " := jsonw.Array\x7b\x7d"),
        opening := ln n ("for _, val := range " ++ (if p then "*" ++ v else v) ++ " \x7b"),
        closing := ln (n + 1) (r ++ " = append(" ++ r ++ ", " ++ r ++ "1" ++ ")") ++ ln n "\x7d" }
        :: blocks env (r ++ "1") "val" false (n + 1) rest
    else blocks env r v p n rest

/-- The result name, value reference, `isPtr` and indent with which the
serializer reaches its base case. -/
def innermost (env : Env) (r v : String) (p : Bool) (n : Int) :
    List String → String × String × Bool × Int
  | [] => (r, v, p, n)
  | m :: rest =>
    if m = env.modPtr then innermost env (r ++ "1") v true (n + 1) rest
    else if m = env.modList then innermost env (r ++ "1") "val" false (n + 1) rest
    else innermost env r v p n rest

/-- The type with its modifier sequence replaced. -/
def GqlType.withModifiers (t : GqlType) (mods : List String) : GqlType :=
  .mk t.Name t.GraphQLName t.Basic mods t.Implementors

/-- A position of the signature of an abstract method and of its call: the
context, the receiver, or a field argument. -/
inductive Slot where
  | context
  | receiver
  | argument (arg : FieldArg)

/-- The positions of an abstract field, in order: the context, the receiver
unless the object's type is `interface{}`, one per field argument. -/
def slots (o : Object) (f : Field) : List Slot :=
  Slot.context
    :: ((if o.Type_.Name ≠ "interface\x7b\x7d" then [Slot.receiver] else [])
      ++ f.Args.map Slot.argument)

/-- The parameter that the interface declares at a position. -/
def Slot.param (env : Env) (o : Object) : Slot → String
  | .context => "ctx context.Context"
  | .receiver => "it *" ++ env.Local o.Type_
  | .argument arg => arg.Name ++ " " ++ env.Local arg.Type_

/-- The argument that the call site passes at a position. -/
def Slot.passed (env : Env) : Slot → String
  | .context => "ec.ctx,"
  | .receiver => "it,"
  | .argument arg => "field.Args[" ++ env.Quote arg.Name ++ "].(" ++ env.Local arg.Type_ ++ "),"

/-- The text of `k` characters `1`, the suffix of the result name at nesting
depth `k`. -/
def ones (k : Nat) : String := ⟨List.replicate k '1'⟩

/-- The emitted text starts with the declaration of the variable `r` at indent
`n`: the line `var r jsonw.Encodable = jsonw.Null`, or a line `r := …`. -/
def DeclaresFirst (r : String) (n : Int) (text : String) : Prop :=
  (∃ rest, text = ln n ("var " ++ r ++ " jsonw.Encodable = jsonw.Null") ++ rest)
  ∨ (∃ rest, text = tabs n ++ r ++ " := " ++ rest)

/-- A writer function shifts the indent by `k`: whenever it returns, the
indent is its value on entry plus `k`. -/
def Shifts (f : Writer → Option Writer) (k : Int) : Prop :=
  ∀ w w', f w = some w' → w'.indent = w.indent + k

/-- A writer function is balanced: whenever it returns, the indent is equal to
its value on entry. -/
def Balanced (f : Writer → Option Writer) : Prop := Shifts f 0

/-- The line that `writeImports` writes for one entry of the imports, at
indent `n`: the quoted path alone, passed to `fmt.Sprintf` as the format, when
the alias is the base name of the path; else the alias and the quoted path. -/
def importLine (env : Env) (n : Int) (e : String × String) : String :=
  if e.1 = env.Base e.2 then ln n (Sprintf (env.Quote e.2) [])
  else ln n (e.1 ++ " " ++ env.Quote e.2)

/-- The name that the base case of the serializer prints for a type is not
empty: `Name` for a basic type, the `GraphQLName` of every implementor for a
polymorphic type, `GraphQLName` for a plain object type. -/
def baseNamed (t : GqlType) : Bool :=
  if t.Basic then t.Name != ""
  else if t.Implementors.length > 0 then t.Implementors.all fun i => i.GraphQLName != ""
  else t.GraphQLName != ""

/-- The names that the dispatcher of an object needs are not empty: the
`GraphQLName` of its type and the base-case name of every field's type. -/
def objectNamed (o : Object) : Bool :=
  o.Type_.GraphQLName != "" && o.Fields.all fun f => baseNamed f.Type_

/-- The names that `write` needs are not empty, for every object of the model. -/
def modelNamed (ex : Extractor) : Bool := ex.Objects.all objectNamed

/-- The field as the generator reads it: `MethodName` cleared when the field
has a `VarName`. -/
def Field.dropMethod (f : Field) : Field :=
  if f.VarName ≠ "" then { f with MethodName := "" } else f

/-- The object with `MethodName` cleared in every field that has a `VarName`. -/
def Object.dropMethods (o : Object) : Object :=
  { o with Fields := o.Fields.map Field.dropMethod }

/-- The model with `MethodName` cleared in every field that has a `VarName`. -/
def Extractor.dropMethods (ex : Extractor) : Extractor :=
  { ex with Objects := ex.Objects.map Object.dropMethods }

/-! ## Data of the examples -/

/-- An environment for the examples: `modPtr` is `*`, `modList` is `[]`,
`Local` prefixes the name with the modifiers, `Quote` wraps a text that needs
no escape in double quotes, the case maps are those of ASCII. -/
def exEnv : Env where
  Quote s := "\"" ++ s ++ "\""
  Base s := s
  ToUpper := Char.toUpper
  ToLower := Char.toLower
  modPtr := "*"
  modList := "[]"
  Local t := String.join t.Modifiers ++ t.Name

/-- The scalar type `string`. -/
def tString : GqlType := .mk "string" "String" true [] []

/-- The object type `User`. -/
def tUser : GqlType := .mk "User" "User" false [] []

/-- An object `User` with a resolver field `friends(first)` and a bound field. -/
def exUser : Object :=
  { Name := "User", Type_ := tUser,
    Fields := [⟨"friends", "", "", [⟨"first", tString⟩], false, tString⟩,
               ⟨"name", "it.Name", "", [], false, tString⟩],
    satisfies := ["Node"] }

/-- The resolver field `friends(first)` of `exUser`. -/
def exFriends : Field := ⟨"friends", "", "", [⟨"first", tString⟩], false, tString⟩

/-- The object type `Post`. -/
def tPost : GqlType := .mk "Post" "Post" false [] []

/-- The interface type `Node` with the implementors `Post` and `User`. -/
def tNode : GqlType := .mk "Node" "Node" false [] [tPost, tUser]

/-- The root object `Query` (type `interface{}`) with the resolver field
`user(id)`. -/
def exQuery : Object :=
  { Name := "Query", Type_ := .mk "interface\x7b\x7d" "Query" false [] [],
    Fields := [⟨"user", "", "", [⟨"id", tString⟩], false, tUser⟩],
    satisfies := [] }

/-- An extractor with the objects `Query` and `User`. -/
def exExtractor : Extractor :=
  { PackageName := "gen", Imports := [], Objects := [exQuery, exUser], schemaRaw := "" }

/-- A Delegated field of `exUser`: `posts(limit)` calls the method `it.Posts`. -/
def exPosts : Field := ⟨"posts", "", "it.Posts", [⟨"limit", tString⟩], false, tString⟩

/-- The Bound field `name` of `exUser`, read from `it.Name`. -/
def exName : Field := ⟨"name", "it.Name", "", [], false, tString⟩

/-- A field with both a binding and a delegated call set. -/
def exConflict : Field := ⟨"title", "it.Title", "it.GetTitle", [], false, tString⟩

/-- An extractor whose only object `Post` has the field `exConflict`. -/
def exConflictModel : Extractor :=
  { PackageName := "gen", Imports := [],
    Objects := [⟨"Post", tPost, [exConflict], []⟩], schemaRaw := "" }

/-- A model with two imports and no object. -/
def exTwoImports : Extractor :=
  { PackageName := "gen", Imports := [("context", "context"), ("fmt", "fmt")],
    Objects := [], schemaRaw := "" }

/-- A model with one object `Post` without fields and no import. -/
def exPostModel : Extractor :=
  { PackageName := "gen", Imports := [], Objects := [⟨"Post", tPost, [], []⟩],
    schemaRaw := "type Post" }

end Dumper

namespace Dumper

/-! ## Texts -/

theorem catAll_append (xs ys : List String) : catAll (xs ++ ys) = catAll xs ++ catAll ys := by
  induction xs with
  | nil => simp [catAll]
  | cons x xs ih => simp [catAll, ih, String.append_assoc]

theorem tabs_length {n : Int} (h : 0 ≤ n) : ((tabs n).length : Int) = n := by
  simp [tabs, String.length, Int.toNat_of_nonneg h]

theorem repeatTab_of_nonneg {n : Int} (h : 0 ≤ n) : repeatTab n = some (tabs n) := by
  simp [repeatTab, tabs, not_lt.mpr h]

theorem repeatTab_of_neg {n : Int} (h : n < 0) : repeatTab n = none := by
  simp [repeatTab, h]

/-! ## Formats of dumper.go -/

section Formats
variable (a b c : String)

@[simp] theorem sprintf_plain_close : Sprintf "\x7d" [] = "\x7d" := by decide
@[simp] theorem sprintf_plain_paren : Sprintf ")" [] = ")" := by decide
@[simp] theorem sprintf_plain_empty : Sprintf "" [] = "" := by decide
@[simp] theorem sprintf_plain_call0 : Sprintf "()" [] = "()" := by decide
@[simp] theorem sprintf_plain_open : Sprintf "(" [] = "(" := by decide
@[simp] theorem sprintf_plain_ctx : Sprintf "ec.ctx," [] = "ec.ctx," := by decide
@[simp] theorem sprintf_plain_it : Sprintf "it," [] = "it," := by decide
@[simp] theorem sprintf_plain_iferr : Sprintf "if err != nil \x7b" [] = "if err != nil \x7b" := by
  decide
@[simp] theorem sprintf_plain_ecerror : Sprintf "\tec.Error(err)" [] = "\tec.Error(err)" := by
  decide
@[simp] theorem sprintf_plain_tcontinue : Sprintf "\tcontinue" [] = "\tcontinue" := by decide
@[simp] theorem sprintf_plain_continue : Sprintf "continue" [] = "continue" := by decide
@[simp] theorem sprintf_plain_set :
    Sprintf "resultMap.Set(field.Alias, json)" [] = "resultMap.Set(field.Alias, json)" := by
  decide
@[simp] theorem sprintf_plain_resultMap :
    Sprintf "resultMap := jsonw.Map\x7b\x7d" [] = "resultMap := jsonw.Map\x7b\x7d" := by decide
@[simp] theorem sprintf_plain_for :
    Sprintf "for _, field := range groupedFieldSet \x7b" []
      = "for _, field := range groupedFieldSet \x7b" := by decide
@[simp] theorem sprintf_plain_switch :
    Sprintf "switch field.Name \x7b" [] = "switch field.Name \x7b" := by decide
@[simp] theorem sprintf_plain_panic :
    Sprintf "panic(\"unknown field \" + strconv.Quote(field.Name))" []
      = "panic(\"unknown field \" + strconv.Quote(field.Name))" := by decide
@[simp] theorem sprintf_plain_return : Sprintf "return resultMap" [] = "return resultMap" := by
  decide
@[simp] theorem sprintf_plain_casenil : Sprintf "case nil:" [] = "case nil:" := by decide
@[simp] theorem sprintf_plain_default : Sprintf "default:" [] = "default:" := by decide
@[simp] theorem sprintf_plain_unexpected :
    Sprintf "\tpanic(fmt.Errorf(\"unexpected type %%T\", it))" []
      = "\tpanic(fmt.Errorf(\"unexpected type %T\", it))" := by decide
@[simp] theorem sprintf_plain_interface :
    Sprintf "type Resolvers interface \x7b" [] = "type Resolvers interface \x7b" := by decide
@[simp] theorem sprintf_plain_var : Sprintf "var (" [] = "var (" := by decide
@[simp] theorem sprintf_plain_ctxparam :
    Sprintf "ctx context.Context" [] = "ctx context.Context" := by decide

@[simp] theorem sprintf_case : Sprintf "case %s:" [a] = "case " ++ a ++ ":" := by
  apply String.ext; simp [Sprintf, sprintfAux, sprintfExtra]
@[simp] theorem sprintf_casePtr : Sprintf "case *%s:" [a] = "case *" ++ a ++ ":" := by
  apply String.ext; simp [Sprintf, sprintfAux, sprintfExtra]
@[simp] theorem sprintf_res : Sprintf "res := %s" [a] = "res := " ++ a := by
  apply String.ext; simp [Sprintf, sprintfAux, sprintfExtra]
@[simp] theorem sprintf_resErr : Sprintf "res, err := %s" [a] = "res, err := " ++ a := by
  apply String.ext; simp [Sprintf, sprintfAux, sprintfExtra]
@[simp] theorem sprintf_resolver :
    Sprintf "ec.resolvers.%s_%s" [a, b] = "ec.resolvers." ++ a ++ "_" ++ b := by
  apply String.ext; simp [Sprintf, sprintfAux, sprintfExtra]
@[simp] theorem sprintf_arg :
    Sprintf "field.Args[%s].(%s)," [a, b] = "field.Args[" ++ a ++ "].(" ++ b ++ ")," := by
  apply String.ext; simp [Sprintf, sprintfAux, sprintfExtra]
@[simp] theorem sprintf_varNull :
    Sprintf "var %s jsonw.Encodable = jsonw.Null" [a]
      = "var " ++ a ++ " jsonw.Encodable = jsonw.Null" := by
  apply String.ext; simp [Sprintf, sprintfAux, sprintfExtra]
@[simp] theorem sprintf_ifNil : Sprintf "if %s != nil \x7b" [a] = "if " ++ a ++ " != nil \x7b" := by
  apply String.ext; simp [Sprintf, sprintfAux, sprintfExtra]
@[simp] theorem sprintf_assign : Sprintf "%s = %s" [a, b] = a ++ " = " ++ b := by
  apply String.ext; simp [Sprintf, sprintfAux, sprintfExtra]
@[simp] theorem sprintf_array : Sprintf "%s := jsonw.Array\x7b\x7d" [a] = a ++ " := jsonw.Array\x7b\x7d" := by
  apply String.ext; simp [Sprintf, sprintfAux, sprintfExtra]
@[simp] theorem sprintf_range :
    Sprintf "for _, val := range %s \x7b" [a] = "for _, val := range " ++ a ++ " \x7b" := by
  apply String.ext; simp [Sprintf, sprintfAux, sprintfExtra]
@[simp] theorem sprintf_append :
    Sprintf "%s = append(%s, %s)" [a, b, c] = a ++ " = append(" ++ b ++ ", " ++ c ++ ")" := by
  apply String.ext; simp [Sprintf, sprintfAux, sprintfExtra]
@[simp] theorem sprintf_scalar :
    Sprintf "%s := jsonw.%s(%s)" [a, b, c] = a ++ " := jsonw." ++ b ++ "(" ++ c ++ ")" := by
  apply String.ext; simp [Sprintf, sprintfAux, sprintfExtra]
@[simp] theorem sprintf_typeSwitch :
    Sprintf "switch it := %s.(type) \x7b" [a] = "switch it := " ++ a ++ ".(type) \x7b" := by
  apply String.ext; simp [Sprintf, sprintfAux, sprintfExtra]
@[simp] theorem sprintf_setNull : Sprintf "\t%s = jsonw.Null" [a] = "\t" ++ a ++ " = jsonw.Null" := by
  apply String.ext; simp [Sprintf, sprintfAux, sprintfExtra]
@[simp] theorem sprintf_byValue :
    Sprintf "\t%s = _%s(ec, field.Selections, &it)" [a, b]
      = "\t" ++ a ++ " = _" ++ b ++ "(ec, field.Selections, &it)" := by
  apply String.ext; simp [Sprintf, sprintfAux, sprintfExtra]
@[simp] theorem sprintf_byRef :
    Sprintf "\t%s = _%s(ec, field.Selections, it)" [a, b]
      = "\t" ++ a ++ " = _" ++ b ++ "(ec, field.Selections, it)" := by
  apply String.ext; simp [Sprintf, sprintfAux, sprintfExtra]
@[simp] theorem sprintf_object :
    Sprintf "%s := _%s(ec, field.Selections, %s)" [a, b, c]
      = a ++ " := _" ++ b ++ "(ec, field.Selections, " ++ c ++ ")" := by
  apply String.ext; simp [Sprintf, sprintfAux, sprintfExtra]
@[simp] theorem sprintf_method : Sprintf "%s_%s(" [a, b] = a ++ "_" ++ b ++ "(" := by
  apply String.ext; simp [Sprintf, sprintfAux, sprintfExtra]
@[simp] theorem sprintf_receiver : Sprintf ", it *%s" [a] = ", it *" ++ a := by
  apply String.ext; simp [Sprintf, sprintfAux, sprintfExtra]
@[simp] theorem sprintf_param : Sprintf ", %s %s" [a, b] = ", " ++ a ++ " " ++ b := by
  apply String.ext; simp [Sprintf, sprintfAux, sprintfExtra]
@[simp] theorem sprintf_returns : Sprintf ") (%s, error)" [a] = ") (" ++ a ++ ", error)" := by
  apply String.ext; simp [Sprintf, sprintfAux, sprintfExtra]
@[simp] theorem sprintf_satisfies :
    Sprintf "%sSatisfies = []string\x7b%s\x7d" [a, b] = a ++ "Satisfies = []string\x7b" ++ b ++ "\x7d" := by
  apply String.ext; simp [Sprintf, sprintfAux, sprintfExtra]
@[simp] theorem sprintf_func :
    Sprintf "func _%s(ec *executionContext, sel []query.Selection, it *%s) jsonw.Encodable \x7b" [a, b]
      = "func _" ++ a ++ "(ec *executionContext, sel []query.Selection, it *" ++ b
        ++ ") jsonw.Encodable \x7b" := by
  apply String.ext; simp [Sprintf, sprintfAux, sprintfExtra]
@[simp] theorem sprintf_grouped :
    Sprintf "groupedFieldSet := ec.collectFields(sel, %sSatisfies, map[string]bool\x7b\x7d)" [a]
      = "groupedFieldSet := ec.collectFields(sel, " ++ a ++ "Satisfies, map[string]bool\x7b\x7d)" := by
  apply String.ext; simp [Sprintf, sprintfAux, sprintfExtra]

end Formats

/-! ## The writer's primitives -/

theorem emit_eq (fmt : String) (args : List String) (out : String) (n : Int) :
    emit fmt args ⟨out, n⟩ = some ⟨out ++ Sprintf fmt args, n⟩ := rfl

theorem lf_eq (out : String) (n : Int) : lf ⟨out, n⟩ = some ⟨out ++ "\n", n⟩ := rfl

theorem emitIndent_eq (out : String) {n : Int} (h : 0 ≤ n) :
    emitIndent ⟨out, n⟩ = some ⟨out ++ tabs n, n⟩ := by
  simp [emitIndent, repeatTab_of_nonneg h]

theorem line_eq (fmt : String) (args : List String) (out : String) {n : Int} (h : 0 ≤ n) :
    line fmt args ⟨out, n⟩ = some ⟨out ++ ln n (Sprintf fmt args), n⟩ := by
  simp [line, emitIndent, emit, lf, repeatTab_of_nonneg h, ln, String.append_assoc]

theorem begin_eq (fmt : String) (args : List String) (out : String) {n : Int} (h : 0 ≤ n) :
    begin_ fmt args ⟨out, n⟩ = some ⟨out ++ ln n (Sprintf fmt args), n + 1⟩ := by
  simp [begin_, emitIndent, emit, lf, repeatTab_of_nonneg h, ln, String.append_assoc]

theorem end_eq (fmt : String) (args : List String) (out : String) {n : Int} (h : 0 ≤ n) :
    end_ fmt args ⟨out, n + 1⟩ = some ⟨out ++ ln n (Sprintf fmt args), n⟩ := by
  simp [end_, emitIndent, emit, lf, repeatTab_of_nonneg h, ln, String.append_assoc]

/-- A range loop whose body appends one text per element appends their
concatenation. -/
theorem forRange_text {α : Type} (body : α → Writer → Option Writer) (text : α → String)
    (n : Int) (hbody : ∀ x out, body x ⟨out, n⟩ = some ⟨out ++ text x, n⟩) :
    ∀ (xs : List α) (out : String),
      forRange xs body ⟨out, n⟩ = some ⟨out ++ catAll (xs.map text), n⟩ := by
  intro xs
  induction xs with
  | nil => intro out; simp [forRange, catAll]
  | cons x xs ih =>
    intro out
    simp [forRange, hbody, ih, catAll, String.append_assoc]

/-! ## Closed forms of the writer functions -/

theorem writeFuncArgs_eq (env : Env) (object : Object) (field : Field) (out : String)
    {n : Int} (h : 0 ≤ n) :
    writeFuncArgs env object field ⟨out, n⟩ = some ⟨out ++ callText env object field n, n⟩ := by
  have h1 : 0 ≤ n + 1 := by omega
  unfold writeFuncArgs callText
  by_cases hc : field.Args.length = 0 ∧ field.MethodName ≠ ""
  · simp only [if_pos hc]
    simp [emit_eq, lf_eq, String.append_assoc]
  · simp only [if_neg hc]
    have hloop := forRange_text
      (fun (arg : FieldArg) w =>
        line "field.Args[%s].(%s)," [env.Quote arg.Name, env.Local arg.Type_] w)
      (fun arg =>
        ln (n + 1) ("field.Args[" ++ env.Quote arg.Name ++ "].(" ++ env.Local arg.Type_ ++ "),"))
      (n + 1) (fun x out => by simp [line_eq _ _ _ h1])
    by_cases hm : field.MethodName = "" <;> by_cases ht : object.Type_.Name = "interface\x7b\x7d" <;>
      simp [emit_eq, lf_eq, hm, ht, line_eq _ _ _ h1, hloop, end_eq _ _ _ h, callArgs, catAll,
        String.append_assoc, catAll_append, Function.comp_def]

theorem writeEvaluateMethod_eq (env : Env) (object : Object) (field : Field) (out : String)
    {n : Int} (h : 0 ≤ n) :
    writeEvaluateMethod env object field ⟨out, n⟩
      = some ⟨out ++ (if field.NoErr then
            tabs n ++ "res := " ++ callee object field ++ callText env object field n
          else
            tabs n ++ "res, err := " ++ callee object field ++ callText env object field n
              ++ ln n "if err != nil \x7b" ++ ln n "\tec.Error(err)" ++ ln n "\tcontinue"
              ++ ln n "\x7d"), n⟩ := by
  unfold writeEvaluateMethod callee
  by_cases he : field.NoErr <;> by_cases hm : field.MethodName = "" <;>
    simp [he, hm, emitIndent_eq _ h, emit_eq, writeFuncArgs_eq _ _ _ _ h, line_eq _ _ _ h,
      String.append_assoc]

theorem emission_of_eq {f : Writer → Option Writer} {n : Int} {o : Option String}
    (h : ∀ out, f ⟨out, n⟩ = o.map fun text => ⟨out ++ text, n⟩) : emission f n = o := by
  cases o <;> simp [emission, h]

theorem framed_of_eq {f : Writer → Option Writer} {n : Int} {o : Option String}
    (h : ∀ out, f ⟨out, n⟩ = o.map fun text => ⟨out ++ text, n⟩) : Framed f n := by
  intro out
  rw [emission_of_eq h, h]

/-- A range loop whose body appends one text per element, or panics, appends
the concatenation of the texts, or panics. -/
theorem forRange_opt {α : Type} (body : α → Writer → Option Writer) (text : α → Option String)
    (n : Int) (hbody : ∀ x out, body x ⟨out, n⟩ = (text x).map fun s => ⟨out ++ s, n⟩) :
    ∀ (xs : List α) (out : String),
      forRange xs body ⟨out, n⟩ = (allTexts text xs).map fun ss => ⟨out ++ catAll ss, n⟩ := by
  intro xs
  induction xs with
  | nil => intro out; simp [forRange, catAll, allTexts]
  | cons x xs ih =>
    intro out
    rw [forRange, hbody, allTexts]
    cases hx : text x with
    | none => simp
    | some s =>
      simp only [Option.map_some', Option.some_bind, ih]
      cases hxs : allTexts text xs with
      | none => simp
      | some ss => simp [catAll, String.append_assoc]

theorem writeJsonBase_eq (env : Env) (result : String) (t : GqlType) (val : String)
    (isPtr : Bool) (out : String) {n : Int} (h : 0 ≤ n) :
    writeJsonBase env result t val isPtr ⟨out, n⟩
      = (baseText env result t val isPtr n).map fun text => ⟨out ++ text, n⟩ := by
  unfold writeJsonBase baseText
  by_cases hb : t.Basic = true
  · simp only [hb, if_true]
    cases ucFirst env t.Name <;> cases isPtr <;> simp [line_eq _ _ _ h]
  · simp only [hb]
    by_cases hi : t.Implementors.length > 0
    · simp only [hi, if_true]
      simp only [line_eq _ _ _ h, Option.bind_eq_bind, Option.some_bind]
      rw [forRange_opt _ (implementorArms env result n) n (fun x out => by
          unfold implementorArms
          cases hx : lcFirst env x.GraphQLName <;>
            simp [hx, line_eq _ _ _ h, String.append_assoc])]
      cases allTexts (implementorArms env result n) t.Implementors <;>
        simp [line_eq _ _ _ h, String.append_assoc]
    · simp only [hi, if_false]
      cases lcFirst env t.GraphQLName <;> cases isPtr <;> simp [line_eq _ _ _ h]

theorem doWriteJsonType_nil (env : Env) (result : String) (t : GqlType) (val : String)
    (isPtr : Bool) (w : Writer) :
    doWriteJsonType env result t val [] isPtr w = writeJsonBase env result t val isPtr w := by
  simp [doWriteJsonType]

/-- The serializer is framed, and its emission obeys the recursion of the
source: the base case on the empty sequence, one block per `modPtr` or
`modList` tag, any other tag passed over. -/
theorem doWriteJsonType_framed (env : Env) (t : GqlType) :
    ∀ (mods : List String) (result val : String) (isPtr : Bool) (n : Int), 0 ≤ n →
      Framed (doWriteJsonType env result t val mods isPtr) n := by
  intro mods
  induction mods with
  | nil =>
    intro result val isPtr n h
    exact framed_of_eq (o := baseText env result t val isPtr n) (fun out => by
      rw [doWriteJsonType_nil, writeJsonBase_eq _ _ _ _ _ _ h])
  | cons m rest ih =>
    intro result val isPtr n h
    have h1 : 0 ≤ n + 1 := by omega
    by_cases hp : m = env.modPtr
    · refine framed_of_eq
        (o := (emission (doWriteJsonType env (result ++ "1") t val rest true) (n + 1)).map
          fun text => ln n ("var " ++ result ++ " jsonw.Encodable = jsonw.Null")
            ++ ln n ("if " ++ val ++ " != nil \x7b") ++ text
            ++ ln (n + 1) (result ++ " = " ++ result ++ "1") ++ ln n "\x7d") (fun out => ?_)
      rw [doWriteJsonType]
      simp only [hp, if_true, line_eq _ _ _ h, begin_eq _ _ _ h, Option.bind_eq_bind,
        Option.some_bind, ih (result ++ "1") val true (n + 1) h1 _]
      cases emission (doWriteJsonType env (result ++ "1") t val rest true) (n + 1) <;>
        simp [line_eq _ _ _ h1, end_eq _ _ _ h, String.append_assoc]
    · by_cases hl : m = env.modList
      · subst hl
        refine framed_of_eq
          (o := (emission (doWriteJsonType env (result ++ "1") t "val" rest false) (n + 1)).map
            fun text => ln n (result ++ " := jsonw.Array\x7b\x7d")
              ++ ln n ("for _, val := range " ++ (if isPtr then "*" ++ val else val) ++ " \x7b")
              ++ text
              ++ ln (n + 1) (result ++ " = append(" ++ result ++ ", " ++ result ++ "1" ++ ")")
              ++ ln n "\x7d") (fun out => ?_)
        rw [doWriteJsonType]
        simp only [hp, if_true, if_false, line_eq _ _ _ h, begin_eq _ _ _ h,
          Option.bind_eq_bind, Option.some_bind, ih (result ++ "1") "val" false (n + 1) h1 _]
        cases emission (doWriteJsonType env (result ++ "1") t "val" rest false) (n + 1) <;>
          simp [line_eq _ _ _ h1, end_eq _ _ _ h, String.append_assoc]
      · intro out
        have := ih result val isPtr n h out
        simpa [doWriteJsonType, emission, hp, hl] using this

theorem doWriteJsonType_ptr_eq (env : Env) (t : GqlType) (rest : List String)
    (result val : String) (isPtr : Bool) (out : String) {n : Int} (h : 0 ≤ n) :
    doWriteJsonType env result t val (env.modPtr :: rest) isPtr ⟨out, n⟩
      = (emission (doWriteJsonType env (result ++ "1") t val rest true) (n + 1)).map
          fun text => ⟨out ++ (ln n ("var " ++ result ++ " jsonw.Encodable = jsonw.Null")
            ++ ln n ("if " ++ val ++ " != nil \x7b") ++ text
            ++ ln (n + 1) (result ++ " = " ++ result ++ "1") ++ ln n "\x7d"), n⟩ := by
  have h1 : 0 ≤ n + 1 := by omega
  rw [doWriteJsonType]
  simp only [if_true, line_eq _ _ _ h, begin_eq _ _ _ h, Option.bind_eq_bind,
    Option.some_bind, doWriteJsonType_framed env t rest (result ++ "1") val true (n + 1) h1 _]
  cases emission (doWriteJsonType env (result ++ "1") t val rest true) (n + 1) <;>
    simp [line_eq _ _ _ h1, end_eq _ _ _ h, String.append_assoc]

theorem doWriteJsonType_list_eq (env : Env) (t : GqlType) (rest : List String)
    (result val : String) (isPtr : Bool) (out : String) {n : Int} (h : 0 ≤ n)
    (hne : env.modList ≠ env.modPtr) :
    doWriteJsonType env result t val (env.modList :: rest) isPtr ⟨out, n⟩
      = (emission (doWriteJsonType env (result ++ "1") t "val" rest false) (n + 1)).map
          fun text => ⟨out ++ (ln n (result ++ " := jsonw.Array\x7b\x7d")
            ++ ln n ("for _, val := range " ++ (if isPtr then "*" ++ val else val) ++ " \x7b")
            ++ text
            ++ ln (n + 1) (result ++ " = append(" ++ result ++ ", " ++ result ++ "1" ++ ")")
            ++ ln n "\x7d"), n⟩ := by
  have h1 : 0 ≤ n + 1 := by omega
  rw [doWriteJsonType]
  simp only [hne, if_true, if_false, line_eq _ _ _ h, begin_eq _ _ _ h, Option.bind_eq_bind,
    Option.some_bind, doWriteJsonType_framed env t rest (result ++ "1") "val" false (n + 1) h1 _]
  cases emission (doWriteJsonType env (result ++ "1") t "val" rest false) (n + 1) <;>
    simp [line_eq _ _ _ h1, end_eq _ _ _ h, String.append_assoc]

theorem doWriteJsonType_skip (env : Env) (t : GqlType) (m : String) (rest : List String)
    (result val : String) (isPtr : Bool) (w : Writer)
    (hp : m ≠ env.modPtr) (hl : m ≠ env.modList) :
    doWriteJsonType env result t val (m :: rest) isPtr w
      = doWriteJsonType env result t val rest isPtr w := by
  rw [doWriteJsonType]; simp [hp, hl]

theorem emission_nil (env : Env) (t : GqlType) (result val : String) (isPtr : Bool)
    {n : Int} (h : 0 ≤ n) :
    emission (doWriteJsonType env result t val [] isPtr) n
      = baseText env result t val isPtr n :=
  emission_of_eq fun out => by rw [doWriteJsonType_nil, writeJsonBase_eq _ _ _ _ _ _ h]

theorem emission_ptr (env : Env) (t : GqlType) (rest : List String)
    (result val : String) (isPtr : Bool) {n : Int} (h : 0 ≤ n) :
    emission (doWriteJsonType env result t val (env.modPtr :: rest) isPtr) n
      = (emission (doWriteJsonType env (result ++ "1") t val rest true) (n + 1)).map
          fun text => ln n ("var " ++ result ++ " jsonw.Encodable = jsonw.Null")
            ++ ln n ("if " ++ val ++ " != nil \x7b") ++ text
            ++ ln (n + 1) (result ++ " = " ++ result ++ "1") ++ ln n "\x7d" :=
  emission_of_eq fun out => by
    rw [doWriteJsonType_ptr_eq _ _ _ _ _ _ _ h, Option.map_map]; rfl

theorem emission_list (env : Env) (t : GqlType) (rest : List String)
    (result val : String) (isPtr : Bool) {n : Int} (h : 0 ≤ n)
    (hne : env.modList ≠ env.modPtr) :
    emission (doWriteJsonType env result t val (env.modList :: rest) isPtr) n
      = (emission (doWriteJsonType env (result ++ "1") t "val" rest false) (n + 1)).map
          fun text => ln n (result ++ " := jsonw.Array\x7b\x7d")
            ++ ln n ("for _, val := range " ++ (if isPtr then "*" ++ val else val) ++ " \x7b")
            ++ text
            ++ ln (n + 1) (result ++ " = append(" ++ result ++ ", " ++ result ++ "1" ++ ")")
            ++ ln n "\x7d" :=
  emission_of_eq fun out => by
    rw [doWriteJsonType_list_eq _ _ _ _ _ _ _ h hne, Option.map_map]; rfl

theorem emission_skip (env : Env) (t : GqlType) (m : String) (rest : List String)
    (result val : String) (isPtr : Bool) (n : Int)
    (hp : m ≠ env.modPtr) (hl : m ≠ env.modList) :
    emission (doWriteJsonType env result t val (m :: rest) isPtr) n
      = emission (doWriteJsonType env result t val rest isPtr) n := by
  simp [emission, doWriteJsonType_skip _ _ _ _ _ _ _ _ hp hl]

theorem intercalate_go_eq (sep : String) :
    ∀ (xs : List String) (acc : String),
      String.intercalate.go acc sep xs = acc ++ catAll (xs.map fun x => sep ++ x) := by
  intro xs
  induction xs with
  | nil => intro acc; simp [String.intercalate.go, catAll]
  | cons x xs ih => intro acc; simp [String.intercalate.go, ih, catAll, String.append_assoc]

theorem intercalate_cons (sep x : String) (xs : List String) :
    sep.intercalate (x :: xs) = x ++ catAll (xs.map fun y => sep ++ y) := by
  simp [String.intercalate, intercalate_go_eq]

theorem forRange_append {α : Type} (body : α → Writer → Option Writer) :
    ∀ (xs ys : List α) (w : Writer),
      forRange (xs ++ ys) body w = (forRange xs body w).bind (forRange ys body) := by
  intro xs
  induction xs with
  | nil => intro ys w; simp [forRange]
  | cons x xs ih =>
    intro ys w
    simp only [List.cons_append, forRange]
    cases body x w <;> simp [ih]

theorem writeInterfaceField_eq (env : Env) (o : Object) (f : Field) (out : String)
    {n : Int} (h : 0 ≤ n) :
    writeInterfaceField env o f ⟨out, n⟩
      = some ⟨out ++ (if f.VarName = "" ∧ f.MethodName = "" then
          tabs n ++ o.Name ++ "_" ++ f.GraphQLName ++ "("
            ++ ", ".intercalate (methodParams env o f)
            ++ ") (" ++ env.Local f.Type_ ++ ", error)" ++ "\n"
        else ""), n⟩ := by
  unfold writeInterfaceField
  by_cases hc : f.VarName ≠ "" ∨ f.MethodName ≠ ""
  · have hc' : ¬ (f.VarName = "" ∧ f.MethodName = "") := by
      intro hh; rcases hc with hc | hc
      · exact hc hh.1
      · exact hc hh.2
    simp only [if_pos hc, if_neg hc', String.append_empty]
  · have hc' : f.VarName = "" ∧ f.MethodName = "" := by
      constructor
      · by_contra hh; exact hc (Or.inl hh)
      · by_contra hh; exact hc (Or.inr hh)
    simp only [if_neg hc, if_pos hc']
    have hloop := forRange_text
      (fun (arg : FieldArg) w => emit ", %s %s" [arg.Name, env.Local arg.Type_] w)
      (fun arg => ", " ++ (arg.Name ++ " " ++ env.Local arg.Type_))
      n (fun x out => by simp [emit_eq, String.append_assoc])
    by_cases ht : o.Type_.Name = "interface\x7b\x7d" <;>
      simp [emitIndent_eq _ h, emit_eq, lf_eq, ht, hloop, methodParams, intercalate_cons,
        catAll, catAll_append, String.append_assoc, Function.comp_def] <;> rfl

theorem writeInterface_fields (env : Env) (o : Object) {n : Int} (h : 0 ≤ n) :
    ∀ (fields : List Field) (out : String),
      forRange fields (writeInterfaceField env o) ⟨out, n⟩
        = some ⟨out ++ catAll ((fields.filter fun f =>
            decide (f.VarName = "" ∧ f.MethodName = "")).map (methodLine env n o)), n⟩ := by
  intro fields
  induction fields with
  | nil => intro out; simp [forRange, catAll]
  | cons f fields ih =>
    intro out
    rw [forRange, writeInterfaceField_eq _ _ _ _ h]
    by_cases hc : f.VarName = "" ∧ f.MethodName = ""
    · simp [hc, ih, catAll, methodLine, String.append_assoc]
    · simp [hc, ih, catAll]

theorem writeInterface_eq (env : Env) (ex : Extractor) (out : String) {n : Int} (h : 0 ≤ n) :
    writeInterface env ex ⟨out, n⟩
      = some ⟨out ++ (ln n "type Resolvers interface \x7b"
          ++ catAll (ex.Objects.flatMap fun o => (abstractFields o).map (methodLine env (n + 1) o))
          ++ ln n "\x7d" ++ "\n"), n⟩ := by
  have h1 : 0 ≤ n + 1 := by omega
  have hloop := forRange_text
    (fun (o : Object) w => forRange o.Fields (writeInterfaceField env o) w)
    (fun o => catAll ((abstractFields o).map (methodLine env (n + 1) o)))
    (n + 1) (fun o out => by simp [writeInterface_fields env o h1, abstractFields])
  have hcat : ∀ objs : List Object,
      catAll (objs.map fun o => catAll ((abstractFields o).map (methodLine env (n + 1) o)))
        = catAll (objs.flatMap fun o => (abstractFields o).map (methodLine env (n + 1) o)) := by
    intro objs
    induction objs with
    | nil => simp [catAll]
    | cons o objs ih => simp [catAll, catAll_append, ih]
  simp [writeInterface, begin_eq _ _ _ h, hloop, end_eq _ _ _ h, lf_eq, hcat,
    String.append_assoc]

theorem satisfiesList_eq (env : Env) (o : Object) :
    satisfiesList env o
      = ", ".intercalate ((o.Type_.GraphQLName :: o.satisfies).map env.Quote) := by
  have hfold : ∀ (xs : List String) (init : String),
      xs.foldl (fun satisfies s => satisfies ++ (", " ++ env.Quote s)) init
        = init ++ catAll (xs.map fun s => ", " ++ env.Quote s) := by
    intro xs
    induction xs with
    | nil => intro init; simp [catAll]
    | cons x xs ih => intro init; simp [ih, catAll, String.append_assoc]
  simp [satisfiesList, hfold, intercalate_cons, Function.comp_def]

theorem writeVars_eq (env : Env) (ex : Extractor) (out : String) {n : Int} (h : 0 ≤ n) :
    writeVars env ex ⟨out, n⟩
      = (allTexts (satisfiesLine env (n + 1)) ex.Objects).map fun lines =>
          ⟨out ++ (ln n "var (" ++ catAll lines ++ ln n ")" ++ "\n"), n⟩ := by
  have h1 : 0 ≤ n + 1 := by omega
  unfold writeVars
  simp only [begin_eq _ _ _ h, Option.bind_eq_bind, Option.some_bind]
  rw [forRange_opt _ (satisfiesLine env (n + 1)) (n + 1) (fun o out => by
      unfold satisfiesLine
      cases ho : lcFirst env o.Type_.GraphQLName <;>
        simp [ho, line_eq _ _ _ h1, satisfiesList_eq])]
  cases allTexts (satisfiesLine env (n + 1)) ex.Objects <;>
    simp [end_eq _ _ _ h, lf_eq, String.append_assoc]

theorem writeJsonType_framed (env : Env) (result : String) (t : GqlType) (val : String)
    {n : Int} (h : 0 ≤ n) : Framed (writeJsonType env result t val) n :=
  doWriteJsonType_framed env t t.Modifiers result val false n h

theorem writeObjectResolverCase_eq (env : Env) (object : Object) (field : Field)
    (out : String) {n : Int} (h : 0 ≤ n) :
    writeObjectResolverCase env object field ⟨out, n⟩
      = (caseText env object field n).map fun text => ⟨out ++ text, n⟩ := by
  have h1 : 0 ≤ n + 1 := by omega
  unfold writeObjectResolverCase caseText evaluateText
  simp only [begin_eq _ _ _ h, Option.bind_eq_bind, Option.some_bind]
  by_cases hv : field.VarName ≠ ""
  · rw [if_pos hv, if_pos hv]
    simp only [writeEvaluateVar, line_eq _ _ _ h1, Option.some_bind,
      writeJsonType_framed env "json" field.Type_ "res" h1 _]
    cases emission (writeJsonType env "json" field.Type_ "res") (n + 1) <;>
      simp [line_eq _ _ _ h1, end_eq _ _ _ h, String.append_assoc]
  · rw [if_neg hv, if_neg hv]
    simp only [writeEvaluateMethod_eq _ _ _ _ h1, Option.some_bind,
      writeJsonType_framed env "json" field.Type_ "res" h1 _]
    cases emission (writeJsonType env "json" field.Type_ "res") (n + 1) <;>
      cases field.NoErr <;>
      simp [line_eq _ _ _ h1, end_eq _ _ _ h, String.append_assoc]

theorem writeObjectResolver_eq (env : Env) (object : Object) (out : String) {n : Int}
    (h : 0 ≤ n) :
    writeObjectResolver env object ⟨out, n⟩
      = (lcFirst env object.Type_.GraphQLName).bind fun name =>
          (allTexts (fun field => caseText env object field (n + 2)) object.Fields).map
            fun cases =>
            ⟨out ++ (ln n ("func _" ++ name
                ++ "(ec *executionContext, sel []query.Selection, it *"
                ++ env.Local object.Type_ ++ ") jsonw.Encodable \x7b")
              ++ ln (n + 1) ("groupedFieldSet := ec.collectFields(sel, " ++ name
                ++ "Satisfies, map[string]bool\x7b\x7d)")
              ++ ln (n + 1) "resultMap := jsonw.Map\x7b\x7d"
              ++ ln (n + 1) "for _, field := range groupedFieldSet \x7b"
              ++ ln (n + 2) "switch field.Name \x7b"
              ++ catAll cases
              ++ ln (n + 2) "\x7d"
              ++ ln (n + 2) "panic(\"unknown field \" + strconv.Quote(field.Name))"
              ++ ln (n + 1) "\x7d"
              ++ ln (n + 1) "return resultMap"
              ++ ln n "\x7d" ++ "\n"), n⟩ := by
  have h1 : 0 ≤ n + 1 := by omega
  have h2 : 0 ≤ n + 2 := by omega
  have h12 : n + 1 + 1 = n + 2 := by ring
  unfold writeObjectResolver
  cases hname : lcFirst env object.Type_.GraphQLName with
  | none => simp
  | some name =>
    simp only [begin_eq _ _ _ h, begin_eq _ _ _ h1, line_eq _ _ _ h1, h12, line_eq _ _ _ h2,
      Option.bind_eq_bind, Option.some_bind]
    rw [forRange_opt _ (fun field => caseText env object field (n + 2))
      (n + 2) (fun field out => writeObjectResolverCase_eq _ _ _ _ h2)]
    cases allTexts (fun field => caseText env object field (n + 2)) object.Fields with
    | none => simp
    | some cases =>
      have e1 : ∀ out : String, end_ "\x7d" [] ⟨out, n + 2⟩ = some ⟨out ++ ln (n + 1) "\x7d", n + 1⟩ := by
        intro out
        have := end_eq "\x7d" [] out h1
        rw [h12] at this
        simpa using this
      simp [line_eq _ _ _ h1, line_eq _ _ _ h2, e1, end_eq _ _ _ h, lf_eq, String.append_assoc]

set_option maxRecDepth 100000

theorem emission_case (env : Env) (object : Object) (field : Field) {n : Int} (h : 0 ≤ n) :
    emission (writeObjectResolverCase env object field) n = caseText env object field n :=
  emission_of_eq fun out => writeObjectResolverCase_eq env object field out h

theorem allTexts_length {α : Type} (text : α → Option String) :
    ∀ (xs : List α) (ss : List String), allTexts text xs = some ss → ss.length = xs.length := by
  intro xs
  induction xs with
  | nil => intro ss hss; simp [allTexts] at hss; simp [← hss]
  | cons x xs ih =>
    intro ss hss
    rw [allTexts] at hss
    cases hx : text x with
    | none => simp [hx] at hss
    | some s =>
      cases hxs : allTexts text xs with
      | none => simp [hx, hxs] at hss
      | some ss' =>
        simp [hx, hxs] at hss
        simp [← hss, ih ss' hxs]

/-! ## C1: the error-skip block -/

/-- C1 (error-skip).  For a field that is not Bound (`VarName` empty) and has
`NoErr` false, the case that `writeObjectResolver` emits for it, at any indent
`n ≥ 0` and after any output, is exactly: the case line; `res, err := ` bound
from the call (callee and argument list, the text `writeFuncArgs` writes);
immediately after the call the block `if err != nil {`, `ec.Error(err)`,
`continue`, `}`, holding one call of the error sink followed by `continue`;
only then the serialization emitted by `writeJsonType`, then
`resultMap.Set(field.Alias, json)`, then `continue`.  The run panics exactly
when the serializer panics. -/
theorem error_skip_block (env : Env) (object : Object) (field : Field) (out : String)
    (n : Int) (h : 0 ≤ n) (hvar : field.VarName = "") (herr : field.NoErr = false) :
    writeObjectResolverCase env object field ⟨out, n⟩
      = (emission (writeJsonType env "json" field.Type_ "res") (n + 1)).map (fun ser =>
          ⟨out ++ ln n ("case " ++ env.Quote field.GraphQLName ++ ":")
            ++ tabs (n + 1) ++ "res, err := " ++ callee object field
            ++ callText env object field (n + 1)
            ++ ln (n + 1) "if err != nil \x7b"
            ++ ln (n + 1) "\tec.Error(err)"
            ++ ln (n + 1) "\tcontinue"
            ++ ln (n + 1) "\x7d"
            ++ ser
            ++ ln (n + 1) "resultMap.Set(field.Alias, json)"
            ++ ln (n + 1) "continue"
            ++ ln n "", n⟩)
    ∧ (∀ out1, writeFuncArgs env object field ⟨out1, n + 1⟩
        = some ⟨out1 ++ callText env object field (n + 1), n + 1⟩)
    ∧ Framed (writeJsonType env "json" field.Type_ "res") (n + 1) := by
  have h1 : 0 ≤ n + 1 := by omega
  refine ⟨?_, fun out1 => writeFuncArgs_eq env object field out1 h1,
    writeJsonType_framed env "json" field.Type_ "res" h1⟩
  rw [writeObjectResolverCase_eq _ _ _ _ h, caseText, Option.map_map]
  congr 1
  funext ser
  simp [evaluateText, hvar, herr, String.append_assoc]

theorem error_skip_block_witness :
    (0 : Int) ≤ 0 ∧ exFriends.VarName = "" ∧ exFriends.NoErr = false
    ∧ writeObjectResolverCase exEnv exUser exFriends ⟨"", 0⟩
      = some ⟨"case \"friends\":\n\tres, err := ec.resolvers.User_friends(\n\t\tec.ctx,\n\t\tit,\n\t\tfield.Args[\"first\"].(string),\n\t)\n\tif err != nil \x7b\n\t\tec.Error(err)\n\t\tcontinue\n\t\x7d\n\tjson := jsonw.String(res)\n\tresultMap.Set(field.Alias, json)\n\tcontinue\n\n", 0⟩ :=
  ⟨by decide, rfl, rfl,
    (error_skip_block exEnv exUser exFriends "" 0 (by decide) rfl rfl).1.trans (by decide)⟩

/-! ## C4 and C5: peeling one modifier -/

/-- C4 (OPTIONAL peeling).  On a modifier sequence that starts with `modPtr`,
at any indent `n ≥ 0` and after any output, `doWriteJsonType` emits exactly:
the declaration `var r jsonw.Encodable = jsonw.Null`; the guard
`if v != nil {`; one indent level deeper the whole emission of
`doWriteJsonType (r ++ "1") t v rest true`; the assignment `r = r1` as the
last line inside the guard; the closing `}`.  It panics exactly when the nested
call panics, and the nested call appends the same emission after any output. -/
theorem optional_peeling (env : Env) (t : GqlType) (rest : List String) (r v : String)
    (isPtr : Bool) (out : String) (n : Int) (h : 0 ≤ n) :
    doWriteJsonType env r t v (env.modPtr :: rest) isPtr ⟨out, n⟩
      = (emission (doWriteJsonType env (r ++ "1") t v rest true) (n + 1)).map (fun nested =>
          ⟨out ++ ln n ("var " ++ r ++ " jsonw.Encodable = jsonw.Null")
            ++ ln n ("if " ++ v ++ " != nil \x7b")
            ++ nested
            ++ ln (n + 1) (r ++ " = " ++ r ++ "1")
            ++ ln n "\x7d", n⟩)
    ∧ Framed (doWriteJsonType env (r ++ "1") t v rest true) (n + 1) := by
  refine ⟨?_, doWriteJsonType_framed env t rest (r ++ "1") v true (n + 1) (by omega)⟩
  rw [doWriteJsonType_ptr_eq _ _ _ _ _ _ _ h]
  simp only [String.append_assoc]

theorem optional_peeling_witness :
    (0 : Int) ≤ 0
    ∧ doWriteJsonType exEnv "json" tString "res" ["*"] false ⟨"", 0⟩
      = some ⟨"var json jsonw.Encodable = jsonw.Null\nif res != nil \x7b\n\tjson1 := jsonw.String(*res)\n\tjson = json1\n\x7d\n", 0⟩ :=
  ⟨by decide,
    (optional_peeling exEnv tString [] "json" "res" false "" 0 (by decide)).1.trans (by decide)⟩

/-- C5 (LIST peeling).  On a modifier sequence that starts with `modList`
(a tag different from `modPtr`), at any indent `n ≥ 0` and after any output,
`doWriteJsonType` emits exactly: the empty accumulator `r := jsonw.Array{}`;
the loop `for _, val := range v {`, over `*v` if and only if `isPtr` is true;
inside the loop the whole emission of
`doWriteJsonType (r ++ "1") t "val" rest false`; `r = append(r, r1)` as the
last line of the loop body; the closing `}`.  It panics exactly when the nested
call panics, and the nested call appends the same emission after any output. -/
theorem list_peeling (env : Env) (t : GqlType) (rest : List String) (r v : String)
    (isPtr : Bool) (out : String) (n : Int) (h : 0 ≤ n) (hne : env.modList ≠ env.modPtr) :
    doWriteJsonType env r t v (env.modList :: rest) isPtr ⟨out, n⟩
      = (emission (doWriteJsonType env (r ++ "1") t "val" rest false) (n + 1)).map
          (fun nested =>
          ⟨out ++ ln n (r ++ " := jsonw.Array\x7b\x7d")
            ++ ln n ("for _, val := range " ++ (if isPtr then "*" ++ v else v) ++ " \x7b")
            ++ nested
            ++ ln (n + 1) (r ++ " = append(" ++ r ++ ", " ++ r ++ "1" ++ ")")
            ++ ln n "\x7d", n⟩)
    ∧ Framed (doWriteJsonType env (r ++ "1") t "val" rest false) (n + 1) := by
  refine ⟨?_, doWriteJsonType_framed env t rest (r ++ "1") "val" false (n + 1) (by omega)⟩
  rw [doWriteJsonType_list_eq _ _ _ _ _ _ _ h hne]
  simp only [String.append_assoc]

theorem list_peeling_witness :
    (0 : Int) ≤ 0 ∧ exEnv.modList ≠ exEnv.modPtr
    ∧ doWriteJsonType exEnv "json" tString "res" ["[]"] true ⟨"", 0⟩
      = some ⟨"json := jsonw.Array\x7b\x7d\nfor _, val := range *res \x7b\n\tjson1 := jsonw.String(val)\n\tjson = append(json, json1)\n\x7d\n", 0⟩ :=
  ⟨by decide, by decide,
    (list_peeling exEnv tString [] "json" "res" true "" 0 (by decide) (by decide)).1.trans
      (by decide)⟩

/-! ## C6: the polymorphic base case -/

theorem allTexts_map {α : Type} (g : α → Option String) (f : α → String → String) :
    ∀ xs : List α,
      allTexts (fun x => (g x).map (f x)) xs
        = (allTexts g xs).map fun names => List.zipWith f xs names := by
  intro xs
  induction xs with
  | nil => simp [allTexts]
  | cons x xs ih =>
    rw [allTexts, allTexts, ih]
    cases g x <;> cases allTexts g xs <;> simp

theorem switchArms_text (env : Env) (result : String) (n : Int) :
    ∀ (implementors : List GqlType) (names : List String),
      catAll (List.zipWith (fun implementor name =>
          ln n ("case " ++ env.Local implementor ++ ":")
          ++ ln n ("\t" ++ result ++ " = _" ++ name ++ "(ec, field.Selections, &it)")
          ++ ln n ("case *" ++ env.Local implementor ++ ":")
          ++ ln n ("\t" ++ result ++ " = _" ++ name ++ "(ec, field.Selections, it)"))
        implementors names)
      = catAll (List.zipWith (fun implementor name =>
        [ln n ("case " ++ env.Local implementor ++ ":")
            ++ ln n ("\t" ++ result ++ " = _" ++ name ++ "(ec, field.Selections, &it)"),
         ln n ("case *" ++ env.Local implementor ++ ":")
            ++ ln n ("\t" ++ result ++ " = _" ++ name ++ "(ec, field.Selections, it)")])
        implementors names).flatten := by
  intro implementors
  induction implementors with
  | nil => intro names; simp [catAll]
  | cons i is ih =>
    intro names
    cases names with
    | nil => simp [catAll]
    | cons a as =>
      have := ih as
      simp only [String.append_assoc] at this
      simp [catAll, this, String.append_assoc]

theorem switchArms_length (env : Env) (result : String) (n : Int) :
    ∀ (implementors : List GqlType) (names : List String),
      names.length = implementors.length →
      (switchArms env result n implementors names).length = 1 + 2 * implementors.length + 1 := by
  intro implementors
  induction implementors with
  | nil => intro names _; cases names <;> simp [switchArms]
  | cons i is ih =>
    intro names hl
    cases names with
    | nil => simp at hl
    | cons a as =>
      have := ih as (by simpa using hl)
      simp [switchArms] at this ⊢
      omega

/-- C6 (polymorphic base case).  For a type that is not basic and has a
non-empty implementor list, on the empty modifier sequence, at any indent
`n ≥ 0` and after any output, `doWriteJsonType` emits exactly: the null default
`var r jsonw.Encodable = jsonw.Null`; the opening `switch it := v.(type) {`;
the arms of `switchArms`, that is the `nil` arm assigning null, for each
implementor in implementor order the by-value arm calling its dispatcher with
`field.Selections` and `&it` and then the by-reference arm calling the same
dispatcher with `field.Selections` and `it`, and last the `default` arm that
panics; the closing `}`.  There are `1 + 2 * len(implementors) + 1` arms, and
the lines of the default arm hold neither `ec.Error` nor `continue`.  The run
panics exactly when an implementor has an empty `GraphQLName`. -/
theorem polymorphic_base_case (env : Env) (t : GqlType) (r v : String) (isPtr : Bool)
    (out : String) (n : Int) (h : 0 ≤ n) (hb : t.Basic = false) (hi : 0 < t.Implementors.length) :
    doWriteJsonType env r t v [] isPtr ⟨out, n⟩
      = (allTexts (fun implementor => lcFirst env implementor.GraphQLName)
          t.Implementors).map (fun names =>
          ⟨out ++ ln n ("var " ++ r ++ " jsonw.Encodable = jsonw.Null")
            ++ ln n ("switch it := " ++ v ++ ".(type) \x7b")
            ++ catAll (switchArms env r n t.Implementors names)
            ++ ln n "\x7d", n⟩)
    ∧ (∀ names, allTexts (fun implementor => lcFirst env implementor.GraphQLName)
          t.Implementors = some names →
        (switchArms env r n t.Implementors names).length = 1 + 2 * t.Implementors.length + 1)
    ∧ ¬ "ec.Error".data <:+: "default:".data
    ∧ ¬ "ec.Error".data <:+: "\tpanic(fmt.Errorf(\"unexpected type %T\", it))".data
    ∧ ¬ "continue".data <:+: "default:".data
    ∧ ¬ "continue".data <:+: "\tpanic(fmt.Errorf(\"unexpected type %T\", it))".data := by
  refine ⟨?_, fun names hn => switchArms_length env r n _ _ (allTexts_length _ _ _ hn),
    by decide, by decide, by decide, by decide⟩
  have hlen : t.Implementors.length > 0 := hi
  rw [doWriteJsonType_nil, writeJsonBase_eq _ _ _ _ _ _ h, baseText]
  simp only [hb, hlen, if_true, Bool.false_eq_true, if_false]
  have harms : implementorArms env r n = fun implementor =>
      (lcFirst env implementor.GraphQLName).map (fun name =>
        ln n ("case " ++ env.Local implementor ++ ":")
        ++ ln n ("\t" ++ r ++ " = _" ++ name ++ "(ec, field.Selections, &it)")
        ++ ln n ("case *" ++ env.Local implementor ++ ":")
        ++ ln n ("\t" ++ r ++ " = _" ++ name ++ "(ec, field.Selections, it)")) := by
    funext implementor; rfl
  have key := allTexts_map (fun implementor : GqlType => lcFirst env implementor.GraphQLName)
    (fun implementor name =>
        ln n ("case " ++ env.Local implementor ++ ":")
        ++ ln n ("\t" ++ r ++ " = _" ++ name ++ "(ec, field.Selections, &it)")
        ++ ln n ("case *" ++ env.Local implementor ++ ":")
        ++ ln n ("\t" ++ r ++ " = _" ++ name ++ "(ec, field.Selections, it)")) t.Implementors
  beta_reduce at key
  rw [harms, key]
  cases allTexts (fun implementor => lcFirst env implementor.GraphQLName) t.Implementors with
  | none => simp
  | some names =>
    have hs := switchArms_text env r n t.Implementors names
    simp only [String.append_assoc] at hs
    simp [switchArms, catAll_append, catAll, hs, String.append_assoc]

theorem polymorphic_base_case_witness :
    (0 : Int) ≤ 0 ∧ tNode.Basic = false ∧ 0 < tNode.Implementors.length
    ∧ doWriteJsonType exEnv "json" tNode "res" [] false ⟨"", 0⟩
      = some ⟨"var json jsonw.Encodable = jsonw.Null\nswitch it := res.(type) \x7b\ncase nil:\n\tjson = jsonw.Null\ncase Post:\n\tjson = _post(ec, field.Selections, &it)\ncase *Post:\n\tjson = _post(ec, field.Selections, it)\ncase User:\n\tjson = _user(ec, field.Selections, &it)\ncase *User:\n\tjson = _user(ec, field.Selections, it)\ndefault:\n\tpanic(fmt.Errorf(\"unexpected type %T\", it))\n\x7d\n", 0⟩ :=
  ⟨by decide, rfl, by decide,
    (polymorphic_base_case exEnv tNode "json" "res" false "" 0 (by decide) rfl
      (by decide)).1.trans (by decide)⟩

/-! ## C7 and C8: the resolver interface -/

/-- C7 (interface synthesis completeness).  At any indent `n ≥ 0` and after any
output, `writeInterface` emits exactly: the opening line, then one method line
for each field that has both `VarName` and `MethodName` empty and none for any
other field, in object order and within an object in field order, then the
closing line and an empty line.  The parameter list of a method line is
`methodParams`: it has `1 + (1 if the object's type name is not "interface{}",
else 0) + len(args)` entries, the context first, the receiver (when present)
second, then the arguments in declared order. -/
theorem interface_synthesis_complete (env : Env) (ex : Extractor) (out : String) (n : Int)
    (h : 0 ≤ n) :
    writeInterface env ex ⟨out, n⟩
      = some ⟨out ++ ln n "type Resolvers interface \x7b"
          ++ catAll (ex.Objects.flatMap fun o =>
              (o.Fields.filter fun f => decide (f.VarName = "" ∧ f.MethodName = "")).map fun f =>
                tabs (n + 1) ++ o.Name ++ "_" ++ f.GraphQLName ++ "("
                  ++ ", ".intercalate (methodParams env o f)
                  ++ ") (" ++ env.Local f.Type_ ++ ", error)" ++ "\n")
          ++ ln n "\x7d" ++ "\n", n⟩
    ∧ ∀ (o : Object) (f : Field),
        (methodParams env o f).length
          = 1 + (if o.Type_.Name ≠ "interface\x7b\x7d" then 1 else 0) + f.Args.length
        ∧ (methodParams env o f).head? = some "ctx context.Context"
        ∧ (o.Type_.Name ≠ "interface\x7b\x7d" →
            (methodParams env o f).drop 1
              = ("it *" ++ env.Local o.Type_)
                :: f.Args.map fun arg => arg.Name ++ " " ++ env.Local arg.Type_)
        ∧ (o.Type_.Name = "interface\x7b\x7d" →
            (methodParams env o f).drop 1
              = f.Args.map fun arg => arg.Name ++ " " ++ env.Local arg.Type_) := by
  refine ⟨?_, fun o f => ?_⟩
  · have hline : ∀ o : Object, methodLine env (n + 1) o = fun f =>
        tabs (n + 1) ++ o.Name ++ "_" ++ f.GraphQLName ++ "("
          ++ ", ".intercalate (methodParams env o f)
          ++ ") (" ++ env.Local f.Type_ ++ ", error)" ++ "\n" := by
      intro o; funext f; rfl
    rw [writeInterface_eq _ _ _ h]
    simp only [String.append_assoc, abstractFields, hline]
  · by_cases ht : o.Type_.Name = "interface\x7b\x7d" <;> simp [methodParams, ht] <;> omega

theorem interface_synthesis_complete_witness :
    (0 : Int) ≤ 0
    ∧ writeInterface exEnv exExtractor ⟨"", 0⟩
      = some ⟨"type Resolvers interface \x7b\n\tQuery_user(ctx context.Context, id string) (User, error)\n\tUser_friends(ctx context.Context, it *User, first string) (string, error)\n\x7d\n\n", 0⟩ :=
  ⟨by decide,
    (interface_synthesis_complete exEnv exExtractor "" 0 (by decide)).1.trans (by decide)⟩

/-- C8, the claim as stated, fails: for the object `Query` and its field `user`
the emitted method is named `Query_user`, so the output differs from the one
whose method name is `object.Name ++ field.GraphQLName`. -/
theorem method_name_not_plain_concat :
    writeInterface exEnv ⟨"gen", [], [exQuery], ""⟩ ⟨"", 0⟩
      = some ⟨"type Resolvers interface \x7b\n\tQuery_user(ctx context.Context, id string) (User, error)\n\x7d\n\n", 0⟩
    ∧ writeInterface exEnv ⟨"gen", [], [exQuery], ""⟩ ⟨"", 0⟩
      ≠ some ⟨"type Resolvers interface \x7b\n\t"
          ++ (exQuery.Name ++ "user")
          ++ "(ctx context.Context, id string) (User, error)\n\x7d\n\n", 0⟩ := by
  decide

/-- C8, amended.  For a field with neither `VarName` nor `MethodName`, the
method line that `writeInterface` emits for it (the body of its loop, at any
indent `n ≥ 0` and after any output) starts with the method name
`object.Name ++ "_" ++ field.GraphQLName`: the object's name, an underscore,
the field's dispatch key. -/
theorem method_name_underscore (env : Env) (o : Object) (f : Field) (out : String) (n : Int)
    (h : 0 ≤ n) (hvar : f.VarName = "") (hmeth : f.MethodName = "") :
    writeInterfaceField env o f ⟨out, n⟩
      = some ⟨out ++ tabs n ++ (o.Name ++ "_" ++ f.GraphQLName) ++ "("
          ++ ", ".intercalate (methodParams env o f)
          ++ ") (" ++ env.Local f.Type_ ++ ", error)" ++ "\n", n⟩ := by
  rw [writeInterfaceField_eq _ _ _ _ h]
  simp [hvar, hmeth, String.append_assoc]

theorem method_name_underscore_witness :
    (0 : Int) ≤ 1 ∧ exFriends.VarName = "" ∧ exFriends.MethodName = ""
    ∧ writeInterfaceField exEnv exUser exFriends ⟨"", 1⟩
      = some ⟨"\tUser_friends(ctx context.Context, it *User, first string) (string, error)\n", 1⟩ :=
  ⟨by decide, rfl, rfl,
    (method_name_underscore exEnv exUser exFriends "" 1 (by decide) rfl rfl).trans (by decide)⟩

/-! ## C9: the arguments of a call -/

/-- C9, the claim as stated, fails: for the Delegated field `posts(limit)` of
the object `User`, whose type name is not `interface{}`, the emitted call
passes the field argument only; the call that the claim describes, with the
context and the receiver `it` before the argument, is not what is emitted. -/
theorem delegated_call_without_context :
    writeEvaluateMethod exEnv exUser exPosts ⟨"", 0⟩
      = some ⟨"res, err := it.Posts(\n\tfield.Args[\"limit\"].(string),\n)\nif err != nil \x7b\n\tec.Error(err)\n\tcontinue\n\x7d\n", 0⟩
    ∧ writeEvaluateMethod exEnv exUser exPosts ⟨"", 0⟩
      ≠ some ⟨"res, err := it.Posts(\n\tec.ctx,\n\tit,\n\tfield.Args[\"limit\"].(string),\n)\nif err != nil \x7b\n\tec.Error(err)\n\tcontinue\n\x7d\n", 0⟩ := by
  decide

/-- C9, amended.  At any indent `n ≥ 0` and after any output, the call that
`writeEvaluateMethod` emits binds `res` (or `res, err` when `NoErr` is false)
from the callee followed by the argument list written by `writeFuncArgs`.  For
an Abstract field (`MethodName` empty) the argument list is, one per line:
the context `ec.ctx`, then the receiver `it` when the object's type name is
not `interface{}`, then one argument per field argument in declared order, each
read from `field.Args` under the quoted argument name and type-asserted to the
argument's type.  For a Delegated field (`MethodName` set) the argument list
holds the field arguments only, read the same way, without context and
receiver, and it is `()` when the field has no argument. -/
theorem call_arguments (env : Env) (object : Object) (field : Field) (out : String)
    (n : Int) (h : 0 ≤ n) :
    writeEvaluateMethod env object field ⟨out, n⟩
      = some ⟨out ++ tabs n ++ (if field.NoErr then "res := " else "res, err := ")
          ++ (if field.MethodName ≠ "" then field.MethodName
              else "ec.resolvers." ++ object.Name ++ "_" ++ field.GraphQLName)
          ++ (if field.Args.length = 0 ∧ field.MethodName ≠ "" then "()\n"
              else "(\n"
                ++ catAll (((if field.MethodName = "" then
                        "ec.ctx," :: (if object.Type_.Name ≠ "interface\x7b\x7d" then ["it,"] else [])
                      else [])
                    ++ field.Args.map fun arg =>
                      "field.Args[" ++ env.Quote arg.Name ++ "].(" ++ env.Local arg.Type_
                        ++ "),").map (ln (n + 1)))
                ++ ln n ")")
          ++ (if field.NoErr then ""
              else ln n "if err != nil \x7b" ++ ln n "\tec.Error(err)" ++ ln n "\tcontinue"
                ++ ln n "\x7d"), n⟩ := by
  rw [writeEvaluateMethod_eq _ _ _ _ h]
  cases field.NoErr <;> simp [callee, callText, callArgs, String.append_assoc]

theorem call_arguments_witness :
    (0 : Int) ≤ 0
    ∧ writeEvaluateMethod exEnv exUser exFriends ⟨"", 0⟩
      = some ⟨"res, err := ec.resolvers.User_friends(\n\tec.ctx,\n\tit,\n\tfield.Args[\"first\"].(string),\n)\nif err != nil \x7b\n\tec.Error(err)\n\tcontinue\n\x7d\n", 0⟩ :=
  ⟨by decide, (call_arguments exEnv exUser exFriends "" 0 (by decide)).trans (by decide)⟩

/-! ## C10: the satisfies table -/

/-- C10 (satisfies table).  At any indent `n ≥ 0` and after any output,
`writeVars` emits exactly: the opening `var (`, one table line per object in
object order, the closing `)` and an empty line.  The line of an object is
`<lcFirst name>Satisfies = []string{...}` where the string list is the
comma-separated list of the quoted type name followed by the quoted entries of
`satisfies` in their order; that list has `1 + len(satisfies)` elements.  The
run panics exactly when an object's type has an empty `GraphQLName`. -/
theorem satisfies_table (env : Env) (ex : Extractor) (out : String) (n : Int) (h : 0 ≤ n) :
    writeVars env ex ⟨out, n⟩
      = (allTexts (fun o => (lcFirst env o.Type_.GraphQLName).map fun name =>
            ln (n + 1) (name ++ "Satisfies = []string\x7b"
              ++ ", ".intercalate ((o.Type_.GraphQLName :: o.satisfies).map env.Quote) ++ "\x7d"))
          ex.Objects).map (fun lines =>
          ⟨out ++ ln n "var (" ++ catAll lines ++ ln n ")" ++ "\n", n⟩)
    ∧ (∀ lines, allTexts (fun o => (lcFirst env o.Type_.GraphQLName).map fun name =>
            ln (n + 1) (name ++ "Satisfies = []string\x7b"
              ++ ", ".intercalate ((o.Type_.GraphQLName :: o.satisfies).map env.Quote) ++ "\x7d"))
          ex.Objects = some lines → lines.length = ex.Objects.length)
    ∧ ∀ o : Object,
        ((o.Type_.GraphQLName :: o.satisfies).map env.Quote).length = 1 + o.satisfies.length
        ∧ ((o.Type_.GraphQLName :: o.satisfies).map env.Quote).head?
            = some (env.Quote o.Type_.GraphQLName)
        ∧ ((o.Type_.GraphQLName :: o.satisfies).map env.Quote).tail
            = o.satisfies.map env.Quote := by
  refine ⟨?_, fun lines hl => allTexts_length _ _ _ hl, fun o => ?_⟩
  · rw [writeVars_eq _ _ _ h]
    have hfun : satisfiesLine env (n + 1) = fun o =>
        (lcFirst env o.Type_.GraphQLName).map fun name =>
          ln (n + 1) (name ++ "Satisfies = []string\x7b"
            ++ ", ".intercalate ((o.Type_.GraphQLName :: o.satisfies).map env.Quote) ++ "\x7d") := by
      funext o; rfl
    rw [hfun]
    simp only [String.append_assoc]
  · simp
    omega

theorem satisfies_table_witness :
    (0 : Int) ≤ 0
    ∧ writeVars exEnv exExtractor ⟨"", 0⟩
      = some ⟨"var (\n\tquerySatisfies = []string\x7b\"Query\"\x7d\n\tuserSatisfies = []string\x7b\"User\", \"Node\"\x7d\n)\n\n", 0⟩ :=
  ⟨by decide, (satisfies_table exEnv exExtractor "" 0 (by decide)).1.trans (by decide)⟩

/-! ## C3: the order of the modifiers -/

/-- A text that starts with `var ` followed by `r` cannot start with `r`
followed by ` :`. -/
theorem var_head_absurd : ∀ (r X Y : List Char),
    'v' :: 'a' :: 'r' :: ' ' :: (r ++ X) = r ++ ' ' :: ':' :: Y → False
  | [], X, Y, h => by simp at h
  | [a], X, Y, h => by simp at h
  | [a, b], X, Y, h => by simp at h
  | [a, b, c], X, Y, h => by
    simp at h
    obtain ⟨rfl, rfl, rfl, h5, _⟩ := h
    exact absurd h5 (by decide)
  | a :: b :: c :: d :: r, X, Y, h => by
    simp at h
    obtain ⟨rfl, rfl, rfl, rfl, h5⟩ := h
    exact var_head_absurd r X Y (by simpa using h5)

theorem string_append_left_cancel {a x y : String} (h : a ++ x = a ++ y) : x = y := by
  have := congrArg String.data h
  simp only [String.data_append] at this
  exact String.ext (List.append_cancel_left this)

theorem string_append_right_cancel {a x y : String} (h : x ++ a = y ++ a) : x = y := by
  have := congrArg String.data h
  simp only [String.data_append] at this
  exact String.ext (List.append_cancel_right this)

/-- Two texts that start with a line at the same indent agree on what
follows the indentation. -/
theorem ln_cancel {n : Int} {a b X Y : String} (h : ln n a ++ X = ln n b ++ Y) :
    a.data ++ '\n' :: X.data = b.data ++ '\n' :: Y.data := by
  have := congrArg String.data h
  simp only [ln, String.data_append, List.append_assoc] at this
  simpa using List.append_cancel_left this

/-- A line that declares `var r` and a line that starts with `r :` differ. -/
theorem var_line_ne (n : Int) (r a c X Y : String) (hc : ∃ rest, c.data = ' ' :: ':' :: rest)
    (h : ln n ("var " ++ (r ++ a)) ++ X = ln n (r ++ c) ++ Y) : False := by
  obtain ⟨rest, hc⟩ := hc
  have := ln_cancel h
  simp only [String.data_append, hc, List.append_assoc] at this
  exact var_head_absurd r.data (a.data ++ '\n' :: X.data) (rest ++ '\n' :: Y.data)
    (by simpa using this)

theorem ln_length {n : Int} (h : 0 ≤ n) (s : String) :
    ((ln n s).length : Int) = n + s.length + 1 := by
  have := tabs_length h
  simp only [ln, String.length_append]
  push_cast
  rw [this]
  rfl

/-- For a basic type every emission of the serializer is at least as long as
the capitalised type name that its base case prints. -/
theorem emission_length_basic (env : Env) (t : GqlType) (hb : t.Basic = true) (U : String)
    (hU : ucFirst env t.Name = some U) :
    ∀ (mods : List String) (r v : String) (p : Bool) (n : Int), 0 ≤ n → ∀ N : String,
      emission (doWriteJsonType env r t v mods p) n = some N → U.length ≤ N.length := by
  intro mods
  induction mods with
  | nil =>
    intro r v p n h N hN
    rw [emission_nil _ _ _ _ _ h, baseText] at hN
    simp only [hb, if_true, hU, Option.map_some', Option.some.injEq] at hN
    rw [← hN]
    simp only [ln, String.length_append]
    omega
  | cons m rest ih =>
    intro r v p n h N hN
    have h1 : 0 ≤ n + 1 := by omega
    by_cases hp : m = env.modPtr
    · subst hp
      rw [emission_ptr _ _ _ _ _ _ h] at hN
      cases hN1 : emission (doWriteJsonType env (r ++ "1") t v rest true) (n + 1) with
      | none => simp [hN1] at hN
      | some N1 =>
        simp only [hN1, Option.map_some', Option.some.injEq] at hN
        have := ih _ _ _ _ h1 N1 hN1
        rw [← hN]
        simp only [String.length_append]
        omega
    · by_cases hl : m = env.modList
      · subst hl
        rw [emission_list _ _ _ _ _ _ h hp] at hN
        cases hN1 : emission (doWriteJsonType env (r ++ "1") t "val" rest false) (n + 1) with
        | none => simp [hN1] at hN
        | some N1 =>
          simp only [hN1, Option.map_some', Option.some.injEq] at hN
          have := ih _ _ _ _ h1 N1 hN1
          rw [← hN]
          simp only [String.length_append]
          omega
      · rw [emission_skip _ _ _ _ _ _ _ _ hp hl] at hN
        exact ih _ _ _ _ h N hN

theorem ptrBlock_ne_listBlock (r v v2 : String) (n : Int) (N1 N2 : String) :
    ptrBlock r v n N1 ≠ listBlock r v2 n N2 := by
  intro h
  simp only [ptrBlock, listBlock, String.append_assoc] at h
  exact var_line_ne n r _ _ _ _ ⟨_, rfl⟩ h

theorem ptrBlock_inj {r v : String} {n : Int} {N1 N2 : String}
    (h : ptrBlock r v n N1 = ptrBlock r v n N2) : N1 = N2 := by
  simp only [ptrBlock, String.append_assoc] at h
  exact string_append_right_cancel
    (string_append_left_cancel (string_append_left_cancel h))

theorem listBlock_inj {r v : String} {n : Int} {N1 N2 : String}
    (h : listBlock r v n N1 = listBlock r v n N2) : N1 = N2 := by
  simp only [listBlock, String.append_assoc] at h
  exact string_append_right_cancel
    (string_append_left_cancel (string_append_left_cancel h))

theorem baseText_ne_ptrBlock (env : Env) (t : GqlType) (r v v2 : String) (p : Bool) (n : Int)
    (B N : String) (hB : baseText env r t v p n = some B) : B ≠ ptrBlock r v2 n N := by
  intro h
  subst h
  unfold baseText at hB
  by_cases hb : t.Basic = true
  · simp only [hb, if_true] at hB
    cases hU : ucFirst env t.Name with
    | none => simp [hU] at hB
    | some U =>
      simp only [hU, Option.map_some', Option.some.injEq, ptrBlock, String.append_assoc] at hB
      have hB' := hB.symm.trans (String.append_empty _).symm
      exact var_line_ne n r _ _ _ _ ⟨_, rfl⟩ hB'
  · simp only [hb, Bool.false_eq_true, if_false] at hB
    by_cases hi : t.Implementors.length > 0
    · simp only [hi, if_true] at hB
      cases hA : allTexts (implementorArms env r n) t.Implementors with
      | none => simp [hA] at hB
      | some arms =>
        simp only [hA, Option.map_some', Option.some.injEq, ptrBlock, String.append_assoc] at hB
        have := ln_cancel (string_append_left_cancel hB)
        simp only [String.data_append] at this
        simp at this
    · simp only [hi, if_false] at hB
      cases hL : lcFirst env t.GraphQLName with
      | none => simp [hL] at hB
      | some name =>
        simp only [hL, Option.map_some', Option.some.injEq, ptrBlock, String.append_assoc] at hB
        have hB' := hB.symm.trans (String.append_empty _).symm
        exact var_line_ne n r _ _ _ _ ⟨_, rfl⟩ hB'

theorem baseText_ne_listBlock (env : Env) (t : GqlType) (r v : String) (p : Bool) (n : Int)
    (h : 0 ≤ n) (B N : String) (hB : baseText env r t v p n = some B)
    (hN : ∀ U, t.Basic = true → ucFirst env t.Name = some U → U.length ≤ N.length) :
    B ≠ listBlock r (if p then "*" ++ v else v) n N := by
  intro hEq
  subst hEq
  unfold baseText at hB
  by_cases hb : t.Basic = true
  · simp only [hb, if_true] at hB
    cases hU : ucFirst env t.Name with
    | none => simp [hU] at hB
    | some U =>
      simp only [hU, Option.map_some', Option.some.injEq, listBlock] at hB
      have hlen := congrArg (fun s : String => (s.length : Int)) hB
      have hUN := hN U hb hU
      have h1 : 0 ≤ n + 1 := by omega
      simp only [String.length_append, Nat.cast_add, ln_length h, ln_length h1] at hlen
      have e1 : (" := jsonw.".length : Int) = 10 := by decide
      have e2 : (" := jsonw.Array\x7b\x7d".length : Int) = 17 := by decide
      have e3 : ("for _, val := range ".length : Int) = 20 := by decide
      have e4 : ("(".length : Int) = 1 := by decide
      have e5 : (")".length : Int) = 1 := by decide
      have e6 : (" \x7b".length : Int) = 2 := by decide
      rw [e1, e2, e3, e4, e5, e6] at hlen
      omega
  · simp only [hb, Bool.false_eq_true, if_false] at hB
    by_cases hi : t.Implementors.length > 0
    · simp only [hi, if_true] at hB
      cases hA : allTexts (implementorArms env r n) t.Implementors with
      | none => simp [hA] at hB
      | some arms =>
        simp only [hA, Option.map_some', Option.some.injEq, listBlock, String.append_assoc] at hB
        exact var_line_ne n r _ _ _ _ ⟨_, rfl⟩ hB
    · simp only [hi, if_false] at hB
      cases hL : lcFirst env t.GraphQLName with
      | none => simp [hL] at hB
      | some name =>
        simp only [hL, Option.map_some', Option.some.injEq, listBlock, String.append_assoc] at hB
        have hB' := (String.append_empty _).trans hB
        have := ln_cancel hB'
        simp only [String.data_append, List.append_assoc] at this
        have := List.append_cancel_left this
        simp at this

theorem emission_ptr_block (env : Env) (t : GqlType) (rest : List String)
    (r v : String) (p : Bool) {n : Int} (h : 0 ≤ n) :
    emission (doWriteJsonType env r t v (env.modPtr :: rest) p) n
      = (emission (doWriteJsonType env (r ++ "1") t v rest true) (n + 1)).map
          (ptrBlock r v n) :=
  emission_ptr env t rest r v p h

theorem emission_list_block (env : Env) (t : GqlType) (rest : List String)
    (r v : String) (p : Bool) {n : Int} (h : 0 ≤ n) (hne : env.modList ≠ env.modPtr) :
    emission (doWriteJsonType env r t v (env.modList :: rest) p) n
      = (emission (doWriteJsonType env (r ++ "1") t "val" rest false) (n + 1)).map
          (listBlock r (if p then "*" ++ v else v) n) :=
  emission_list env t rest r v p h hne

/-- Two sequences of `modPtr` and `modList` tags that give the same emission,
for the same type, result name, value reference and `isPtr`, are equal. -/
theorem emission_injective (env : Env) (t : GqlType) (hne : env.modList ≠ env.modPtr) :
    ∀ (m1 m2 : List String),
      (∀ x ∈ m1, x = env.modPtr ∨ x = env.modList) →
      (∀ x ∈ m2, x = env.modPtr ∨ x = env.modList) →
      ∀ (r v : String) (p : Bool) (n : Int), 0 ≤ n → ∀ X : String,
        emission (doWriteJsonType env r t v m1 p) n = some X →
        emission (doWriteJsonType env r t v m2 p) n = some X → m1 = m2 := by
  -- a base text is not the text of a block
  have base_vs_cons : ∀ (x : String) (rest : List String) (r v : String) (p : Bool) (n : Int),
      0 ≤ n → (x = env.modPtr ∨ x = env.modList) → ∀ X : String,
      emission (doWriteJsonType env r t v [] p) n = some X →
      emission (doWriteJsonType env r t v (x :: rest) p) n = some X → False := by
    intro x rest r v p n h hx X h1 h2
    have h1' : 0 ≤ n + 1 := by omega
    rw [emission_nil _ _ _ _ _ h] at h1
    rcases hx with rfl | rfl
    · rw [emission_ptr_block _ _ _ _ _ _ h] at h2
      cases hN : emission (doWriteJsonType env (r ++ "1") t v rest true) (n + 1) with
      | none => simp [hN] at h2
      | some N =>
        simp only [hN, Option.map_some', Option.some.injEq] at h2
        exact baseText_ne_ptrBlock env t r v v p n X N h1 h2.symm
    · rw [emission_list_block _ _ _ _ _ _ h hne] at h2
      cases hN : emission (doWriteJsonType env (r ++ "1") t "val" rest false) (n + 1) with
      | none => simp [hN] at h2
      | some N =>
        simp only [hN, Option.map_some', Option.some.injEq] at h2
        exact baseText_ne_listBlock env t r v p n h X N h1
          (fun U hb hU => emission_length_basic env t hb U hU rest _ _ _ _ h1' N hN) h2.symm
  intro m1
  induction m1 with
  | nil =>
    intro m2 _ hm2 r v p n h X h1 h2
    cases m2 with
    | nil => rfl
    | cons x rest =>
      exact absurd (base_vs_cons x rest r v p n h (hm2 x (List.mem_cons_self _ _)) X h1 h2) id
  | cons x1 rest1 ih =>
    intro m2 hm1 hm2 r v p n h X h1 h2
    have h1' : 0 ≤ n + 1 := by omega
    cases m2 with
    | nil =>
      exact absurd (base_vs_cons x1 rest1 r v p n h (hm1 x1 (List.mem_cons_self _ _)) X h2 h1) id
    | cons x2 rest2 =>
      have hr1 : ∀ x ∈ rest1, x = env.modPtr ∨ x = env.modList :=
        fun x hx => hm1 x (List.mem_cons_of_mem _ hx)
      have hr2 : ∀ x ∈ rest2, x = env.modPtr ∨ x = env.modList :=
        fun x hx => hm2 x (List.mem_cons_of_mem _ hx)
      rcases hm1 x1 (List.mem_cons_self _ _) with rfl | rfl <;>
        rcases hm2 x2 (List.mem_cons_self _ _) with rfl | rfl
      · rw [emission_ptr_block _ _ _ _ _ _ h] at h1 h2
        cases hN1 : emission (doWriteJsonType env (r ++ "1") t v rest1 true) (n + 1) with
        | none => simp [hN1] at h1
        | some N1 =>
          cases hN2 : emission (doWriteJsonType env (r ++ "1") t v rest2 true) (n + 1) with
          | none => simp [hN2] at h2
          | some N2 =>
            simp only [hN1, hN2, Option.map_some', Option.some.injEq] at h1 h2
            have hNN : N1 = N2 := ptrBlock_inj (h1.trans h2.symm)
            rw [ih rest2 hr1 hr2 _ _ _ _ h1' N1 hN1 (hNN ▸ hN2)]
      · rw [emission_ptr_block _ _ _ _ _ _ h] at h1
        rw [emission_list_block _ _ _ _ _ _ h hne] at h2
        cases hN1 : emission (doWriteJsonType env (r ++ "1") t v rest1 true) (n + 1) with
        | none => simp [hN1] at h1
        | some N1 =>
          cases hN2 : emission (doWriteJsonType env (r ++ "1") t "val" rest2 false) (n + 1) with
          | none => simp [hN2] at h2
          | some N2 =>
            simp only [hN1, hN2, Option.map_some', Option.some.injEq] at h1 h2
            exact absurd (h1.trans h2.symm) (ptrBlock_ne_listBlock _ _ _ _ _ _)
      · rw [emission_list_block _ _ _ _ _ _ h hne] at h1
        rw [emission_ptr_block _ _ _ _ _ _ h] at h2
        cases hN1 : emission (doWriteJsonType env (r ++ "1") t "val" rest1 false) (n + 1) with
        | none => simp [hN1] at h1
        | some N1 =>
          cases hN2 : emission (doWriteJsonType env (r ++ "1") t v rest2 true) (n + 1) with
          | none => simp [hN2] at h2
          | some N2 =>
            simp only [hN1, hN2, Option.map_some', Option.some.injEq] at h1 h2
            exact absurd (h2.trans h1.symm) (ptrBlock_ne_listBlock _ _ _ _ _ _)
      · rw [emission_list_block _ _ _ _ _ _ h hne] at h1 h2
        cases hN1 : emission (doWriteJsonType env (r ++ "1") t "val" rest1 false) (n + 1) with
        | none => simp [hN1] at h1
        | some N1 =>
          cases hN2 : emission (doWriteJsonType env (r ++ "1") t "val" rest2 false) (n + 1) with
          | none => simp [hN2] at h2
          | some N2 =>
            simp only [hN1, hN2, Option.map_some', Option.some.injEq] at h1 h2
            have hNN : N1 = N2 := listBlock_inj (h1.trans h2.symm)
            rw [ih rest2 hr1 hr2 _ _ _ _ h1' N1 hN1 (hNN ▸ hN2)]

theorem innermost_indent_nonneg (env : Env) :
    ∀ (mods : List String) (r v : String) (p : Bool) (n : Int), 0 ≤ n →
      0 ≤ (innermost env r v p n mods).2.2.2 := by
  intro mods
  induction mods with
  | nil => intro r v p n h; simpa [innermost] using h
  | cons m rest ih =>
    intro r v p n h
    have h1 : 0 ≤ n + 1 := by omega
    by_cases hp : m = env.modPtr
    · rw [innermost, if_pos hp]; exact ih _ _ _ _ h1
    · by_cases hl : m = env.modList
      · rw [innermost, if_neg hp, if_pos hl]; exact ih _ _ _ _ h1
      · rw [innermost, if_neg hp, if_neg hl]; exact ih _ _ _ _ h

/-- The emission of the serializer is its blocks' heads, outermost first, then
the emission of the base case, then the blocks' closings, innermost first. -/
theorem emission_blocks (env : Env) (t : GqlType) (hne : env.modList ≠ env.modPtr) :
    ∀ (mods : List String) (r v : String) (p : Bool) (n : Int), 0 ≤ n →
      emission (doWriteJsonType env r t v mods p) n
        = (emission (doWriteJsonType env (innermost env r v p n mods).1 t
              (innermost env r v p n mods).2.1 [] (innermost env r v p n mods).2.2.1)
            (innermost env r v p n mods).2.2.2).map fun base =>
          catAll ((blocks env r v p n mods).map fun b => b.decl ++ b.opening) ++ base
            ++ catAll ((blocks env r v p n mods).reverse.map fun b => b.closing) := by
  intro mods
  induction mods with
  | nil =>
    intro r v p n h
    simp [innermost, blocks, catAll]
  | cons m rest ih =>
    intro r v p n h
    have h1 : 0 ≤ n + 1 := by omega
    by_cases hp : m = env.modPtr
    · subst hp
      rw [emission_ptr _ _ _ _ _ _ h, ih _ _ _ _ h1]
      simp only [innermost, blocks, if_true, Option.map_map]
      congr 1
      funext base
      simp [catAll, catAll_append, String.append_assoc]
    · by_cases hl : m = env.modList
      · subst hl
        rw [emission_list _ _ _ _ _ _ h hne, ih _ _ _ _ h1]
        simp only [innermost, blocks, if_true, if_neg hne, Option.map_map]
        congr 1
        funext base
        simp [catAll, catAll_append, String.append_assoc]
      · rw [emission_skip _ _ _ _ _ _ _ _ hp hl, ih _ _ _ _ h]
        simp only [innermost, blocks, if_neg hp, if_neg hl]

theorem blocks_length (env : Env) :
    ∀ (mods : List String), (∀ x ∈ mods, x = env.modPtr ∨ x = env.modList) →
      ∀ (r v : String) (p : Bool) (n : Int), (blocks env r v p n mods).length = mods.length := by
  intro mods
  induction mods with
  | nil => intro _ r v p n; simp [blocks]
  | cons m rest ih =>
    intro hm r v p n
    have hr : ∀ x ∈ rest, x = env.modPtr ∨ x = env.modList :=
      fun x hx => hm x (List.mem_cons_of_mem _ hx)
    by_cases hp : m = env.modPtr
    · rw [blocks, if_pos hp]; simp [ih hr]
    · rcases hm m (List.mem_cons_self _ _) with h | h
      · exact absurd h hp
      · rw [blocks, if_neg hp, if_pos h]; simp [ih hr]

/-- The `k`-th block is opened for the `k`-th tag, `k` indent levels deeper
than the entry indent. -/
theorem blocks_opening (env : Env) :
    ∀ (mods : List String), (∀ x ∈ mods, x = env.modPtr ∨ x = env.modList) →
      ∀ (r v : String) (p : Bool) (n : Int) (k : Nat) (m : String), mods[k]? = some m →
        ∃ b ref, (blocks env r v p n mods)[k]? = some b
          ∧ b.opening = ln (n + k) (if m = env.modPtr then "if " ++ ref ++ " != nil \x7b"
              else "for _, val := range " ++ ref ++ " \x7b") := by
  intro mods
  induction mods with
  | nil => intro _ r v p n k m hk; simp at hk
  | cons x rest ih =>
    intro hm r v p n k m hk
    have hr : ∀ y ∈ rest, y = env.modPtr ∨ y = env.modList :=
      fun y hy => hm y (List.mem_cons_of_mem _ hy)
    cases k with
    | zero =>
      simp at hk
      subst hk
      by_cases hp : x = env.modPtr
      · refine ⟨Block.mk (ln n ("var " ++ r ++ " jsonw.Encodable = jsonw.Null"))
            (ln n ("if " ++ v ++ " != nil \x7b"))
            (ln (n + 1) (r ++ " = " ++ r ++ "1") ++ ln n "\x7d"), v,
          by rw [blocks, if_pos hp]; simp, ?_⟩
        simp [hp]
      · rcases hm x (List.mem_cons_self _ _) with h | h
        · exact absurd h hp
        · refine ⟨Block.mk (ln n (r ++ " := jsonw.Array\x7b\x7d"))
              (ln n ("for _, val := range " ++ (if p then "*" ++ v else v) ++ " \x7b"))
              (ln (n + 1) (r ++ " = append(" ++ r ++ ", " ++ r ++ "1" ++ ")") ++ ln n "\x7d"),
            if p then "*" ++ v else v,
            by rw [blocks, if_neg hp, if_pos h]; simp, ?_⟩
          simp [hp]
    | succ k =>
      simp at hk
      by_cases hp : x = env.modPtr
      · obtain ⟨b, ref, hb, ho⟩ := ih hr (r ++ "1") v true (n + 1) k m hk
        refine ⟨b, ref, by rw [blocks, if_pos hp]; simpa using hb, ?_⟩
        rw [ho]; push_cast; congr 1; ring
      · rcases hm x (List.mem_cons_self _ _) with h | h
        · exact absurd h hp
        · obtain ⟨b, ref, hb, ho⟩ := ih hr (r ++ "1") "val" false (n + 1) k m hk
          refine ⟨b, ref, by rw [blocks, if_neg hp, if_pos h]; simpa using hb, ?_⟩
          rw [ho]; push_cast; congr 1; ring

theorem doWriteJsonType_withModifiers (env : Env) (t : GqlType) (mods' : List String) :
    ∀ (mods : List String) (r v : String) (p : Bool) (w : Writer),
      doWriteJsonType env r (t.withModifiers mods') v mods p w
        = doWriteJsonType env r t v mods p w := by
  intro mods
  induction mods with
  | nil =>
    intro r v p w
    cases t
    rfl
  | cons m rest ih =>
    intro r v p w
    rw [doWriteJsonType, doWriteJsonType]
    simp only [ih]

theorem innermost_indent (env : Env) :
    ∀ (mods : List String), (∀ x ∈ mods, x = env.modPtr ∨ x = env.modList) →
      ∀ (r v : String) (p : Bool) (n : Int),
        (innermost env r v p n mods).2.2.2 = n + mods.length := by
  intro mods
  induction mods with
  | nil => intro _ r v p n; simp [innermost]
  | cons m rest ih =>
    intro hm r v p n
    have hr : ∀ x ∈ rest, x = env.modPtr ∨ x = env.modList :=
      fun x hx => hm x (List.mem_cons_of_mem _ hx)
    by_cases hp : m = env.modPtr
    · rw [innermost, if_pos hp, ih hr, List.length_cons]; push_cast; ring
    · rcases hm m (List.mem_cons_self _ _) with h | h
      · exact absurd h hp
      · rw [innermost, if_neg hp, if_pos h, ih hr, List.length_cons]; push_cast; ring

/-- C3 (modifier order).  Let `mods` be a sequence of `modPtr` and `modList`
tags (two different constants).  At any indent `n ≥ 0` and after any output,
`writeJsonType` on a type with these modifiers emits exactly: for each tag, in
sequence order, the declaration line and the block-opening line of its block;
then the emission of the base case, at indent `n + len(mods)`; then the
closings of the blocks, innermost first.  There are as many blocks as tags;
the block-opening line of the `k`-th block is the null guard
`if … != nil {` when the `k`-th tag is `modPtr` and the range loop
`for _, val := range … {` when it is `modList`, and it is written `k` indent
levels deeper than the entry indent.  Two different sequences of such tags
never give the same emitted text for the same type, result name and value
reference. -/
theorem modifier_order_preserved (env : Env) (t : GqlType) (mods : List String)
    (r v : String) (out : String) (n : Int) (h : 0 ≤ n) (hne : env.modList ≠ env.modPtr)
    (hm : ∀ x ∈ mods, x = env.modPtr ∨ x = env.modList) :
    writeJsonType env r (t.withModifiers mods) v ⟨out, n⟩
      = (emission (doWriteJsonType env (innermost env r v false n mods).1 t
            (innermost env r v false n mods).2.1 [] (innermost env r v false n mods).2.2.1)
          (n + mods.length)).map (fun base =>
          ⟨out ++ catAll ((blocks env r v false n mods).map fun b => b.decl ++ b.opening)
            ++ base
            ++ catAll ((blocks env r v false n mods).reverse.map fun b => b.closing), n⟩)
    ∧ (blocks env r v false n mods).length = mods.length
    ∧ (∀ (k : Nat) (m : String), mods[k]? = some m →
        ∃ b ref, (blocks env r v false n mods)[k]? = some b
          ∧ b.opening = ln (n + k) (if m = env.modPtr then "if " ++ ref ++ " != nil \x7b"
              else "for _, val := range " ++ ref ++ " \x7b"))
    ∧ (∀ mods2 : List String, (∀ x ∈ mods2, x = env.modPtr ∨ x = env.modList) →
        ∀ w1 w2 : Writer,
          writeJsonType env r (t.withModifiers mods) v ⟨out, n⟩ = some w1 →
          writeJsonType env r (t.withModifiers mods2) v ⟨out, n⟩ = some w2 →
          w1.out = w2.out → mods = mods2) := by
  have hrun : ∀ ms : List String, writeJsonType env r (t.withModifiers ms) v ⟨out, n⟩
      = (emission (doWriteJsonType env r t v ms false) n).map fun X => ⟨out ++ X, n⟩ := by
    intro ms
    have hmods : (t.withModifiers ms).Modifiers = ms := by cases t; rfl
    rw [writeJsonType, hmods, doWriteJsonType_withModifiers]
    exact doWriteJsonType_framed env t ms r v false n h out
  refine ⟨?_, blocks_length env mods hm r v false n,
    fun k m hk => blocks_opening env mods hm r v false n k m hk, ?_⟩
  · rw [hrun, emission_blocks env t hne mods r v false n h, innermost_indent env mods hm,
      Option.map_map]
    congr 1
    funext base
    simp [String.append_assoc]
  · intro mods2 hm2 w1 w2 h1 h2 hout
    rw [hrun] at h1 h2
    cases hX1 : emission (doWriteJsonType env r t v mods false) n with
    | none => simp [hX1] at h1
    | some X1 =>
      cases hX2 : emission (doWriteJsonType env r t v mods2 false) n with
      | none => simp [hX2] at h2
      | some X2 =>
        simp only [hX1, hX2, Option.map_some', Option.some.injEq] at h1 h2
        subst h1 h2
        have hXX : X1 = X2 := string_append_left_cancel hout
        exact emission_injective env t hne mods mods2 hm hm2 r v false n h X1 hX1 (hXX ▸ hX2)

theorem modifier_order_preserved_witness :
    (0 : Int) ≤ 0 ∧ exEnv.modList ≠ exEnv.modPtr
    ∧ (∀ x ∈ ["*", "[]"], x = exEnv.modPtr ∨ x = exEnv.modList)
    ∧ writeJsonType exEnv "json" (tString.withModifiers ["*", "[]"]) "res" ⟨"", 0⟩
      = some ⟨"var json jsonw.Encodable = jsonw.Null\nif res != nil \x7b\n\tjson1 := jsonw.Array\x7b\x7d\n\tfor _, val := range *res \x7b\n\t\tjson11 := jsonw.String(val)\n\t\tjson1 = append(json1, json11)\n\t\x7d\n\tjson = json1\n\x7d\n", 0⟩ :=
  ⟨by decide, by decide, by decide,
    (modifier_order_preserved exEnv tString ["*", "[]"] "json" "res" "" 0 (by decide)
      (by decide) (by decide)).1.trans (by decide)⟩

/-! ## C11: the error path of a case -/

/-- C11 (error path).  At any indent `n ≥ 0` and after any output, the case
that `writeObjectResolver` emits for a field is: the case line; then the
evaluation of the field; then the serialization, `resultMap.Set`, `continue`.
The evaluation is the single line `res := <VarName>` when `VarName` is set,
whatever `MethodName` and `NoErr` are; it is `res := <call>` without any error
check when `VarName` is empty and `NoErr` is true; and it is
`res, err := <call>` followed by the block `if err != nil {`, `ec.Error(err)`,
`continue`, `}` when `VarName` is empty and `NoErr` is false.  So the `err`
binding and the call of `ec.Error` are written if and only if `VarName` is
empty and `NoErr` is false. -/
theorem error_path_iff (env : Env) (object : Object) (field : Field) (out : String)
    (n : Int) (h : 0 ≤ n) :
    writeObjectResolverCase env object field ⟨out, n⟩
      = (emission (writeJsonType env "json" field.Type_ "res") (n + 1)).map (fun ser =>
          ⟨out ++ ln n ("case " ++ env.Quote field.GraphQLName ++ ":")
            ++ (if field.VarName ≠ "" then ln (n + 1) ("res := " ++ field.VarName)
                else if field.NoErr then
                  tabs (n + 1) ++ "res := " ++ callee object field
                    ++ callText env object field (n + 1)
                else
                  tabs (n + 1) ++ "res, err := " ++ callee object field
                    ++ callText env object field (n + 1)
                    ++ ln (n + 1) "if err != nil \x7b"
                    ++ ln (n + 1) "\tec.Error(err)"
                    ++ ln (n + 1) "\tcontinue"
                    ++ ln (n + 1) "\x7d")
            ++ ser
            ++ ln (n + 1) "resultMap.Set(field.Alias, json)"
            ++ ln (n + 1) "continue"
            ++ ln n "", n⟩) := by
  rw [writeObjectResolverCase_eq _ _ _ _ h, caseText, Option.map_map]
  congr 1
  funext ser
  simp only [Function.comp, evaluateText, String.append_assoc]

theorem error_path_iff_witness :
    (0 : Int) ≤ 0
    ∧ writeObjectResolverCase exEnv exUser exName ⟨"", 0⟩
      = some ⟨"case \"name\":\n\tres := it.Name\n\tjson := jsonw.String(res)\n\tresultMap.Set(field.Alias, json)\n\tcontinue\n\n", 0⟩ :=
  ⟨by decide, (error_path_iff exEnv exUser exName "" 0 (by decide)).trans (by decide)⟩

/-! ## C18: call site and interface -/

/-- C18 (call site and interface agree).  For an Abstract field (`VarName` and
`MethodName` empty), at any indent `n ≥ 0` and after any output: the method
line that `writeInterface` emits declares the method
`object.Name ++ "_" ++ field.GraphQLName` with the parameters `methodParams`;
the call that the dispatcher emits calls `ec.resolvers.` followed by the same
name, with the arguments `callArgs`, one per line.  Both lists are read off the
same list of positions (context, receiver if and only if the object's type name
is not `interface{}`, then the field arguments in declared order): the k-th
parameter and the k-th argument belong to the same position, so the lists have
the same length. -/
theorem call_site_matches_interface (env : Env) (o : Object) (f : Field) (out : String)
    (n : Int) (h : 0 ≤ n) (hvar : f.VarName = "") (hmeth : f.MethodName = "") :
    writeInterfaceField env o f ⟨out, n⟩
      = some ⟨out ++ tabs n ++ (o.Name ++ "_" ++ f.GraphQLName) ++ "("
          ++ ", ".intercalate (methodParams env o f)
          ++ ") (" ++ env.Local f.Type_ ++ ", error)" ++ "\n", n⟩
    ∧ writeEvaluateMethod env o f ⟨out, n⟩
      = some ⟨out ++ tabs n ++ (if f.NoErr then "res := " else "res, err := ")
          ++ "ec.resolvers." ++ (o.Name ++ "_" ++ f.GraphQLName)
          ++ "(\n" ++ catAll ((callArgs env o f).map (ln (n + 1))) ++ ln n ")"
          ++ (if f.NoErr then ""
              else ln n "if err != nil \x7b" ++ ln n "\tec.Error(err)" ++ ln n "\tcontinue"
                ++ ln n "\x7d"), n⟩
    ∧ methodParams env o f = (slots o f).map (Slot.param env o)
    ∧ callArgs env o f = (slots o f).map (Slot.passed env)
    ∧ (callArgs env o f).length = (methodParams env o f).length := by
  have hp : methodParams env o f = (slots o f).map (Slot.param env o) := by
    by_cases ht : o.Type_.Name = "interface\x7b\x7d" <;>
      simp [methodParams, slots, ht, Slot.param, Function.comp_def]
  have hc : callArgs env o f = (slots o f).map (Slot.passed env) := by
    by_cases ht : o.Type_.Name = "interface\x7b\x7d" <;>
      simp [callArgs, slots, ht, hmeth, Slot.passed, Function.comp_def]
  refine ⟨?_, ?_, hp, hc, by rw [hp, hc]; simp⟩
  · rw [writeInterfaceField_eq _ _ _ _ h]
    simp [hvar, hmeth, String.append_assoc]
  · rw [writeEvaluateMethod_eq _ _ _ _ h]
    cases f.NoErr <;> simp [callee, callText, hmeth, String.append_assoc] <;> rfl

theorem call_site_matches_interface_witness :
    (0 : Int) ≤ 0 ∧ exFriends.VarName = "" ∧ exFriends.MethodName = ""
    ∧ writeInterfaceField exEnv exUser exFriends ⟨"", 0⟩
      = some ⟨"User_friends(ctx context.Context, it *User, first string) (string, error)\n", 0⟩ :=
  ⟨by decide, rfl, rfl,
    (call_site_matches_interface exEnv exUser exFriends "" 0 (by decide) rfl rfl).1.trans
      (by decide)⟩

/-! ## C12 and C13: the base case and the declared names -/

theorem ones_succ (r : String) (k : Nat) : r ++ "1" ++ ones k = r ++ ones (k + 1) := by
  apply String.ext
  simp [ones, List.replicate_succ]

theorem ones_zero (r : String) : r ++ ones 0 = r := by
  apply String.ext
  simp [ones]

/-- The emission of the serializer as blocks around the base case, for any
sequence of tags. -/
theorem emission_blocks_any (env : Env) (t : GqlType) :
    ∀ (mods : List String) (r v : String) (p : Bool) (n : Int), 0 ≤ n →
      emission (doWriteJsonType env r t v mods p) n
        = (emission (doWriteJsonType env (innermost env r v p n mods).1 t
              (innermost env r v p n mods).2.1 [] (innermost env r v p n mods).2.2.1)
            (innermost env r v p n mods).2.2.2).map fun base =>
          catAll ((blocks env r v p n mods).map fun b => b.decl ++ b.opening) ++ base
            ++ catAll ((blocks env r v p n mods).reverse.map fun b => b.closing) := by
  intro mods r v p n h
  by_cases hne : env.modList = env.modPtr
  · -- the two constants coincide: the `modList` branch is never taken
    induction mods generalizing r v p n with
    | nil => simp [innermost, blocks, catAll]
    | cons m rest ih =>
      have h1 : 0 ≤ n + 1 := by omega
      by_cases hp : m = env.modPtr
      · subst hp
        rw [emission_ptr _ _ _ _ _ _ h, ih _ _ _ _ h1]
        simp only [innermost, blocks, if_true, Option.map_map]
        congr 1
        funext base
        simp [catAll, catAll_append, String.append_assoc]
      · have hl : m ≠ env.modList := fun hl => hp (hl.trans hne)
        rw [emission_skip _ _ _ _ _ _ _ _ hp hl, ih _ _ _ _ h]
        simp only [innermost, blocks, if_neg hp, if_neg hl]
  · exact emission_blocks env t hne mods r v p n h

theorem blocks_length_le (env : Env) :
    ∀ (mods : List String) (r v : String) (p : Bool) (n : Int),
      (blocks env r v p n mods).length ≤ mods.length := by
  intro mods
  induction mods with
  | nil => intro r v p n; simp [blocks]
  | cons m rest ih =>
    intro r v p n
    by_cases hp : m = env.modPtr
    · rw [blocks, if_pos hp]
      have := ih (r ++ "1") v true (n + 1)
      simp only [List.length_cons]; omega
    · by_cases hl : m = env.modList
      · rw [blocks, if_neg hp, if_pos hl]
        have := ih (r ++ "1") "val" false (n + 1)
        simp only [List.length_cons]; omega
      · rw [blocks, if_neg hp, if_neg hl]
        have := ih r v p n
        simp only [List.length_cons]; omega

theorem innermost_result (env : Env) :
    ∀ (mods : List String) (r v : String) (p : Bool) (n : Int),
      (innermost env r v p n mods).1 = r ++ ones (blocks env r v p n mods).length
      ∧ (innermost env r v p n mods).2.2.2 = n + (blocks env r v p n mods).length := by
  intro mods
  induction mods with
  | nil => intro r v p n; simp [innermost, blocks, ones_zero]
  | cons m rest ih =>
    intro r v p n
    by_cases hp : m = env.modPtr
    · rw [innermost, blocks, if_pos hp, if_pos hp]
      obtain ⟨h1, h2⟩ := ih (r ++ "1") v true (n + 1)
      rw [h1, h2, ones_succ, List.length_cons]
      exact ⟨rfl, by push_cast; ring⟩
    · by_cases hl : m = env.modList
      · rw [innermost, blocks, if_neg hp, if_neg hp, if_pos hl, if_pos hl]
        obtain ⟨h1, h2⟩ := ih (r ++ "1") "val" false (n + 1)
        rw [h1, h2, ones_succ, List.length_cons]
        exact ⟨rfl, by push_cast; ring⟩
      · rw [innermost, blocks, if_neg hp, if_neg hp, if_neg hl, if_neg hl]
        exact ih r v p n

/-- The value reference and `isPtr` at the base case, for a sequence of
`modPtr` and `modList` tags: the reference is `val` once a list was entered,
and `isPtr` tells whether the last tag is `modPtr`. -/
theorem innermost_value (env : Env) (hne : env.modList ≠ env.modPtr) :
    ∀ (mods : List String), (∀ x ∈ mods, x = env.modPtr ∨ x = env.modList) →
      ∀ (r v : String) (p : Bool) (n : Int),
        (innermost env r v p n mods).2.1 = (if env.modList ∈ mods then "val" else v)
        ∧ (innermost env r v p n mods).2.2.1
            = (if mods = [] then p else decide (mods.getLast? = some env.modPtr)) := by
  intro mods
  induction mods with
  | nil => intro _ r v p n; simp [innermost]
  | cons m rest ih =>
    intro hm r v p n
    have hr : ∀ x ∈ rest, x = env.modPtr ∨ x = env.modList :=
      fun x hx => hm x (List.mem_cons_of_mem _ hx)
    have hlast : (if rest = [] then decide (m = env.modPtr)
          else decide (rest.getLast? = some env.modPtr))
        = decide ((m :: rest).getLast? = some env.modPtr) := by
      cases rest with
      | nil => simp
      | cons y ys => simp [List.getLast?_cons_cons]
    rw [if_neg (List.cons_ne_nil m rest), ← hlast]
    by_cases hp : m = env.modPtr
    · obtain ⟨h1, h2⟩ := ih hr (r ++ "1") v true (n + 1)
      rw [innermost, if_pos hp, h1, h2]
      refine ⟨?_, ?_⟩
      · have hmem : (env.modList ∈ m :: rest) ↔ env.modList ∈ rest := by
          simp [hp, hne]
        by_cases hin : env.modList ∈ rest
        · rw [if_pos hin, if_pos (hmem.mpr hin)]
        · rw [if_neg hin, if_neg (fun hh => hin (hmem.mp hh))]
      · simp [hp]
    · rcases hm m (List.mem_cons_self _ _) with hx | hl
      · exact absurd hx hp
      · obtain ⟨h1, h2⟩ := ih hr (r ++ "1") "val" false (n + 1)
        rw [innermost, if_neg hp, if_pos hl, h1, h2]
        refine ⟨?_, ?_⟩
        · have hmem : env.modList ∈ m :: rest := by simp [hl]
          rw [if_pos hmem]
          split <;> rfl
        · simp [hp]

theorem writeJsonType_run (env : Env) (t : GqlType) (mods : List String) (r v : String)
    (out : String) {n : Int} (h : 0 ≤ n) :
    writeJsonType env r (t.withModifiers mods) v ⟨out, n⟩
      = (emission (doWriteJsonType env r t v mods false) n).map fun X => ⟨out ++ X, n⟩ := by
  have hmods : (t.withModifiers mods).Modifiers = mods := by cases t; rfl
  rw [writeJsonType, hmods, doWriteJsonType_withModifiers]
  exact doWriteJsonType_framed env t mods r v false n h out

/-- C12 (base-case dereference).  Let `mods` be a sequence of `modPtr` and
`modList` tags and `t` a type that is not polymorphic (basic, or without
implementors).  At any indent `n ≥ 0` and after any output,
`writeJsonType result t "res"` emits the blocks of the tags, then one base-case
line at indent `n + len(mods)`, then the closings of the blocks.  The value of
the base-case line is the reference `res` when `mods` holds no `modList` and
`val` otherwise.  For a basic type the line is the scalar conversion and the
value is prefixed with `*` if and only if the last tag is `modPtr`; for a
plain object type the line is the call of the dispatcher and the value is
prefixed with `&` if and only if `mods` is empty or its last tag is `modList`,
and passed as it is otherwise.  The run panics exactly when the name that the
line prints is empty. -/
theorem base_case_dereference (env : Env) (t : GqlType) (mods : List String) (r : String)
    (out : String) (n : Int) (h : 0 ≤ n) (hne : env.modList ≠ env.modPtr)
    (hm : ∀ x ∈ mods, x = env.modPtr ∨ x = env.modList)
    (hplain : t.Basic = true ∨ t.Implementors.length = 0) :
    writeJsonType env r (t.withModifiers mods) "res" ⟨out, n⟩
      = (if t.Basic then ucFirst env t.Name else lcFirst env t.GraphQLName).map (fun name =>
          ⟨out ++ catAll ((blocks env r "res" false n mods).map fun b => b.decl ++ b.opening)
            ++ ln (n + mods.length)
                (if t.Basic then
                  r ++ ones mods.length ++ " := jsonw." ++ name ++ "("
                    ++ (if mods.getLast? = some env.modPtr then "*" else "")
                    ++ (if env.modList ∈ mods then "val" else "res") ++ ")"
                else
                  r ++ ones mods.length ++ " := _" ++ name ++ "(ec, field.Selections, "
                    ++ (if mods.getLast? = some env.modPtr then "" else "&")
                    ++ (if env.modList ∈ mods then "val" else "res") ++ ")")
            ++ catAll ((blocks env r "res" false n mods).reverse.map fun b => b.closing),
           n⟩) := by
  obtain ⟨hres, hind⟩ := innermost_result env mods r "res" false n
  obtain ⟨hval, hptr⟩ := innermost_value env hne mods hm r "res" false n
  have hlen := blocks_length env mods hm r "res" false n
  rw [hlen] at hres hind
  have hptr' : (innermost env r "res" false n mods).2.2.1
      = decide (mods.getLast? = some env.modPtr) := by
    rw [hptr]
    by_cases hnil : mods = []
    · simp [hnil]
    · simp [hnil]
  have hn' : 0 ≤ n + (mods.length : Int) := by omega
  rw [writeJsonType_run _ _ _ _ _ _ h, emission_blocks env t hne mods r "res" false n h,
    hres, hval, hptr', hind, emission_nil _ _ _ _ _ hn', baseText, Option.map_map]
  by_cases hb : t.Basic = true
  · simp only [hb, if_true]
    cases ucFirst env t.Name with
    | none => rfl
    | some name =>
      simp only [Option.map_some', Function.comp]
      by_cases hl : mods.getLast? = some env.modPtr <;>
        (simp [hl, String.append_assoc]; try rfl)
  · have hi : ¬ t.Implementors.length > 0 := by
      rcases hplain with hp | hp
      · exact absurd hp hb
      · omega
    simp only [hb, hi, if_false, Bool.false_eq_true]
    cases lcFirst env t.GraphQLName with
    | none => rfl
    | some name =>
      simp only [Option.map_some', Function.comp]
      by_cases hl : mods.getLast? = some env.modPtr <;>
        (simp [hl, String.append_assoc]; try rfl)

theorem base_case_dereference_witness :
    (0 : Int) ≤ 0 ∧ exEnv.modList ≠ exEnv.modPtr
    ∧ (∀ x ∈ ["[]", "*"], x = exEnv.modPtr ∨ x = exEnv.modList)
    ∧ (tUser.Basic = true ∨ tUser.Implementors.length = 0)
    ∧ writeJsonType exEnv "json" (tUser.withModifiers ["[]", "*"]) "res" ⟨"", 0⟩
      = some ⟨"json := jsonw.Array\x7b\x7d\nfor _, val := range res \x7b\n\tvar json1 jsonw.Encodable = jsonw.Null\n\tif val != nil \x7b\n\t\tjson11 := _user(ec, field.Selections, val)\n\t\tjson1 = json11\n\t\x7d\n\tjson = append(json, json1)\n\x7d\n", 0⟩ :=
  ⟨by decide, by decide, by decide, by decide,
    (base_case_dereference exEnv tUser ["[]", "*"] "json" "" 0 (by decide) (by decide)
      (by decide) (by decide)).trans (by decide)⟩

/-- C13 (one base case).  `doWriteJsonType` is defined by recursion on the
modifier sequence, every recursive call being on the tail that follows the tag
just read, so it returns for every sequence of tags, of any length and over
arbitrary strings.  At any indent `n ≥ 0` and after any output its emission is
exactly: the heads of the blocks it opened, at most one per tag; then one
base-case block; then the closings of the blocks.  The base-case block is the
scalar conversion if the type is basic, else the type switch if the type has
implementors, else the call of the object's dispatcher.  The run panics
exactly when the base case panics, that is on an empty name. -/
theorem serializer_one_base_case (env : Env) (t : GqlType) (mods : List String)
    (r v : String) (p : Bool) (out : String) (n : Int) (h : 0 ≤ n) :
    doWriteJsonType env r t v mods p ⟨out, n⟩
      = (emission (doWriteJsonType env (innermost env r v p n mods).1 t
            (innermost env r v p n mods).2.1 [] (innermost env r v p n mods).2.2.1)
          (innermost env r v p n mods).2.2.2).map (fun base =>
          ⟨out ++ catAll ((blocks env r v p n mods).map fun b => b.decl ++ b.opening)
            ++ base
            ++ catAll ((blocks env r v p n mods).reverse.map fun b => b.closing), n⟩)
    ∧ (blocks env r v p n mods).length ≤ mods.length
    ∧ (innermost env r v p n mods).2.2.2 = n + (blocks env r v p n mods).length
    ∧ ∀ (r1 v1 : String) (p1 : Bool) (n1 : Int), 0 ≤ n1 →
        emission (doWriteJsonType env r1 t v1 [] p1) n1
          = (if t.Basic then
              (ucFirst env t.Name).map fun name =>
                ln n1 (r1 ++ " := jsonw." ++ name ++ "("
                  ++ (if p1 then "*" ++ v1 else v1) ++ ")")
            else if t.Implementors.length > 0 then
              (allTexts (fun implementor => lcFirst env implementor.GraphQLName)
                t.Implementors).map fun names =>
                ln n1 ("var " ++ r1 ++ " jsonw.Encodable = jsonw.Null")
                  ++ ln n1 ("switch it := " ++ v1 ++ ".(type) \x7b")
                  ++ catAll (switchArms env r1 n1 t.Implementors names)
                  ++ ln n1 "\x7d"
            else
              (lcFirst env t.GraphQLName).map fun name =>
                ln n1 (r1 ++ " := _" ++ name ++ "(ec, field.Selections, "
                  ++ (if p1 then v1 else "&" ++ v1) ++ ")")) := by
  refine ⟨?_, blocks_length_le env mods r v p n, (innermost_result env mods r v p n).2, ?_⟩
  · rw [doWriteJsonType_framed env t mods r v p n h out, emission_blocks_any env t mods r v p n h,
      Option.map_map]
    congr 1
    funext base
    simp [String.append_assoc]
  · intro r1 v1 p1 n1 h1
    rw [emission_nil _ _ _ _ _ h1, baseText]
    by_cases hb : t.Basic = true
    · simp only [hb, if_true]
    · simp only [hb, Bool.false_eq_true, if_false]
      by_cases hi : t.Implementors.length > 0
      · simp only [hi, if_true]
        have harms : implementorArms env r1 n1 = fun implementor =>
            (lcFirst env implementor.GraphQLName).map (fun name =>
              ln n1 ("case " ++ env.Local implementor ++ ":")
              ++ ln n1 ("\t" ++ r1 ++ " = _" ++ name ++ "(ec, field.Selections, &it)")
              ++ ln n1 ("case *" ++ env.Local implementor ++ ":")
              ++ ln n1 ("\t" ++ r1 ++ " = _" ++ name ++ "(ec, field.Selections, it)")) := by
          funext implementor; rfl
        have key := allTexts_map
          (fun implementor : GqlType => lcFirst env implementor.GraphQLName)
          (fun implementor name =>
              ln n1 ("case " ++ env.Local implementor ++ ":")
              ++ ln n1 ("\t" ++ r1 ++ " = _" ++ name ++ "(ec, field.Selections, &it)")
              ++ ln n1 ("case *" ++ env.Local implementor ++ ":")
              ++ ln n1 ("\t" ++ r1 ++ " = _" ++ name ++ "(ec, field.Selections, it)"))
          t.Implementors
        beta_reduce at key
        rw [harms, key]
        cases allTexts (fun implementor => lcFirst env implementor.GraphQLName)
            t.Implementors with
        | none => rfl
        | some names =>
          have hs := switchArms_text env r1 n1 t.Implementors names
          simp only [String.append_assoc] at hs
          simp [switchArms, catAll_append, catAll, hs, String.append_assoc]
      · simp only [hi, if_false]

theorem serializer_one_base_case_witness :
    (0 : Int) ≤ 0
    ∧ doWriteJsonType exEnv "json" tString "res" ["!", "*", "?"] false ⟨"", 0⟩
      = some ⟨"var json jsonw.Encodable = jsonw.Null\nif res != nil \x7b\n\tjson1 := jsonw.String(*res)\n\tjson = json1\n\x7d\n", 0⟩ :=
  ⟨by decide,
    (serializer_one_base_case exEnv tString ["!", "*", "?"] "json" "res" false "" 0
      (by decide)).1.trans (by decide)⟩

theorem declaresFirst_emission (env : Env) (t : GqlType) :
    ∀ (mods : List String) (r v : String) (p : Bool) (n : Int), 0 ≤ n → ∀ X : String,
      emission (doWriteJsonType env r t v mods p) n = some X → DeclaresFirst r n X := by
  intro mods
  induction mods with
  | nil =>
    intro r v p n h X hX
    rw [emission_nil _ _ _ _ _ h, baseText] at hX
    by_cases hb : t.Basic = true
    · simp only [hb, if_true] at hX
      cases hU : ucFirst env t.Name with
      | none => simp [hU] at hX
      | some U =>
        simp only [hU, Option.map_some', Option.some.injEq] at hX
        refine Or.inr ⟨"jsonw." ++ U ++ "(" ++ (if p then "*" ++ v else v) ++ ")" ++ "\n", ?_⟩
        rw [← hX]
        simp only [ln, String.append_assoc]
        rfl
    · simp only [hb, Bool.false_eq_true, if_false] at hX
      by_cases hi : t.Implementors.length > 0
      · simp only [hi, if_true] at hX
        cases hA : allTexts (implementorArms env r n) t.Implementors with
        | none => simp [hA] at hX
        | some arms =>
          simp only [hA, Option.map_some', Option.some.injEq] at hX
          refine Or.inl ⟨ln n ("switch it := " ++ v ++ ".(type) \x7b") ++ ln n "case nil:"
            ++ ln n ("\t" ++ r ++ " = jsonw.Null") ++ catAll arms ++ ln n "default:"
            ++ ln n "\tpanic(fmt.Errorf(\"unexpected type %T\", it))" ++ ln n "\x7d", ?_⟩
          rw [← hX]
          simp only [String.append_assoc]
      · simp only [hi, if_false] at hX
        cases hL : lcFirst env t.GraphQLName with
        | none => simp [hL] at hX
        | some name =>
          simp only [hL, Option.map_some', Option.some.injEq] at hX
          refine Or.inr ⟨"_" ++ name ++ "(ec, field.Selections, "
            ++ (if p then v else "&" ++ v) ++ ")" ++ "\n", ?_⟩
          rw [← hX]
          simp only [ln, String.append_assoc]
          rfl
  | cons m rest ih =>
    intro r v p n h X hX
    by_cases hp : m = env.modPtr
    · subst hp
      rw [emission_ptr _ _ _ _ _ _ h] at hX
      cases hN : emission (doWriteJsonType env (r ++ "1") t v rest true) (n + 1) with
      | none => simp [hN] at hX
      | some N =>
        simp only [hN, Option.map_some', Option.some.injEq] at hX
        refine Or.inl ⟨ln n ("if " ++ v ++ " != nil \x7b") ++ N
          ++ ln (n + 1) (r ++ " = " ++ r ++ "1") ++ ln n "\x7d", ?_⟩
        rw [← hX]
        simp only [String.append_assoc]
    · by_cases hl : m = env.modList
      · subst hl
        rw [emission_list _ _ _ _ _ _ h hp] at hX
        cases hN : emission (doWriteJsonType env (r ++ "1") t "val" rest false) (n + 1) with
        | none => simp [hN] at hX
        | some N =>
          simp only [hN, Option.map_some', Option.some.injEq] at hX
          refine Or.inr ⟨"jsonw.Array\x7b\x7d" ++ "\n" ++ (ln n ("for _, val := range "
            ++ (if p then "*" ++ v else v) ++ " \x7b") ++ N
            ++ ln (n + 1) (r ++ " = append(" ++ r ++ ", " ++ r ++ "1" ++ ")") ++ ln n "\x7d"), ?_⟩
          rw [← hX]
          simp only [ln, String.append_assoc]
          rfl
      · rw [emission_skip _ _ _ _ _ _ _ _ hp hl] at hX
        exact ih r v p n h X hX

theorem blocks_decl (env : Env) :
    ∀ (mods : List String) (r v : String) (p : Bool) (n : Int) (k : Nat) (b : Block),
      (blocks env r v p n mods)[k]? = some b →
        b.decl = ln (n + k) ("var " ++ (r ++ ones k) ++ " jsonw.Encodable = jsonw.Null")
        ∨ b.decl = ln (n + k) ((r ++ ones k) ++ " := jsonw.Array\x7b\x7d") := by
  intro mods
  induction mods with
  | nil => intro r v p n k b hb; simp [blocks] at hb
  | cons m rest ih =>
    intro r v p n k b hb
    have step : ∀ (first : Block) (v' : String) (p' : Bool),
        (first.decl = ln n ("var " ++ r ++ " jsonw.Encodable = jsonw.Null")
          ∨ first.decl = ln n (r ++ " := jsonw.Array\x7b\x7d")) →
        (first :: blocks env (r ++ "1") v' p' (n + 1) rest)[k]? = some b →
        b.decl = ln (n + k) ("var " ++ (r ++ ones k) ++ " jsonw.Encodable = jsonw.Null")
        ∨ b.decl = ln (n + k) ((r ++ ones k) ++ " := jsonw.Array\x7b\x7d") := by
      intro first v' p' hfirst hk
      cases k with
      | zero =>
        simp at hk
        subst hk
        simpa [ones_zero] using hfirst
      | succ k =>
        simp at hk
        have := ih (r ++ "1") v' p' (n + 1) k b hk
        rw [ones_succ] at this
        have e : n + 1 + (k : Int) = n + ((k + 1 : Nat) : Int) := by push_cast; ring
        rw [e] at this
        exact this
    by_cases hp : m = env.modPtr
    · rw [blocks, if_pos hp] at hb
      exact step _ v true (Or.inl rfl) hb
    · by_cases hl : m = env.modList
      · rw [blocks, if_neg hp, if_pos hl] at hb
        exact step _ "val" false (Or.inr rfl) hb
      · rw [blocks, if_neg hp, if_neg hl] at hb
        exact ih r v p n k b hb

/-! ## How the writer functions shift the indent -/

theorem shifts_bind {f : Writer → Option Writer} {g : Writer → Option Writer} {a b c : Int}
    (hf : Shifts f a) (hg : Shifts g b) (hc : a + b = c) :
    Shifts (fun w => (f w).bind g) c := by
  intro w w' h
  cases hfw : f w with
  | none => simp [hfw] at h
  | some w1 =>
    simp only [hfw, Option.some_bind] at h
    rw [hg w1 w' h, hf w w1 hfw, ← hc]
    ring

theorem shifts_optionBind {α : Type} (o : Option α) {g : α → Writer → Option Writer} {k : Int}
    (hg : ∀ x, Shifts (g x) k) : Shifts (fun w => o.bind fun x => g x w) k := by
  intro w w' h
  cases o with
  | none => simp at h
  | some x => exact hg x w w' h

theorem shifts_some : Shifts (fun w => some w) 0 := by
  intro w w' h
  simp at h
  simp [← h]

theorem shifts_ite (c : Prop) [Decidable c] {f g : Writer → Option Writer} {k : Int}
    (hf : Shifts f k) (hg : Shifts g k) : Shifts (fun w => if c then f w else g w) k := by
  intro w w' h
  by_cases hc : c
  · simp only [hc, if_true] at h; exact hf w w' h
  · simp only [hc, if_false] at h; exact hg w w' h

theorem shifts_emit (format : String) (args : List String) : Shifts (emit format args) 0 := by
  intro w w' h
  simp [emit] at h
  simp [← h]

theorem shifts_lf : Shifts lf 0 := by
  intro w w' h
  simp [lf] at h
  simp [← h]

theorem shifts_emitIndent : Shifts emitIndent 0 := by
  intro w w' h
  simp only [emitIndent] at h
  cases hr : repeatTab w.indent with
  | none => simp [hr] at h
  | some t => simp [hr] at h; simp [← h]

theorem shifts_line (format : String) (args : List String) : Shifts (line format args) 0 :=
  shifts_bind shifts_emitIndent (shifts_bind (shifts_emit format args) shifts_lf rfl) rfl

theorem shifts_begin (format : String) (args : List String) : Shifts (begin_ format args) 1 :=
  shifts_bind shifts_emitIndent
    (shifts_bind (shifts_emit format args)
      (shifts_bind shifts_lf
        (fun w w' h => by simp at h; simp [← h]) (zero_add 1)) (zero_add 1)) (zero_add 1)

theorem shifts_end (format : String) (args : List String) : Shifts (end_ format args) (-1) := by
  intro w w' h
  have := shifts_line format args ⟨w.out, w.indent - 1⟩ w' h
  simp at this
  rw [this]; ring

theorem shifts_forRange {α : Type} {body : α → Writer → Option Writer}
    (hbody : ∀ x, Shifts (body x) 0) : ∀ xs : List α, Shifts (forRange xs body) 0 := by
  intro xs
  induction xs with
  | nil => intro w w' h; simp [forRange] at h; simp [← h]
  | cons x xs ih =>
    intro w w' h
    rw [forRange] at h
    exact shifts_bind (hbody x) ih (add_zero 0) w w' h

theorem balanced_writeImports (env : Env) (iter : List (String × String)) :
    Balanced (writeImports env iter) :=
  shifts_bind (shifts_begin _ _)
    (shifts_bind
      (shifts_forRange (fun e => shifts_ite _ (shifts_line _ _) (shifts_line _ _)) iter)
      (shifts_bind (shifts_end _ _) shifts_lf rfl) rfl) (by norm_num)

theorem balanced_writeInterfaceField (env : Env) (o : Object) (f : Field) :
    Balanced (writeInterfaceField env o f) := by
  intro w w' h
  rw [writeInterfaceField] at h
  have jp : Shifts (fun w => (forRange f.Args (fun arg w =>
      emit ", %s %s" [arg.Name, env.Local arg.Type_] w) w).bind fun w =>
      (emit ") (%s, error)" [env.Local f.Type_] w).bind lf) 0 :=
    shifts_bind (shifts_forRange (fun (arg : FieldArg) =>
        shifts_emit ", %s %s" [arg.Name, env.Local arg.Type_]) f.Args)
      (shifts_bind (shifts_emit _ _) shifts_lf rfl) rfl
  exact shifts_ite (f.VarName ≠ "" ∨ f.MethodName ≠ "") shifts_some
    (shifts_bind shifts_emitIndent
      (shifts_bind (shifts_emit "%s_%s(" [o.Name, f.GraphQLName])
        (shifts_bind (shifts_emit "ctx context.Context" [])
          (shifts_ite (o.Type_.Name ≠ "interface\x7b\x7d")
            (shifts_bind (shifts_emit ", it *%s" [env.Local o.Type_]) jp rfl)
            (shifts_bind shifts_some jp rfl)) rfl) rfl) rfl) w w' h

theorem balanced_writeInterface (env : Env) (ex : Extractor) :
    Balanced (writeInterface env ex) :=
  shifts_bind (shifts_begin _ _)
    (shifts_bind
      (shifts_forRange (fun o => shifts_forRange (balanced_writeInterfaceField env o) o.Fields)
        ex.Objects)
      (shifts_bind (shifts_end _ _) shifts_lf rfl) rfl) (by norm_num)

theorem balanced_writeVars (env : Env) (ex : Extractor) : Balanced (writeVars env ex) :=
  shifts_bind (shifts_begin _ _)
    (shifts_bind
      (shifts_forRange (fun o => shifts_optionBind _ (fun name => shifts_line _ _)) ex.Objects)
      (shifts_bind (shifts_end _ _) shifts_lf rfl) rfl) (by norm_num)

theorem balanced_writeFuncArgs (env : Env) (object : Object) (field : Field) :
    Balanced (writeFuncArgs env object field) := by
  intro w w' h
  rw [writeFuncArgs] at h
  by_cases hc : field.Args.length = 0 ∧ field.MethodName ≠ ""
  · rw [if_pos hc] at h
    exact shifts_bind (shifts_emit _ _) shifts_lf rfl w w' h
  · rw [if_neg hc] at h
    have jp : Shifts (fun w => (forRange field.Args (fun arg w =>
        line "field.Args[%s].(%s)," [env.Quote arg.Name, env.Local arg.Type_] w) w).bind
        (end_ ")" [])) (-1) :=
      shifts_bind
        (shifts_forRange (fun (arg : FieldArg) => shifts_line "field.Args[%s].(%s),"
          [env.Quote arg.Name, env.Local arg.Type_]) field.Args)
        (shifts_end ")" []) (zero_add _)
    have := shifts_bind (shifts_emit "(" [])
      (shifts_bind shifts_lf
        (shifts_ite (field.MethodName = "")
          (shifts_bind (shifts_line "ec.ctx," [])
            (shifts_ite (object.Type_.Name ≠ "interface\x7b\x7d")
              (shifts_bind (shifts_line "it," []) jp (zero_add _))
              (shifts_bind shifts_some jp (zero_add _))) (zero_add _))
          (shifts_bind shifts_some jp (zero_add _))) (zero_add _)) (zero_add _)
      ⟨w.out, w.indent + 1⟩ w' h
    simp at this
    rw [this]; ring

theorem balanced_writeJsonBase (env : Env) (result : String) (t : GqlType) (val : String)
    (isPtr : Bool) : Balanced (writeJsonBase env result t val isPtr) := by
  intro w w' h
  rw [writeJsonBase] at h
  exact shifts_ite (t.Basic = true)
    (shifts_optionBind _ (fun name => shifts_line _ _))
    (shifts_ite (t.Implementors.length > 0)
      (shifts_bind (shifts_line _ _)
        (shifts_bind (shifts_line _ _)
          (shifts_bind (shifts_line _ _)
            (shifts_bind (shifts_line _ _)
              (shifts_bind
                (shifts_forRange (fun (implementor : GqlType) =>
                  shifts_bind (shifts_line "case %s:" [env.Local implementor])
                    (shifts_optionBind (lcFirst env implementor.GraphQLName) (fun name =>
                      shifts_bind
                        (shifts_line "\t%s = _%s(ec, field.Selections, &it)" [result, name])
                        (shifts_bind (shifts_line "case *%s:" [env.Local implementor])
                          (shifts_optionBind (lcFirst env implementor.GraphQLName)
                            (fun name => shifts_line "\t%s = _%s(ec, field.Selections, it)"
                              [result, name])) rfl) rfl)) rfl) t.Implementors)
                (shifts_bind (shifts_line _ _)
                  (shifts_bind (shifts_line _ _) (shifts_line _ _) rfl) rfl) rfl) rfl) rfl)
          rfl) rfl)
      (shifts_optionBind _ (fun name => shifts_line _ _))) w w' h

theorem balanced_doWriteJsonType (env : Env) (t : GqlType) :
    ∀ (mods : List String) (result val : String) (isPtr : Bool),
      Balanced (doWriteJsonType env result t val mods isPtr) := by
  intro mods
  induction mods with
  | nil =>
    intro result val isPtr w w' h
    rw [doWriteJsonType_nil] at h
    exact balanced_writeJsonBase env result t val isPtr w w' h
  | cons m rest ih =>
    intro result val isPtr w w' h
    rw [doWriteJsonType] at h
    exact shifts_ite (m = env.modPtr)
      (shifts_bind (shifts_line _ _)
        (shifts_bind (shifts_begin _ _)
          (shifts_bind (ih (result ++ "1") val true)
            (shifts_bind (shifts_line _ _) (shifts_end _ _) (zero_add _)) (zero_add _))
          (by norm_num)) (zero_add _))
      (shifts_ite (m = env.modList)
        (shifts_bind (shifts_line _ _)
          (shifts_bind (shifts_begin _ _)
            (shifts_bind (ih (result ++ "1") "val" false)
              (shifts_bind (shifts_line _ _) (shifts_end _ _) (zero_add _)) (zero_add _))
            (by norm_num)) (zero_add _))
        (ih result val isPtr)) w w' h

theorem balanced_writeJsonType (env : Env) (result : String) (t : GqlType) (val : String) :
    Balanced (writeJsonType env result t val) :=
  balanced_doWriteJsonType env t t.Modifiers result val false

theorem balanced_writeEvaluateMethod (env : Env) (object : Object) (field : Field) :
    Balanced (writeEvaluateMethod env object field) := by
  intro w w' h
  rw [writeEvaluateMethod] at h
  exact shifts_ite (field.NoErr = true)
    (shifts_bind shifts_emitIndent
      (shifts_bind (shifts_emit _ _) (balanced_writeFuncArgs env object field) rfl) rfl)
    (shifts_bind shifts_emitIndent
      (shifts_bind (shifts_emit _ _)
        (shifts_bind (balanced_writeFuncArgs env object field)
          (shifts_bind (shifts_line _ _)
            (shifts_bind (shifts_line _ _)
              (shifts_bind (shifts_line _ _) (shifts_line _ _) rfl) rfl) rfl) rfl) rfl) rfl)
    w w' h

theorem balanced_writeObjectResolverCase (env : Env) (object : Object) (field : Field) :
    Balanced (writeObjectResolverCase env object field) := by
  intro w w' h
  rw [writeObjectResolverCase] at h
  have jp : Shifts (fun w => (writeJsonType env "json" field.Type_ "res" w).bind fun w =>
      (line "resultMap.Set(field.Alias, json)" [] w).bind fun w =>
      (line "continue" [] w).bind fun w => end_ "" [] w) (-1) :=
    shifts_bind (balanced_writeJsonType env "json" field.Type_ "res")
      (shifts_bind (shifts_line _ _)
        (shifts_bind (shifts_line _ _) (shifts_end _ _) (zero_add _)) (zero_add _)) (zero_add _)
  exact shifts_bind (shifts_begin "case %s:" [env.Quote field.GraphQLName])
    (shifts_ite (field.VarName ≠ "")
      (shifts_bind (shifts_line "res := %s" [field.VarName]) jp (zero_add _))
      (shifts_bind (balanced_writeEvaluateMethod env object field) jp (zero_add _)))
    (by norm_num) w w' h

theorem balanced_writeObjectResolver (env : Env) (object : Object) :
    Balanced (writeObjectResolver env object) := by
  intro w w' h
  rw [writeObjectResolver] at h
  exact shifts_optionBind (lcFirst env object.Type_.GraphQLName) (fun name =>
    shifts_bind (shifts_begin _ _)
      (shifts_optionBind (lcFirst env object.Type_.GraphQLName) (fun name =>
        shifts_bind (shifts_line _ _)
          (shifts_bind (shifts_line _ _)
            (shifts_bind (shifts_begin _ _)
              (shifts_bind (shifts_line _ _)
                (shifts_bind
                  (shifts_forRange (balanced_writeObjectResolverCase env object) object.Fields)
                  (shifts_bind (shifts_line _ _)
                    (shifts_bind (shifts_line _ _)
                      (shifts_bind (shifts_end _ _)
                        (shifts_bind (shifts_line _ _)
                          (shifts_bind (shifts_end _ _) shifts_lf (add_zero _))
                          (zero_add _)) (show (-1 : Int) + -1 = -2 by norm_num))
                      (zero_add _)) (zero_add _)) (zero_add _)) (zero_add _))
              (show (1 : Int) + -2 = -1 by norm_num)) (zero_add _)) (zero_add _)))
      (show (1 : Int) + -1 = 0 by norm_num)) w w' h

theorem write_indent (env : Env) (ex : Extractor) (iter : List (String × String))
    (w : Writer) (h : write env ex iter = some w) : w.indent = 0 := by
  rw [write] at h
  have := shifts_bind (shifts_bind (shifts_line "package %s" [ex.PackageName]) shifts_lf rfl)
    (shifts_bind (balanced_writeImports env iter)
      (shifts_bind (balanced_writeInterface env ex)
        (shifts_bind (balanced_writeVars env ex)
          (shifts_bind
            (shifts_forRange (fun object => balanced_writeObjectResolver env object) ex.Objects)
            (shifts_bind (shifts_line "var parsedSchema = schema.MustParse(%s)"
                [env.Quote ex.schemaRaw])
              (shifts_line "var _ = fmt.Print" []) rfl) rfl) rfl) rfl) rfl) rfl
    ⟨"", 0⟩ w h
  simpa using this

/-! ## The output of write -/

@[simp] theorem sprintf_package (a : String) : Sprintf "package %s" [a] = "package " ++ a := by
  apply String.ext; simp [Sprintf, sprintfAux, sprintfExtra]
@[simp] theorem sprintf_plain_import : Sprintf "import (" [] = "import (" := by decide
@[simp] theorem sprintf_aliased (a b : String) : Sprintf "%s %s" [a, b] = a ++ " " ++ b := by
  apply String.ext; simp [Sprintf, sprintfAux, sprintfExtra]
@[simp] theorem sprintf_schema (a : String) :
    Sprintf "var parsedSchema = schema.MustParse(%s)" [a]
      = "var parsedSchema = schema.MustParse(" ++ a ++ ")" := by
  apply String.ext; simp [Sprintf, sprintfAux, sprintfExtra]
@[simp] theorem sprintf_plain_hack : Sprintf "var _ = fmt.Print" [] = "var _ = fmt.Print" := by
  decide

theorem writePackage_eq (ex : Extractor) (out : String) {n : Int} (h : 0 ≤ n) :
    writePackage ex ⟨out, n⟩ = some ⟨out ++ (ln n ("package " ++ ex.PackageName) ++ "\n"), n⟩ := by
  simp [writePackage, line_eq _ _ _ h, lf_eq, String.append_assoc]

theorem writeImports_eq (env : Env) (iter : List (String × String)) (out : String) {n : Int}
    (h : 0 ≤ n) :
    writeImports env iter ⟨out, n⟩
      = some ⟨out ++ (ln n "import (" ++ catAll (iter.map (importLine env (n + 1)))
          ++ ln n ")" ++ "\n"), n⟩ := by
  have h1 : 0 ≤ n + 1 := by omega
  have hloop := forRange_text
    (fun (e : String × String) w =>
      if e.1 = env.Base e.2 then line (env.Quote e.2) [] w
      else line "%s %s" [e.1, env.Quote e.2] w)
    (importLine env (n + 1)) (n + 1) (fun e out => by
      unfold importLine
      by_cases he : e.1 = env.Base e.2 <;> simp [he, line_eq _ _ _ h1])
  simp [writeImports, begin_eq _ _ _ h, hloop, end_eq _ _ _ h, lf_eq, String.append_assoc]

theorem writeSchema_eq (env : Env) (ex : Extractor) (out : String) {n : Int} (h : 0 ≤ n) :
    writeSchema env ex ⟨out, n⟩
      = some ⟨out ++ ln n ("var parsedSchema = schema.MustParse(" ++ env.Quote ex.schemaRaw
          ++ ")"), n⟩ := by
  simp [writeSchema, line_eq _ _ _ h]

theorem importHack_eq (out : String) {n : Int} (h : 0 ≤ n) :
    importHack ⟨out, n⟩ = some ⟨out ++ ln n "var _ = fmt.Print", n⟩ := by
  simp [importHack, line_eq _ _ _ h]

theorem emission_of_some {f : Writer → Option Writer} {n : Int} {text : String}
    (h : ∀ out, f ⟨out, n⟩ = some ⟨out ++ text, n⟩) : emission f n = some text :=
  emission_of_eq (o := some text) (fun out => by simp [h])

theorem writeObjectResolver_framed (env : Env) (object : Object) {n : Int} (h : 0 ≤ n) :
    Framed (writeObjectResolver env object) n := by
  refine framed_of_eq (o := (lcFirst env object.Type_.GraphQLName).bind fun name =>
      (allTexts (fun field => caseText env object field (n + 2)) object.Fields).map
        fun cases =>
          ln n ("func _" ++ name
              ++ "(ec *executionContext, sel []query.Selection, it *"
              ++ env.Local object.Type_ ++ ") jsonw.Encodable \x7b")
            ++ ln (n + 1) ("groupedFieldSet := ec.collectFields(sel, " ++ name
              ++ "Satisfies, map[string]bool\x7b\x7d)")
            ++ ln (n + 1) "resultMap := jsonw.Map\x7b\x7d"
            ++ ln (n + 1) "for _, field := range groupedFieldSet \x7b"
            ++ ln (n + 2) "switch field.Name \x7b"
            ++ catAll cases
            ++ ln (n + 2) "\x7d"
            ++ ln (n + 2) "panic(\"unknown field \" + strconv.Quote(field.Name))"
            ++ ln (n + 1) "\x7d"
            ++ ln (n + 1) "return resultMap"
            ++ ln n "\x7d" ++ "\n") (fun out => ?_)
  rw [writeObjectResolver_eq _ _ _ h]
  cases lcFirst env object.Type_.GraphQLName with
  | none => rfl
  | some name =>
    cases allTexts (fun field => caseText env object field (n + 2)) object.Fields <;> rfl

/-- The output of `write` is the concatenation of the emissions of its steps,
all at indent 0. -/
theorem write_eq (env : Env) (ex : Extractor) (iter : List (String × String)) :
    write env ex iter
      = (emission (writeVars env ex) 0).bind fun vars =>
          (allTexts (fun object => emission (writeObjectResolver env object) 0) ex.Objects).map
            fun dispatchers =>
            ⟨ln 0 ("package " ++ ex.PackageName) ++ "\n"
              ++ (ln 0 "import (" ++ catAll (iter.map (importLine env 1)) ++ ln 0 ")" ++ "\n")
              ++ (ln 0 "type Resolvers interface \x7b"
                  ++ catAll (ex.Objects.flatMap fun o =>
                      (abstractFields o).map (methodLine env 1 o))
                  ++ ln 0 "\x7d" ++ "\n")
              ++ vars
              ++ catAll dispatchers
              ++ ln 0 ("var parsedSchema = schema.MustParse(" ++ env.Quote ex.schemaRaw ++ ")")
              ++ ln 0 "var _ = fmt.Print", 0⟩ := by
  have h0 : (0 : Int) ≤ 0 := le_refl 0
  have hvars : Framed (writeVars env ex) 0 :=
    framed_of_eq (o := (allTexts (satisfiesLine env (0 + 1)) ex.Objects).map fun lines =>
        ln 0 "var (" ++ catAll lines ++ ln 0 ")" ++ "\n")
      (fun out => by rw [writeVars_eq env ex out h0, Option.map_map]; rfl)
  unfold write
  simp only [Option.bind_eq_bind, writePackage_eq _ _ h0, Option.some_bind,
    writeImports_eq _ _ _ h0, writeInterface_eq _ _ _ h0, hvars _]
  cases emission (writeVars env ex) 0 with
  | none => rfl
  | some vars =>
    simp only [Option.map_some', Option.some_bind]
    rw [forRange_opt _ (fun object => emission (writeObjectResolver env object) 0) 0
      (fun object out => writeObjectResolver_framed env object h0 out)]
    cases allTexts (fun object => emission (writeObjectResolver env object) 0) ex.Objects with
    | none => rfl
    | some dispatchers =>
      simp [writeSchema_eq _ _ _ h0, importHack_eq _ h0, String.append_assoc]

theorem lcFirst_isSome (env : Env) (s : String) : (lcFirst env s).isSome = (s != "") := by
  cases s with
  | mk data =>
    cases data with
    | nil => rfl
    | cons c cs =>
      have hne : (String.mk (c :: cs) != "") = true := by
        simp only [bne_iff_ne, ne_eq]
        intro hh
        have := congrArg String.data hh
        simp at this
      rw [hne]
      rfl

theorem ucFirst_isSome (env : Env) (s : String) : (ucFirst env s).isSome = (s != "") := by
  cases s with
  | mk data =>
    cases data with
    | nil => rfl
    | cons c cs =>
      have hne : (String.mk (c :: cs) != "") = true := by
        simp only [bne_iff_ne, ne_eq]
        intro hh
        have := congrArg String.data hh
        simp at this
      rw [hne]
      rfl

theorem allTexts_isSome {α : Type} (text : α → Option String) :
    ∀ xs : List α, (allTexts text xs).isSome = xs.all fun x => (text x).isSome := by
  intro xs
  induction xs with
  | nil => rfl
  | cons x xs ih =>
    rw [allTexts, List.all_cons, ← ih]
    cases text x <;> cases allTexts text xs <;> rfl

theorem baseText_isSome (env : Env) (r : String) (t : GqlType) (v : String) (p : Bool)
    (n : Int) : (baseText env r t v p n).isSome = baseNamed t := by
  unfold baseText baseNamed
  by_cases hb : t.Basic = true
  · simp only [hb, if_true, Option.isSome_map', ucFirst_isSome]
  · simp only [hb, Bool.false_eq_true, if_false]
    by_cases hi : t.Implementors.length > 0
    · simp only [hi, if_true, Option.isSome_map', allTexts_isSome, implementorArms,
        lcFirst_isSome]
    · simp only [hi, if_false, Option.isSome_map', lcFirst_isSome]

theorem emission_isSome (env : Env) (t : GqlType) (mods : List String) (r v : String)
    (p : Bool) {n : Int} (h : 0 ≤ n) :
    (emission (doWriteJsonType env r t v mods p) n).isSome = baseNamed t := by
  rw [emission_blocks_any env t mods r v p n h, Option.isSome_map',
    emission_nil _ _ _ _ _ (innermost_indent_nonneg env mods r v p n h), baseText_isSome]

theorem caseText_isSome (env : Env) (object : Object) (field : Field) {n : Int} (h : 0 ≤ n) :
    (caseText env object field n).isSome = baseNamed field.Type_ := by
  have h1 : 0 ≤ n + 1 := by omega
  have hw : emission (writeJsonType env "json" field.Type_ "res") (n + 1)
      = emission (doWriteJsonType env "json" field.Type_ "res" field.Type_.Modifiers false)
          (n + 1) := rfl
  rw [caseText, Option.isSome_map', hw]
  exact emission_isSome env field.Type_ field.Type_.Modifiers "json" "res" false h1

theorem emission_writeObjectResolver_isSome (env : Env) (object : Object) {n : Int}
    (h : 0 ≤ n) :
    (emission (writeObjectResolver env object) n).isSome = objectNamed object := by
  have h2 : 0 ≤ n + 2 := by omega
  have hfun : (fun field => (caseText env object field (n + 2)).isSome)
      = fun field : Field => baseNamed field.Type_ := by
    funext field; exact caseText_isSome env object field h2
  have := emission_of_eq (f := writeObjectResolver env object) (n := n)
    (o := (lcFirst env object.Type_.GraphQLName).bind fun name =>
      (allTexts (fun field => caseText env object field (n + 2)) object.Fields).map
        fun cases =>
          ln n ("func _" ++ name
              ++ "(ec *executionContext, sel []query.Selection, it *"
              ++ env.Local object.Type_ ++ ") jsonw.Encodable \x7b")
            ++ ln (n + 1) ("groupedFieldSet := ec.collectFields(sel, " ++ name
              ++ "Satisfies, map[string]bool\x7b\x7d)")
            ++ ln (n + 1) "resultMap := jsonw.Map\x7b\x7d"
            ++ ln (n + 1) "for _, field := range groupedFieldSet \x7b"
            ++ ln (n + 2) "switch field.Name \x7b"
            ++ catAll cases
            ++ ln (n + 2) "\x7d"
            ++ ln (n + 2) "panic(\"unknown field \" + strconv.Quote(field.Name))"
            ++ ln (n + 1) "\x7d"
            ++ ln (n + 1) "return resultMap"
            ++ ln n "\x7d" ++ "\n") (fun out => by
      rw [writeObjectResolver_eq _ _ _ h]
      cases lcFirst env object.Type_.GraphQLName with
      | none => rfl
      | some name =>
        cases allTexts (fun field => caseText env object field (n + 2)) object.Fields <;> rfl)
  rw [this, objectNamed, ← lcFirst_isSome env]
  cases lcFirst env object.Type_.GraphQLName with
  | none => rfl
  | some name =>
    simp only [Option.some_bind, Option.isSome_map', allTexts_isSome, hfun, Option.isSome_some,
      Bool.true_and]

theorem write_isSome (env : Env) (ex : Extractor) (iter : List (String × String)) :
    (write env ex iter).isSome = modelNamed ex := by
  have h0 : (0 : Int) ≤ 0 := le_refl 0
  have hvars : emission (writeVars env ex) 0
      = (allTexts (satisfiesLine env (0 + 1)) ex.Objects).map fun lines =>
        ln 0 "var (" ++ catAll lines ++ ln 0 ")" ++ "\n" :=
    emission_of_eq (fun out => by rw [writeVars_eq env ex out h0, Option.map_map]; rfl)
  have hds : (allTexts (fun object => emission (writeObjectResolver env object) 0)
      ex.Objects).isSome = ex.Objects.all objectNamed := by
    rw [allTexts_isSome]
    congr 1
    funext object
    exact emission_writeObjectResolver_isSome env object h0
  have hv : (emission (writeVars env ex) 0).isSome
      = ex.Objects.all fun o => o.Type_.GraphQLName != "" := by
    rw [hvars, Option.isSome_map', allTexts_isSome]
    congr 1
    funext o
    rw [satisfiesLine, Option.isSome_map', lcFirst_isSome]
  have himp : ex.Objects.all objectNamed = true →
      (ex.Objects.all fun o => o.Type_.GraphQLName != "") = true := by
    intro hall
    rw [List.all_eq_true] at hall ⊢
    intro o ho
    have := hall o ho
    rw [objectNamed, Bool.and_eq_true] at this
    exact this.1
  rw [write_eq, modelNamed]
  cases hE : emission (writeVars env ex) 0 with
  | none =>
    rw [hE] at hv
    cases hall : ex.Objects.all objectNamed with
    | false => rfl
    | true => rw [himp hall] at hv; exact absurd hv (by simp)
  | some vars =>
    simp only [Option.some_bind, Option.isSome_map', hds]

/-! ## C14 and C15: the whole output -/

/-- C14, the code at the failing input: the model `exTwoImports` has
the two imports `context` and `fmt`.  Both orders of the two entries are iteration
orders of the map, and `write` gives two different texts for them: the import
lines follow the iteration order. -/
theorem import_order_follows_iteration :
    [("context", "context"), ("fmt", "fmt")].Perm exTwoImports.Imports
    ∧ [("fmt", "fmt"), ("context", "context")].Perm exTwoImports.Imports
    ∧ write exEnv exTwoImports [("context", "context"), ("fmt", "fmt")]
      = some ⟨"package gen\n\nimport (\n\t\"context\"\n\t\"fmt\"\n)\n\ntype Resolvers interface \x7b\n\x7d\n\nvar (\n)\n\nvar parsedSchema = schema.MustParse(\"\")\nvar _ = fmt.Print\n", 0⟩
    ∧ write exEnv exTwoImports [("fmt", "fmt"), ("context", "context")]
      = some ⟨"package gen\n\nimport (\n\t\"fmt\"\n\t\"context\"\n)\n\ntype Resolvers interface \x7b\n\x7d\n\nvar (\n)\n\nvar parsedSchema = schema.MustParse(\"\")\nvar _ = fmt.Print\n", 0⟩
    ∧ write exEnv exTwoImports [("context", "context"), ("fmt", "fmt")]
      ≠ write exEnv exTwoImports [("fmt", "fmt"), ("context", "context")] := by
  refine ⟨by decide, by decide, by decide, by decide, by decide⟩

/-- C15, the claim as stated, fails: for the model `exPostModel` the text that
`write` produces is not the concatenation of the package declaration,
the imports, the resolver interface, the satisfies table, the dispatchers and the
schema declaration; the line `var _ = fmt.Print` follows the schema
declaration. -/
theorem output_not_six_parts :
    (write exEnv exPostModel []).map (fun w => w.out)
      ≠ ((emission (writePackage exPostModel) 0).bind fun pkg =>
          (emission (writeImports exEnv []) 0).bind fun imports =>
          (emission (writeInterface exEnv exPostModel) 0).bind fun iface =>
          (emission (writeVars exEnv exPostModel) 0).bind fun vars =>
          (allTexts (fun object => emission (writeObjectResolver exEnv object) 0)
            exPostModel.Objects).bind fun dispatchers =>
          (emission (writeSchema exEnv exPostModel) 0).map fun schema =>
            pkg ++ imports ++ iface ++ vars ++ catAll dispatchers ++ schema)
    ∧ write exEnv exPostModel []
      = some ⟨"package gen\n\nimport (\n)\n\ntype Resolvers interface \x7b\n\x7d\n\nvar (\n\tpostSatisfies = []string\x7b\"Post\"\x7d\n)\n\nfunc _post(ec *executionContext, sel []query.Selection, it *Post) jsonw.Encodable \x7b\n\tgroupedFieldSet := ec.collectFields(sel, postSatisfies, map[string]bool\x7b\x7d)\n\tresultMap := jsonw.Map\x7b\x7d\n\tfor _, field := range groupedFieldSet \x7b\n\t\tswitch field.Name \x7b\n\t\t\x7d\n\t\tpanic(\"unknown field \" + strconv.Quote(field.Name))\n\t\x7d\n\treturn resultMap\n\x7d\n\nvar parsedSchema = schema.MustParse(\"type Post\")\nvar _ = fmt.Print\n", 0⟩ := by
  refine ⟨by decide, by decide⟩

/-- C15, amended.  For every model and every iteration order of the imports,
the text that `write` produces is, in this order: the package declaration;
the import declarations; the resolver interface; the satisfies table; one
dispatcher function per object, in the objects' order; the declaration
`var parsedSchema = schema.MustParse(<quoted schema text>)`; and last the line
`var _ = fmt.Print`.  Each part is the emission of its step at indent 0, and
`write` panics exactly when one of the steps panics. -/
theorem output_contract (env : Env) (ex : Extractor) (iter : List (String × String)) :
    write env ex iter
      = ((emission (writePackage ex) 0).bind fun pkg =>
          (emission (writeImports env iter) 0).bind fun imports =>
          (emission (writeInterface env ex) 0).bind fun iface =>
          (emission (writeVars env ex) 0).bind fun vars =>
          (allTexts (fun object => emission (writeObjectResolver env object) 0)
            ex.Objects).bind fun dispatchers =>
          (emission (writeSchema env ex) 0).bind fun schema =>
          (emission importHack 0).map fun hack =>
            ⟨pkg ++ imports ++ iface ++ vars ++ catAll dispatchers ++ schema ++ hack, 0⟩)
    ∧ emission (writePackage ex) 0 = some (ln 0 ("package " ++ ex.PackageName) ++ "\n")
    ∧ emission (writeSchema env ex) 0
        = some (ln 0 ("var parsedSchema = schema.MustParse(" ++ env.Quote ex.schemaRaw ++ ")"))
    ∧ emission importHack 0 = some (ln 0 "var _ = fmt.Print")
    ∧ (∀ dispatchers,
        allTexts (fun object => emission (writeObjectResolver env object) 0) ex.Objects
          = some dispatchers → dispatchers.length = ex.Objects.length) := by
  have h0 : (0 : Int) ≤ 0 := le_refl 0
  have hpkg : emission (writePackage ex) 0 = some (ln 0 ("package " ++ ex.PackageName) ++ "\n") :=
    emission_of_some (fun out => writePackage_eq ex out h0)
  have himp := emission_of_some (fun out => writeImports_eq env iter out h0)
  have hifc := emission_of_some (fun out => writeInterface_eq env ex out h0)
  have hsch : emission (writeSchema env ex) 0
      = some (ln 0 ("var parsedSchema = schema.MustParse(" ++ env.Quote ex.schemaRaw ++ ")")) :=
    emission_of_some (fun out => writeSchema_eq env ex out h0)
  have hhack : emission importHack 0 = some (ln 0 "var _ = fmt.Print") :=
    emission_of_some (fun out => importHack_eq out h0)
  refine ⟨?_, hpkg, hsch, hhack, fun ds hds => allTexts_length _ _ _ hds⟩
  rw [write_eq, hpkg, himp, hifc, hsch, hhack]
  simp only [Option.some_bind, Option.map_some']
  cases emission (writeVars env ex) 0 with
  | none => rfl
  | some vars =>
    cases allTexts (fun object => emission (writeObjectResolver env object) 0) ex.Objects with
    | none => rfl
    | some dispatchers => simp [String.append_assoc]

/-! ## C19: the indent is balanced -/

/-- C19 (balanced indentation).  Each of `writeImports`, `writeInterface`,
`writeVars`, `writeObjectResolver`, `writeFuncArgs`, `writeJsonType` and
`doWriteJsonType` is balanced: for every input and every writer on entry,
whenever it returns the indent is equal to its value on entry.  A run of
`write`, which starts at indent 0, ends at indent 0 whenever it returns; and it
returns for every model whose names are not empty, so that no step of such a
run meets a negative indent (a negative indent makes `emitIndent` panic): the
only panic of `write` is the one on an empty name. -/
theorem indentation_balanced (env : Env) (ex : Extractor) (iter : List (String × String)) :
    Balanced (writeImports env iter)
    ∧ Balanced (writeInterface env ex)
    ∧ Balanced (writeVars env ex)
    ∧ (∀ object, Balanced (writeObjectResolver env object))
    ∧ (∀ object field, Balanced (writeFuncArgs env object field))
    ∧ (∀ result t val, Balanced (writeJsonType env result t val))
    ∧ (∀ result t val mods isPtr, Balanced (doWriteJsonType env result t val mods isPtr))
    ∧ (∀ w, write env ex iter = some w → w.indent = 0)
    ∧ (write env ex iter).isSome = modelNamed ex :=
  ⟨balanced_writeImports env iter, balanced_writeInterface env ex, balanced_writeVars env ex,
    balanced_writeObjectResolver env, balanced_writeFuncArgs env,
    balanced_writeJsonType env,
    fun result t val mods isPtr => balanced_doWriteJsonType env t mods result val isPtr,
    write_indent env ex iter, write_isSome env ex iter⟩

theorem indentation_balanced_witness :
    modelNamed exPostModel = true ∧ (write exEnv exPostModel []).isSome = true :=
  ⟨by decide,
    (indentation_balanced exEnv exPostModel []).2.2.2.2.2.2.2.2.trans (by decide)⟩

/-! ## C20: empty names -/

theorem bind_none_of_forall {α β : Type} (o : Option α) {g : α → Option β}
    (h : ∀ x, g x = none) : o.bind g = none := by
  cases o with
  | none => rfl
  | some x => exact h x

theorem forRange_none {α : Type} (body : α → Writer → Option Writer) :
    ∀ (xs : List α), (∃ x ∈ xs, ∀ w, body x w = none) → ∀ w, forRange xs body w = none := by
  intro xs
  induction xs with
  | nil => intro h; obtain ⟨x, hx, _⟩ := h; simp at hx
  | cons y ys ih =>
    intro h w
    rw [forRange]
    obtain ⟨x, hx, hnone⟩ := h
    rcases List.mem_cons.mp hx with rfl | hmem
    · rw [hnone w]; rfl
    · exact bind_none_of_forall _ (fun w1 => ih ⟨x, hmem, hnone⟩ w1)

theorem lcFirst_empty (env : Env) (s : String) (h : (s != "") = false) :
    lcFirst env s = none := by
  have := lcFirst_isSome env s
  rw [h] at this
  cases hl : lcFirst env s with
  | none => rfl
  | some r => rw [hl] at this; simp at this

theorem ucFirst_empty (env : Env) (s : String) (h : (s != "") = false) :
    ucFirst env s = none := by
  have := ucFirst_isSome env s
  rw [h] at this
  cases hl : ucFirst env s with
  | none => rfl
  | some r => rw [hl] at this; simp at this

theorem writeJsonBase_none (env : Env) (result : String) (t : GqlType) (val : String)
    (isPtr : Bool) (w : Writer) (h : baseNamed t = false) :
    writeJsonBase env result t val isPtr w = none := by
  unfold baseNamed at h
  rw [writeJsonBase]
  by_cases hb : t.Basic = true
  · simp only [hb, if_true] at h ⊢
    rw [ucFirst_empty env t.Name h]
    rfl
  · simp only [hb, Bool.false_eq_true, if_false] at h ⊢
    by_cases hi : t.Implementors.length > 0
    · simp only [hi, if_true] at h ⊢
      have hex : ∃ i ∈ t.Implementors, (i.GraphQLName != "") = false := by
        by_contra hcon
        have : (t.Implementors.all fun i => i.GraphQLName != "") = true := by
          rw [List.all_eq_true]
          intro i hi'
          by_contra hf
          exact hcon ⟨i, hi', by simpa using hf⟩
        rw [this] at h
        exact absurd h (by simp)
      obtain ⟨i, hmem, hi'⟩ := hex
      refine bind_none_of_forall _ (fun w1 => bind_none_of_forall _ (fun w2 =>
        bind_none_of_forall _ (fun w3 => bind_none_of_forall _ (fun w4 => ?_))))
      rw [forRange_none _ t.Implementors ⟨i, hmem, fun w5 => by
        rw [lcFirst_empty env i.GraphQLName hi']
        exact bind_none_of_forall _ (fun _ => rfl)⟩]
      rfl
    · simp only [hi, if_false] at h ⊢
      rw [lcFirst_empty env t.GraphQLName h]
      rfl

theorem doWriteJsonType_none (env : Env) (t : GqlType) (h : baseNamed t = false) :
    ∀ (mods : List String) (result val : String) (isPtr : Bool) (w : Writer),
      doWriteJsonType env result t val mods isPtr w = none := by
  intro mods
  induction mods with
  | nil =>
    intro result val isPtr w
    rw [doWriteJsonType_nil]
    exact writeJsonBase_none env result t val isPtr w h
  | cons m rest ih =>
    intro result val isPtr w
    rw [doWriteJsonType]
    by_cases hp : m = env.modPtr
    · rw [if_pos hp]
      exact bind_none_of_forall _ (fun w1 => bind_none_of_forall _ (fun w2 => by
        rw [ih]; rfl))
    · rw [if_neg hp]
      by_cases hl : m = env.modList
      · rw [if_pos hl]
        exact bind_none_of_forall _ (fun w1 => bind_none_of_forall _ (fun w2 => by
          rw [ih]; rfl))
      · rw [if_neg hl]
        exact ih result val isPtr w

/-- C20 (`lcFirst` and `ucFirst`).  On a string that is not empty, `lcFirst`
and `ucFirst` return a string with the same number of characters, whose first
character is the image of the first character of the argument under
`unicode.ToLower` (`unicode.ToUpper`) and whose characters after the first are
those of the argument.  On the empty string both panic.  So the generation
panics on an empty name: `writeVars` when an object's type has an empty
`GraphQLName`, `writeObjectResolver` on such an object, the serializer when the
name that its base case prints is empty (for every sequence of tags and every
writer), and `write` on a model that holds such an object or field type. -/
theorem first_letter_safety (env : Env) :
    (∀ s : String, s ≠ "" → ∃ r, lcFirst env s = some r ∧ r.length = s.length
        ∧ r.data.tail = s.data.tail ∧ r.data.head? = s.data.head?.map env.ToLower)
    ∧ (∀ s : String, s ≠ "" → ∃ r, ucFirst env s = some r ∧ r.length = s.length
        ∧ r.data.tail = s.data.tail ∧ r.data.head? = s.data.head?.map env.ToUpper)
    ∧ lcFirst env "" = none
    ∧ ucFirst env "" = none
    ∧ (∀ (ex : Extractor) (w : Writer), (∃ o ∈ ex.Objects, o.Type_.GraphQLName = "") →
        writeVars env ex w = none)
    ∧ (∀ (object : Object) (w : Writer), object.Type_.GraphQLName = "" →
        writeObjectResolver env object w = none)
    ∧ (∀ (result : String) (t : GqlType) (val : String) (mods : List String) (isPtr : Bool)
        (w : Writer), baseNamed t = false →
        doWriteJsonType env result t val mods isPtr w = none)
    ∧ (∀ (ex : Extractor) (iter : List (String × String)), modelNamed ex = false →
        write env ex iter = none) := by
  refine ⟨?_, ?_, rfl, rfl, ?_, ?_, ?_, ?_⟩
  · intro s hs
    cases s with
    | mk data =>
      cases data with
      | nil => exact absurd rfl hs
      | cons c cs => exact ⟨⟨env.ToLower c :: cs⟩, rfl, rfl, rfl, rfl⟩
  · intro s hs
    cases s with
    | mk data =>
      cases data with
      | nil => exact absurd rfl hs
      | cons c cs => exact ⟨⟨env.ToUpper c :: cs⟩, rfl, rfl, rfl, rfl⟩
  · intro ex w hex
    obtain ⟨o, ho, hname⟩ := hex
    rw [writeVars]
    refine bind_none_of_forall _ (fun w1 => ?_)
    rw [forRange_none _ ex.Objects ⟨o, ho, fun w2 => by
      show (lcFirst env o.Type_.GraphQLName).bind _ = none
      rw [hname]
      rfl⟩]
    rfl
  · intro object w hname
    rw [writeObjectResolver, hname]
    rfl
  · intro result t val mods isPtr w h
    exact doWriteJsonType_none env t h mods result val isPtr w
  · intro ex iter h
    have := write_isSome env ex iter
    rw [h] at this
    cases hw : write env ex iter with
    | none => rfl
    | some w => rw [hw] at this; simp at this

theorem first_letter_safety_witness :
    ("user" : String) ≠ "" ∧ lcFirst exEnv "User" = some "user"
    ∧ ucFirst exEnv "string" = some "String"
    ∧ writeObjectResolver exEnv ⟨"Post", .mk "Post" "" false [] [], [], []⟩ ⟨"", 0⟩ = none :=
  ⟨by decide, by decide, by decide,
    (first_letter_safety exEnv).2.2.2.2.2.1 ⟨"Post", .mk "Post" "" false [] [], [], []⟩ ⟨"", 0⟩
      rfl⟩

/-! ## C2: the fatal path -/

/-- C2 (fatal path).  For every object, at any indent `n ≥ 0` and after any
output, `writeObjectResolver` emits exactly: the function header, the two
set-up lines, the opening of the per-field loop, `switch field.Name {`, then
one case per field of the object in field order (none for an object without
fields), then the line `}` closing the switch, then the single line
`panic("unknown field " + strconv.Quote(field.Name))` inside the loop, then the
end of the loop, `return resultMap` and the end of the function.  The case of a
field is exactly: the line `case <quoted dispatch key>:`, the evaluation of the
field into `res`, the serialization of `res` into `json`, the line
`resultMap.Set(field.Alias, json)`, the line `continue`, and the line that
`end("")` writes; it is written exactly when the name that the base case of
the field's type prints is not empty.  The whole dispatcher is written exactly
when the name of the object's type and those names of its fields are not
empty; otherwise the run panics. -/
theorem fatal_path_structure (env : Env) (object : Object) (out : String) (n : Int)
    (h : 0 ≤ n) :
    writeObjectResolver env object ⟨out, n⟩
      = (lcFirst env object.Type_.GraphQLName).bind (fun name =>
          (allTexts (fun field => emission (writeObjectResolverCase env object field) (n + 2))
            object.Fields).map fun cases =>
            ⟨out ++ ln n ("func _" ++ name
                ++ "(ec *executionContext, sel []query.Selection, it *"
                ++ env.Local object.Type_ ++ ") jsonw.Encodable \x7b")
              ++ ln (n + 1) ("groupedFieldSet := ec.collectFields(sel, " ++ name
                ++ "Satisfies, map[string]bool\x7b\x7d)")
              ++ ln (n + 1) "resultMap := jsonw.Map\x7b\x7d"
              ++ ln (n + 1) "for _, field := range groupedFieldSet \x7b"
              ++ ln (n + 2) "switch field.Name \x7b"
              ++ catAll cases
              ++ ln (n + 2) "\x7d"
              ++ ln (n + 2) "panic(\"unknown field \" + strconv.Quote(field.Name))"
              ++ ln (n + 1) "\x7d"
              ++ ln (n + 1) "return resultMap"
              ++ ln n "\x7d" ++ "\n", n⟩)
    ∧ (∀ cases, allTexts (fun field =>
          emission (writeObjectResolverCase env object field) (n + 2)) object.Fields = some cases →
        cases.length = object.Fields.length)
    ∧ (∀ field, emission (writeObjectResolverCase env object field) (n + 2)
        = (emission (writeJsonType env "json" field.Type_ "res") (n + 3)).map fun ser =>
            ln (n + 2) ("case " ++ env.Quote field.GraphQLName ++ ":")
              ++ evaluateText env object field (n + 3)
              ++ ser
              ++ ln (n + 3) "resultMap.Set(field.Alias, json)"
              ++ ln (n + 3) "continue"
              ++ ln (n + 2) "")
    ∧ (∀ field, (emission (writeObjectResolverCase env object field) (n + 2)).isSome
        = baseNamed field.Type_)
    ∧ (writeObjectResolver env object ⟨out, n⟩).isSome = objectNamed object := by
  have h2 : 0 ≤ n + 2 := by omega
  have hfun : (fun field => emission (writeObjectResolverCase env object field) (n + 2))
      = fun field => caseText env object field (n + 2) := by
    funext field; exact emission_case env object field h2
  refine ⟨?_, ?_, ?_, ?_, ?_⟩
  · rw [writeObjectResolver_eq _ _ _ h, hfun]
    simp only [String.append_assoc]
  · intro cases hc
    exact allTexts_length _ _ _ hc
  · intro field
    have h3 : n + 2 + 1 = n + 3 := by ring
    rw [emission_case env object field h2, caseText, h3]
  · intro field
    rw [emission_case env object field h2]
    exact caseText_isSome env object field h2
  · rw [writeObjectResolver_framed env object h out, Option.isSome_map']
    exact emission_writeObjectResolver_isSome env object h

theorem fatal_path_structure_witness :
    (0 : Int) ≤ 0
    ∧ writeObjectResolver exEnv exUser ⟨"", 0⟩
      = some ⟨"func _user(ec *executionContext, sel []query.Selection, it *User) jsonw.Encodable \x7b\n\tgroupedFieldSet := ec.collectFields(sel, userSatisfies, map[string]bool\x7b\x7d)\n\tresultMap := jsonw.Map\x7b\x7d\n\tfor _, field := range groupedFieldSet \x7b\n\t\tswitch field.Name \x7b\n\t\tcase \"friends\":\n\t\t\tres, err := ec.resolvers.User_friends(\n\t\t\t\tec.ctx,\n\t\t\t\tit,\n\t\t\t\tfield.Args[\"first\"].(string),\n\t\t\t)\n\t\t\tif err != nil \x7b\n\t\t\t\tec.Error(err)\n\t\t\t\tcontinue\n\t\t\t\x7d\n\t\t\tjson := jsonw.String(res)\n\t\t\tresultMap.Set(field.Alias, json)\n\t\t\tcontinue\n\t\t\n\t\tcase \"name\":\n\t\t\tres := it.Name\n\t\t\tjson := jsonw.String(res)\n\t\t\tresultMap.Set(field.Alias, json)\n\t\t\tcontinue\n\t\t\n\t\t\x7d\n\t\tpanic(\"unknown field \" + strconv.Quote(field.Name))\n\t\x7d\n\treturn resultMap\n\x7d\n\n", 0⟩ :=
  ⟨by decide,
    (fatal_path_structure exEnv exUser "" 0 (by decide)).1.trans (by decide)⟩

/-! ## C17: the result variable is declared first -/

/-- C17 (the result variable is declared first).  For every type, every
sequence of tags (a tag that is neither `modPtr` nor `modList` is passed over),
every value reference, either value of `isPtr` and any indent `n ≥ 0`: the
serializer appends the same emission after any output, and it emits a text
exactly when the name that the base case prints for the type is not empty
(else it panics).  The text is the declarations and openings of the blocks,
outermost first, then the base case, then the closings of the blocks, innermost
first; it starts with the declaration of exactly the variable `result` at
indent `n`, either `var result jsonw.Encodable = jsonw.Null` or `result := …`;
the declaration of the `k`-th block declares `result` followed by `k`
characters `1`, at indent `n + k`, and the base case declares `result` followed
by as many `1` as there are blocks, at the indent `n` plus the number of
blocks.  In a case of the dispatcher, which is the case line, the evaluation of
the field, the serialization, `resultMap.Set(field.Alias, json)`, `continue`
and the line of `end("")`, the serialization is emitted exactly when the
base-case name of the field's type is not empty and starts by declaring `json`
at the indent at which the line `resultMap.Set(field.Alias, json)` follows
it. -/
theorem result_declared_first (env : Env) (t : GqlType) (mods : List String)
    (result val : String) (isPtr : Bool) (n : Int) (h : 0 ≤ n) :
    Framed (doWriteJsonType env result t val mods isPtr) n
    ∧ (emission (doWriteJsonType env result t val mods isPtr) n).isSome = baseNamed t
    ∧ (∀ X, emission (doWriteJsonType env result t val mods isPtr) n = some X →
        DeclaresFirst result n X)
    ∧ emission (doWriteJsonType env result t val mods isPtr) n
        = (emission (doWriteJsonType env (innermost env result val isPtr n mods).1 t
              (innermost env result val isPtr n mods).2.1 []
              (innermost env result val isPtr n mods).2.2.1)
            (innermost env result val isPtr n mods).2.2.2).map (fun base =>
          catAll ((blocks env result val isPtr n mods).map fun b => b.decl ++ b.opening)
            ++ base
            ++ catAll ((blocks env result val isPtr n mods).reverse.map fun b => b.closing))
    ∧ (∀ (k : Nat) (b : Block), (blocks env result val isPtr n mods)[k]? = some b →
        b.decl = ln (n + k) ("var " ++ (result ++ ones k) ++ " jsonw.Encodable = jsonw.Null")
        ∨ b.decl = ln (n + k) ((result ++ ones k) ++ " := jsonw.Array\x7b\x7d"))
    ∧ (innermost env result val isPtr n mods).1
        = result ++ ones (blocks env result val isPtr n mods).length
    ∧ (innermost env result val isPtr n mods).2.2.2
        = n + (blocks env result val isPtr n mods).length
    ∧ (emission (doWriteJsonType env (innermost env result val isPtr n mods).1 t
            (innermost env result val isPtr n mods).2.1 []
            (innermost env result val isPtr n mods).2.2.1)
          (innermost env result val isPtr n mods).2.2.2).isSome = baseNamed t
    ∧ (∀ base, emission (doWriteJsonType env (innermost env result val isPtr n mods).1 t
            (innermost env result val isPtr n mods).2.1 []
            (innermost env result val isPtr n mods).2.2.1)
          (innermost env result val isPtr n mods).2.2.2 = some base →
        DeclaresFirst (result ++ ones (blocks env result val isPtr n mods).length)
          (n + (blocks env result val isPtr n mods).length) base)
    ∧ (∀ (object : Object) (field : Field),
        emission (writeObjectResolverCase env object field) n
          = (emission (writeJsonType env "json" field.Type_ "res") (n + 1)).map (fun ser =>
              ln n ("case " ++ env.Quote field.GraphQLName ++ ":")
                ++ evaluateText env object field (n + 1)
                ++ ser
                ++ ln (n + 1) "resultMap.Set(field.Alias, json)"
                ++ ln (n + 1) "continue"
                ++ ln n "")
        ∧ (emission (writeJsonType env "json" field.Type_ "res") (n + 1)).isSome
            = baseNamed field.Type_
        ∧ ∀ ser, emission (writeJsonType env "json" field.Type_ "res") (n + 1) = some ser →
            DeclaresFirst "json" (n + 1) ser) := by
  have h1 : 0 ≤ n + 1 := by omega
  obtain ⟨hres, hind⟩ := innermost_result env mods result val isPtr n
  have hn' : 0 ≤ (innermost env result val isPtr n mods).2.2.2 :=
    innermost_indent_nonneg env mods result val isPtr n h
  refine ⟨doWriteJsonType_framed env t mods result val isPtr n h,
    emission_isSome env t mods result val isPtr h,
    declaresFirst_emission env t mods result val isPtr n h,
    emission_blocks_any env t mods result val isPtr n h,
    blocks_decl env mods result val isPtr n, hres, hind,
    emission_isSome env t [] _ _ _ hn', ?_, ?_⟩
  · intro base hbase
    have := declaresFirst_emission env t [] _ _ _ _ hn' base hbase
    rw [hres, hind] at this
    exact this
  · intro object field
    refine ⟨?_, emission_isSome env field.Type_ field.Type_.Modifiers "json" "res" false h1,
      declaresFirst_emission env field.Type_ field.Type_.Modifiers "json" "res" false (n + 1) h1⟩
    rw [emission_case env object field h, caseText]

theorem result_declared_first_witness :
    (0 : Int) ≤ 0
    ∧ doWriteJsonType exEnv "json" tString "res" ["!", "[]", "*"] false ⟨"", 0⟩
      = some ⟨"json := jsonw.Array\x7b\x7d\nfor _, val := range res \x7b\n\tvar json1 jsonw.Encodable = jsonw.Null\n\tif val != nil \x7b\n\t\tjson11 := jsonw.String(*val)\n\t\tjson1 = json11\n\t\x7d\n\tjson = append(json, json1)\n\x7d\n", 0⟩
    ∧ DeclaresFirst "json" 0
        "json := jsonw.Array\x7b\x7d\nfor _, val := range res \x7b\n\tvar json1 jsonw.Encodable = jsonw.Null\n\tif val != nil \x7b\n\t\tjson11 := jsonw.String(*val)\n\t\tjson1 = json11\n\t\x7d\n\tjson = append(json, json1)\n\x7d\n" :=
  ⟨by decide,
    ((result_declared_first exEnv tString ["!", "[]", "*"] "json" "res" false 0
      (by decide)).1 "").trans (by decide),
    (result_declared_first exEnv tString ["!", "[]", "*"] "json" "res" false 0 (by decide)).2.2.1
      _ (by decide)⟩

/-! ## C16: a field with a binding and a delegated call -/

theorem allTexts_comp {α β : Type} (text : β → Option String) (g : α → β) :
    ∀ xs : List α, allTexts text (xs.map g) = allTexts (fun x => text (g x)) xs := by
  intro xs
  induction xs with
  | nil => rfl
  | cons x xs ih => rw [List.map_cons, allTexts, allTexts, ih]

/-- The text of an element is a part of the concatenation of all texts. -/
theorem allTexts_mem {α : Type} (text : α → Option String) :
    ∀ (xs : List α) (ss : List String) (x : α), allTexts text xs = some ss → x ∈ xs →
      ∃ s before after, text x = some s ∧ catAll ss = before ++ s ++ after := by
  intro xs
  induction xs with
  | nil => intro ss x _ hx; simp at hx
  | cons y ys ih =>
    intro ss x hss hx
    rw [allTexts] at hss
    cases hy : text y with
    | none => simp [hy] at hss
    | some s =>
      cases hys : allTexts text ys with
      | none => simp [hy, hys] at hss
      | some ss' =>
        simp only [hy, hys, Option.some_bind, Option.map_some', Option.some.injEq] at hss
        rcases List.mem_cons.mp hx with hxy | hxys
        · subst hxy
          refine ⟨s, "", catAll ss', hy, ?_⟩
          rw [← hss, catAll]
          simp
        · obtain ⟨s', before, after, hs', hcat⟩ := ih ss' x hys hxys
          refine ⟨s', s ++ before, after, hs', ?_⟩
          rw [← hss, catAll, hcat]
          simp only [String.append_assoc]

theorem dropMethod_of_var {f : Field} (h : f.VarName ≠ "") :
    f.dropMethod = { f with MethodName := "" } := by
  rw [Field.dropMethod, if_pos h]

theorem dropMethod_of_not_var {f : Field} (h : ¬ f.VarName ≠ "") : f.dropMethod = f := by
  rw [Field.dropMethod, if_neg h]

theorem caseText_dropMethods (env : Env) (o : Object) (f : Field) (n : Int) :
    caseText env o.dropMethods f.dropMethod n = caseText env o f n := by
  by_cases hv : f.VarName ≠ ""
  · rw [dropMethod_of_var hv]
    simp only [caseText, evaluateText, if_pos hv]
  · rw [dropMethod_of_not_var hv]
    rfl

theorem abstractFields_dropMethods (o : Object) :
    abstractFields o.dropMethods = abstractFields o := by
  have key : ∀ fs : List Field,
      (fs.map Field.dropMethod).filter (fun f => decide (f.VarName = "" ∧ f.MethodName = ""))
        = fs.filter fun f => decide (f.VarName = "" ∧ f.MethodName = "") := by
    intro fs
    induction fs with
    | nil => rfl
    | cons f fs ih =>
      by_cases hv : f.VarName ≠ ""
      · have h1 : decide (f.VarName = "" ∧ f.MethodName = "") = false := by simp [hv]
        have h2 : decide (f.dropMethod.VarName = "" ∧ f.dropMethod.MethodName = "") = false := by
          rw [dropMethod_of_var hv]; simp [hv]
        rw [List.map_cons, List.filter_cons, List.filter_cons, h1, h2, ih]
        rfl
      · rw [List.map_cons, dropMethod_of_not_var hv, List.filter_cons, List.filter_cons, ih]
  exact key o.Fields

theorem writeObjectResolver_dropMethods (env : Env) (o : Object) (out : String) {n : Int}
    (h : 0 ≤ n) :
    writeObjectResolver env o.dropMethods ⟨out, n⟩ = writeObjectResolver env o ⟨out, n⟩ := by
  have hcases : allTexts (fun field => caseText env o.dropMethods field (n + 2))
      o.dropMethods.Fields = allTexts (fun field => caseText env o field (n + 2)) o.Fields := by
    show allTexts _ (o.Fields.map Field.dropMethod) = _
    rw [allTexts_comp]
    congr 1
    funext f
    exact caseText_dropMethods env o f (n + 2)
  rw [writeObjectResolver_eq _ _ _ h, writeObjectResolver_eq _ _ _ h, hcases]
  rfl

/-- The run does not read `MethodName` of a field that has a `VarName`. -/
theorem write_dropMethods (env : Env) (ex : Extractor) (iter : List (String × String)) :
    write env ex.dropMethods iter = write env ex iter := by
  have h0 : (0 : Int) ≤ 0 := le_refl 0
  have hvars : emission (writeVars env ex.dropMethods) 0 = emission (writeVars env ex) 0 := by
    have e : ∀ ex : Extractor, emission (writeVars env ex) 0
        = (allTexts (satisfiesLine env (0 + 1)) ex.Objects).map fun lines =>
          ln 0 "var (" ++ catAll lines ++ ln 0 ")" ++ "\n" := fun ex =>
      emission_of_eq (fun out => by rw [writeVars_eq env ex out h0, Option.map_map]; rfl)
    rw [e, e]
    show (allTexts _ (ex.Objects.map Object.dropMethods)).map _ = _
    rw [allTexts_comp]
    rfl
  have hds : allTexts (fun object => emission (writeObjectResolver env object) 0)
      ex.dropMethods.Objects
        = allTexts (fun object => emission (writeObjectResolver env object) 0) ex.Objects := by
    show allTexts _ (ex.Objects.map Object.dropMethods) = _
    rw [allTexts_comp]
    congr 1
    funext o
    show (writeObjectResolver env o.dropMethods ⟨"", 0⟩).map _ = _
    rw [writeObjectResolver_dropMethods env o "" h0]
    rfl
  have hint : (ex.dropMethods.Objects.flatMap fun o =>
        (abstractFields o).map (methodLine env 1 o))
      = ex.Objects.flatMap fun o => (abstractFields o).map (methodLine env 1 o) := by
    show ((ex.Objects.map Object.dropMethods).flatMap _) = _
    induction ex.Objects with
    | nil => rfl
    | cons o os ih =>
      rw [List.map_cons, List.flatMap_cons, List.flatMap_cons, ih, abstractFields_dropMethods]
      rfl
  rw [write_eq, write_eq, hvars, hds, hint]
  rfl

theorem part_append_left (a : String) {c d : String}
    (h : ∃ before after, d = before ++ c ++ after) :
    ∃ before after, a ++ d = before ++ c ++ after := by
  obtain ⟨before, after, hd⟩ := h
  exact ⟨a ++ before, after, by rw [hd]; simp only [String.append_assoc]⟩

theorem part_append_right (b : String) {c d : String}
    (h : ∃ before after, d = before ++ c ++ after) :
    ∃ before after, d ++ b = before ++ c ++ after := by
  obtain ⟨before, after, hd⟩ := h
  exact ⟨before, after ++ b, by rw [hd]; simp only [String.append_assoc]⟩

/-- The case of each field is a part of the emission of the dispatcher. -/
theorem emission_writeObjectResolver_mem (env : Env) (object : Object) {n : Int} (h : 0 ≤ n)
    (field : Field) (hfield : field ∈ object.Fields) (d : String)
    (hd : emission (writeObjectResolver env object) n = some d) :
    ∃ c before after, caseText env object field (n + 2) = some c ∧ d = before ++ c ++ after := by
  rw [emission, writeObjectResolver_eq _ _ _ h] at hd
  cases hname : lcFirst env object.Type_.GraphQLName with
  | none => simp [hname] at hd
  | some name =>
    cases hcases : allTexts (fun field => caseText env object field (n + 2)) object.Fields with
    | none => simp [hname, hcases] at hd
    | some cases =>
      obtain ⟨c, before, after, hc, hcat⟩ := allTexts_mem _ _ _ field hcases hfield
      simp only [hname, hcases, Option.some_bind, Option.map_some', Option.some.injEq] at hd
      obtain ⟨b, a, hba⟩ : ∃ before after, d = before ++ c ++ after := by
        rw [← hd]
        refine part_append_left _ ?_
        iterate 6 refine part_append_right _ ?_
        refine part_append_left _ ?_
        exact ⟨before, after, hcat⟩
      exact ⟨c, b, a, hc, hba⟩

/-- The emission of the dispatcher of each object is a part of the output of
the run, which ends at indent 0. -/
theorem write_mem (env : Env) (ex : Extractor) (iter : List (String × String))
    (object : Object) (hobject : object ∈ ex.Objects) (w : Writer)
    (hw : write env ex iter = some w) :
    w.indent = 0 ∧ ∃ d before after, emission (writeObjectResolver env object) 0 = some d
      ∧ w.out = before ++ d ++ after := by
  rw [write_eq] at hw
  cases hv : emission (writeVars env ex) 0 with
  | none => simp [hv] at hw
  | some vars =>
    cases hds : allTexts (fun object => emission (writeObjectResolver env object) 0)
        ex.Objects with
    | none => simp [hv, hds] at hw
    | some ds =>
      obtain ⟨d, before, after, hd, hcat⟩ := allTexts_mem _ _ _ object hds hobject
      simp only [hv, hds, Option.some_bind, Option.map_some', Option.some.injEq] at hw
      obtain ⟨b, a, hba⟩ : ∃ before after, w.out = before ++ d ++ after := by
        rw [← hw]
        iterate 2 refine part_append_right _ ?_
        refine part_append_left _ ?_
        exact ⟨before, after, hcat⟩
      exact ⟨by rw [← hw], d, b, a, hd, hba⟩

/-- C16, the claim as stated, fails: for a model whose field `title` has both
`VarName` and `MethodName` set, `write` does not abort; it returns the whole
output, in which the field is read from its `VarName`. -/
theorem conflicting_field_not_rejected :
    exConflict.VarName ≠ "" ∧ exConflict.MethodName ≠ ""
    ∧ write exEnv exConflictModel []
      = some ⟨"package gen\n\nimport (\n)\n\ntype Resolvers interface \x7b\n\x7d\n\nvar (\n\tpostSatisfies = []string\x7b\"Post\"\x7d\n)\n\nfunc _post(ec *executionContext, sel []query.Selection, it *Post) jsonw.Encodable \x7b\n\tgroupedFieldSet := ec.collectFields(sel, postSatisfies, map[string]bool\x7b\x7d)\n\tresultMap := jsonw.Map\x7b\x7d\n\tfor _, field := range groupedFieldSet \x7b\n\t\tswitch field.Name \x7b\n\t\tcase \"title\":\n\t\t\tres := it.Title\n\t\t\tjson := jsonw.String(res)\n\t\t\tresultMap.Set(field.Alias, json)\n\t\t\tcontinue\n\t\t\n\t\t\x7d\n\t\tpanic(\"unknown field \" + strconv.Quote(field.Name))\n\t\x7d\n\treturn resultMap\n\x7d\n\nvar parsedSchema = schema.MustParse(\"\")\nvar _ = fmt.Print\n", 0⟩ := by
  decide

/-- C16, amended.  A field with `VarName` set, and so a field with both
`VarName` and `MethodName` set, is not rejected: the generator treats it as
Bound and does not read its `MethodName`.  The run on the model is the run on
the model with `MethodName` cleared in every field that has a `VarName` (the
same output, or the same abort), and it returns exactly when the names it
prints are not empty, whatever `VarName` and `MethodName` are; its output is
the package clause, the imports, the interface with one method per field that
has neither name, the satisfies tables, the dispatchers, the schema and the
last line.  For such a field of an object of the model: it is not among the
fields for which `writeInterface` emits a method, and the body of that loop
leaves the writer as it is; the case that `writeObjectResolver` emits for it is the direct read
`res := <VarName>` followed by the serialization, `resultMap.Set` and
`continue`, the case of the same field without `MethodName`; and when the names
are not empty, the run returns, at indent 0, an output that holds that case,
at the indent of the cases of a dispatcher. -/
theorem conflicting_field_is_bound (env : Env) (ex : Extractor)
    (iter : List (String × String)) (object : Object) (field : Field)
    (hobject : object ∈ ex.Objects) (hfield : field ∈ object.Fields)
    (hvar : field.VarName ≠ "") :
    write env ex iter = write env ex.dropMethods iter
    ∧ (write env ex iter).isSome = modelNamed ex
    ∧ write env ex iter
      = (emission (writeVars env ex) 0).bind (fun vars =>
          (allTexts (fun object => emission (writeObjectResolver env object) 0) ex.Objects).map
            fun dispatchers =>
            ⟨ln 0 ("package " ++ ex.PackageName) ++ "\n"
              ++ (ln 0 "import (" ++ catAll (iter.map (importLine env 1)) ++ ln 0 ")" ++ "\n")
              ++ (ln 0 "type Resolvers interface \x7b"
                  ++ catAll (ex.Objects.flatMap fun o =>
                      (abstractFields o).map (methodLine env 1 o))
                  ++ ln 0 "\x7d" ++ "\n")
              ++ vars
              ++ catAll dispatchers
              ++ ln 0 ("var parsedSchema = schema.MustParse(" ++ env.Quote ex.schemaRaw ++ ")")
              ++ ln 0 "var _ = fmt.Print", 0⟩)
    ∧ field ∉ abstractFields object
    ∧ (∀ (out : String) (n : Int), 0 ≤ n →
        writeInterfaceField env object field ⟨out, n⟩ = some ⟨out, n⟩)
    ∧ (∀ (out : String) (n : Int), 0 ≤ n →
        writeObjectResolverCase env object field ⟨out, n⟩
          = (emission (writeJsonType env "json" field.Type_ "res") (n + 1)).map (fun ser =>
              ⟨out ++ ln n ("case " ++ env.Quote field.GraphQLName ++ ":")
                ++ ln (n + 1) ("res := " ++ field.VarName)
                ++ ser
                ++ ln (n + 1) "resultMap.Set(field.Alias, json)"
                ++ ln (n + 1) "continue"
                ++ ln n "", n⟩))
    ∧ (∀ (out : String) (n : Int), 0 ≤ n →
        writeObjectResolverCase env object field ⟨out, n⟩
          = writeObjectResolverCase env object { field with MethodName := "" } ⟨out, n⟩)
    ∧ (modelNamed ex = true → ∃ w ser before after,
        write env ex iter = some w ∧ w.indent = 0
        ∧ emission (writeJsonType env "json" field.Type_ "res") 3 = some ser
        ∧ w.out = before
            ++ (ln 2 ("case " ++ env.Quote field.GraphQLName ++ ":")
                ++ ln 3 ("res := " ++ field.VarName)
                ++ ser
                ++ ln 3 "resultMap.Set(field.Alias, json)"
                ++ ln 3 "continue"
                ++ ln 2 "")
            ++ after) := by
  refine ⟨(write_dropMethods env ex iter).symm, write_isSome env ex iter, write_eq env ex iter,
    ?_, ?_, ?_, ?_, ?_⟩
  · intro hmem
    rw [abstractFields, List.mem_filter] at hmem
    have := hmem.2
    simp only [decide_eq_true_eq] at this
    exact hvar this.1
  · intro out n h
    rw [writeInterfaceField_eq _ _ _ _ h]
    simp [hvar]
  · intro out n h
    rw [writeObjectResolverCase_eq _ _ _ _ h, caseText, Option.map_map]
    congr 1
    funext ser
    simp only [Function.comp, evaluateText, if_pos hvar, String.append_assoc]
  · intro out n h
    rw [writeObjectResolverCase_eq _ _ _ _ h, writeObjectResolverCase_eq _ _ _ _ h]
    simp only [caseText, evaluateText, if_pos hvar]
  · intro hnamed
    have hsome := write_isSome env ex iter
    rw [hnamed] at hsome
    cases hw : write env ex iter with
    | none => rw [hw] at hsome; simp at hsome
    | some w =>
      obtain ⟨hind, d, b1, a1, hd, hout⟩ := write_mem env ex iter object hobject w hw
      obtain ⟨c, b2, a2, hc, hdc⟩ :=
        emission_writeObjectResolver_mem env object (le_refl 0) field hfield d hd
      have h3 : (0 : Int) + 2 + 1 = 3 := rfl
      have h2 : (0 : Int) + 2 = 2 := rfl
      rw [caseText, h3, h2] at hc
      cases hser : emission (writeJsonType env "json" field.Type_ "res") 3 with
      | none => rw [hser] at hc; simp at hc
      | some ser =>
        rw [hser, Option.map_some', Option.some.injEq] at hc
        refine ⟨w, ser, b1 ++ b2, a2 ++ a1, rfl, hind, rfl, ?_⟩
        rw [hout, hdc, ← hc]
        simp only [evaluateText, if_pos hvar, String.append_assoc]

theorem conflicting_field_is_bound_witness :
    (⟨"Post", tPost, [exConflict], []⟩ : Object) ∈ exConflictModel.Objects
    ∧ exConflict ∈ [exConflict]
    ∧ exConflict.VarName ≠ "" ∧ exConflict.MethodName ≠ ""
    ∧ modelNamed exConflictModel = true
    ∧ write exEnv exConflictModel []
      = some ⟨"package gen\n\nimport (\n)\n\ntype Resolvers interface \x7b\n\x7d\n\nvar (\n\tpostSatisfies = []string\x7b\"Post\"\x7d\n)\n\nfunc _post(ec *executionContext, sel []query.Selection, it *Post) jsonw.Encodable \x7b\n\tgroupedFieldSet := ec.collectFields(sel, postSatisfies, map[string]bool\x7b\x7d)\n\tresultMap := jsonw.Map\x7b\x7d\n\tfor _, field := range groupedFieldSet \x7b\n\t\tswitch field.Name \x7b\n\t\tcase \"title\":\n\t\t\tres := it.Title\n\t\t\tjson := jsonw.String(res)\n\t\t\tresultMap.Set(field.Alias, json)\n\t\t\tcontinue\n\t\t\n\t\t\x7d\n\t\tpanic(\"unknown field \" + strconv.Quote(field.Name))\n\t\x7d\n\treturn resultMap\n\x7d\n\nvar parsedSchema = schema.MustParse(\"\")\nvar _ = fmt.Print\n", 0⟩
    ∧ ∃ w ser before after,
        write exEnv exConflictModel [] = some w ∧ w.indent = 0
        ∧ emission (writeJsonType exEnv "json" exConflict.Type_ "res") 3 = some ser
        ∧ w.out = before
            ++ (ln 2 ("case " ++ exEnv.Quote exConflict.GraphQLName ++ ":")
                ++ ln 3 ("res := " ++ exConflict.VarName)
                ++ ser
                ++ ln 3 "resultMap.Set(field.Alias, json)"
                ++ ln 3 "continue"
                ++ ln 2 "")
            ++ after :=
  ⟨List.mem_singleton.mpr rfl, List.mem_singleton.mpr rfl, by decide, by decide, by decide,
    (conflicting_field_is_bound exEnv exConflictModel [] ⟨"Post", tPost, [exConflict], []⟩
      exConflict (List.mem_singleton.mpr rfl) (List.mem_singleton.mpr rfl)
      (by decide)).1.trans (by decide),
    (conflicting_field_is_bound exEnv exConflictModel [] ⟨"Post", tPost, [exConflict], []⟩
      exConflict (List.mem_singleton.mpr rfl) (List.mem_singleton.mpr rfl)
      (by decide)).2.2.2.2.2.2.2 (by decide)⟩

end Dumper
